import Mathlib

/-!
# Verification of the `mannequin` tree / kinematics core

A shallow embedding, in Lean 4, of the arena-allocated tree
(`src/arena/directed.rs`, `src/arena/depth.rs`, `src/arena/utils.rs`), the
path-accumulation scans (`src/forward.rs`, `src/rigid.rs`,
`src/arena/depth.rs`), the differentiable model (`src/differentiable.rs`)
and the differential inverse solver (`src/inverse.rs`), together with proofs
of the structural and functional properties stated in the specification.

Rust `usize` indices are modelled as `Nat` (no index arithmetic in the
sources can overflow short of exhausting memory), the `HashMap` id lookup is
modelled as an association list whose `insert` shadows older entries (the
observable behaviour of `HashMap::insert`), fallible operations return
`Except`/`Option`, and loops whose termination is not syntactically obvious
in the source are given explicit fuel; theorems establish that the fuel
suffices on the states the claims quantify over.  External collaborators
(the `Rigid` payload and the linear solver) are parameters of the
definitions, exactly as they are type parameters in the source.
-/

namespace Mannequin

/-- The error enum `MannequinError` from `src/errors.rs` (the variants the
core can produce). -/
inductive MannequinError (Id : Type) where
  | referenceOutOfBound (index : Nat)
  | unknownNode (id : Id)
  | rootNotSet
  | notUnique (id : Id)
  deriving DecidableEq, Repr

/-- `ArenaNode` from `src/arena/directed.rs`: payload, own arena index,
external id, child indices, subtree width, depth and optional parent
index. -/
structure ArenaNode (Load Id : Type) where
  load : Load
  index : Nat
  id : Id
  children : List Nat
  width : Nat
  depth : Nat
  parentRef : Option Nat
  deriving DecidableEq, Repr

/-- Association-list model of the `HashMap<NodeId, usize>` id lookup.
Insertion prepends; `lookupGet` returns the most recent binding, which is
observably the same as `HashMap::insert` overwriting. -/
def lookupInsert {Id : Type} (m : List (Id × Nat)) (k : Id) (v : Nat) :
    List (Id × Nat) :=
  (k, v) :: m

/-- `HashMap::get`, on the association-list model. -/
def lookupGet {Id : Type} [DecidableEq Id] (m : List (Id × Nat)) (k : Id) :
    Option Nat :=
  match m with
  | [] => none
  | (k', v) :: rest => if k' = k then some v else lookupGet rest k

/-- `DirectedArenaTree` from `src/arena/directed.rs`: flat node storage plus
the id lookup. -/
structure DirectedArenaTree (Load Id : Type) where
  nodes : List (ArenaNode Load Id)
  lookup : List (Id × Nat)

/-- `node_by_id` (`src/arena/directed.rs`, lines 190-198): resolve the id
through the lookup map, then fetch the node at the stored index
(`self.nodes.get(*index)`). -/
def nodeById {Load Id : Type} [DecidableEq Id] (t : DirectedArenaTree Load Id)
    (i : Id) : Option (ArenaNode Load Id) :=
  match lookupGet t.lookup i with
  | none => none
  | some idx => t.nodes[idx]?

/-- `set_root` (`src/arena/directed.rs`, lines 291-298): clears the node
storage (`self.nodes.clear()`), pushes a fresh root node (index 0, width 1,
depth 0, no parent) and inserts its id into the lookup map.  Note that the
source does *not* clear the lookup map. -/
def setRoot {Load Id : Type} [DecidableEq Id] (t : DirectedArenaTree Load Id)
    (rootLoad : Load) (rootRef : Id) : DirectedArenaTree Load Id :=
  { nodes := [⟨rootLoad, 0, rootRef, [], 1, 0, none⟩],
    lookup := lookupInsert t.lookup rootRef 0 }

/-- The ancestor walk inside `add` (`src/arena/directed.rs`, lines 264-270):
`while let Some(parent_ref) = parent.parent_ref { parent = get_mut(..); parent.width += 1 }`.
Fuel models the unbounded `while`; `none` is an exhausted fuel or an
out-of-bounds parent reference (`ReferenceOutOfBound`), both unreachable on
well-formed trees. -/
def widthWalk {Load Id : Type} (nodes : List (ArenaNode Load Id)) :
    Nat → Nat → Option (List (ArenaNode Load Id))
  | _, 0 => none
  | cur, fuel + 1 =>
    match nodes[cur]? with
    | none => none
    | some nd =>
      match nd.parentRef with
      | none => some nodes
      | some r =>
        match nodes[r]? with
        | none => none
        | some rn => widthWalk (nodes.set r { rn with width := rn.width + 1 }) r fuel

/-- `add` (`src/arena/directed.rs`, lines 235-289).  Mirrors the source's
order of operations: resolve the parent id (`UnknownNode` on failure), take
`index = nodes.len()`, reject a duplicate id (`NotUnique`) before any
mutation, re-fetch the parent mutably (`ReferenceOutOfBound` on failure),
push the new index onto the parent's child list and bump its width, walk the
ancestor chain bumping widths, register the id, and append the new node with
`depth = parent.depth + 1`, width 1 and no children.  The outer `Option` is
the fuel of the ancestor walk. -/
def add {Load Id : Type} [DecidableEq Id] (t : DirectedArenaTree Load Id)
    (load : Load) (nodeRef : Id) (parent : Id) :
    Option (DirectedArenaTree Load Id × Except (MannequinError Id) Id) :=
  match nodeById t parent with
  | none => some (t, .error (.unknownNode parent))
  | some parentNode =>
    let index := t.nodes.length
    if t.nodes.any (fun n => n.id = nodeRef) then
      some (t, .error (.notUnique nodeRef))
    else
      let parentIndex := parentNode.index
      match t.nodes[parentIndex]? with
      | none => some (t, .error (.referenceOutOfBound parentIndex))
      | some pNode =>
        let depth := pNode.depth + 1
        let nodes1 := t.nodes.set parentIndex
          { pNode with children := pNode.children ++ [index], width := pNode.width + 1 }
        match widthWalk nodes1 parentIndex (t.nodes.length + 1) with
        | none => none
        | some nodes2 =>
          some ({ nodes := nodes2 ++ [⟨load, index, nodeRef, [], 1, depth, some parentIndex⟩],
                  lookup := lookupInsert t.lookup nodeRef index },
                .ok nodeRef)

/-- Swap two list entries, as `slice::swap` (out-of-bounds panics cannot occur
on the inputs the theorems quantify over; the identity fallback keeps the
function total). -/
def swapAt {α : Type} (l : List α) (i j : Nat) : List α :=
  match l[i]?, l[j]? with
  | some a, some b => (l.set i b).set j a
  | _, _ => l

/-- The inner cycle-following loop of `sort_by_indices`
(`src/arena/utils.rs`, lines 11-19): read the slot's destination, mark the
slot settled, stop once the destination is settled, otherwise swap and
follow the cycle.  Fuel models the unbounded `loop`. -/
def cycleLoop {α : Type} (data : List α) (ind : List Nat) (cur : Nat) :
    Nat → Option (List α × List Nat)
  | 0 => none
  | fuel + 1 =>
    let target := ind.getD cur 0
    let ind' := ind.set cur cur
    if ind'.getD target 0 = target then some (data, ind')
    else cycleLoop (swapAt data cur target) ind' target fuel

/-- The outer loop of `sort_by_indices` (`src/arena/utils.rs`, lines 8-21):
`for idx in 0..data.len()`, entering the cycle loop at every slot that is
not yet settled. -/
def sortOuter {α : Type} (n : Nat) :
    List Nat → List α → List Nat → Option (List α × List Nat)
  | [], data, ind => some (data, ind)
  | idx :: rest, data, ind =>
    if ind.getD idx 0 ≠ idx then
      match cycleLoop data ind idx (n + 1) with
      | none => none
      | some (data', ind') => sortOuter n rest data' ind'
    else sortOuter n rest data ind

/-- `sort_by_indices` (`src/arena/utils.rs`, lines 7-22): the in-place
cycle-following permutation application.  `none` only on fuel exhaustion,
which the theorems rule out for permutations. -/
def sortByIndices {α : Type} (data : List α) (ind : List Nat) :
    Option (List α) :=
  (sortOuter data.length (List.range data.length) data ind).map Prod.fst

/-- Modelled from the spec's words (§4.3 step 3 and §8): the naive
allocate-a-second-array-and-copy reordering, used as the reference the
in-place permutation is compared against.  `dflt` stands for the
out-of-bounds value that the naive copy could never actually read when
`ind` is a permutation. -/
def naiveReorder {α : Type} (dflt : α) (data : List α) (ind : List Nat) :
    List α :=
  ind.map fun i => data.getD i dflt

/-- The cumulative effect on the index vector of marking the slots of `ps`
settled (`indices[current_idx] = ArenaIndex(current_idx)`), in visiting
order. -/
def settleAll (ind : List Nat) (ps : List Nat) : List Nat :=
  ps.foldl (fun m p => m.set p p) ind

/-- The loop invariant of `sort_by_indices`: `σ` is the original index
vector read as a function, `data₀` the original data.  Settled slots
(`ind[k] = k`) already hold their final value `data₀[σ k]`; unsettled slots
still hold their original index and value, and the unsettled set is closed
under `σ`. -/
def SortInv {α : Type} (data₀ : List α) (σ : Nat → Nat) (data : List α)
    (ind : List Nat) : Prop :=
  data.length = data₀.length ∧
  ind.length = data₀.length ∧
  (∀ k, k < data₀.length → ind.getD k 0 = k ∨ ind.getD k 0 = σ k) ∧
  (∀ k, k < data₀.length → ind.getD k 0 ≠ k → ind.getD (σ k) 0 ≠ σ k) ∧
  (∀ k, k < data₀.length → ind.getD k 0 = k → data[k]? = data₀[σ k]?) ∧
  (∀ k, k < data₀.length → ind.getD k 0 ≠ k → data[k]? = data₀[k]?)

/-- `ps` is a chain under the index vector `ind`: each slot's stored
destination is the next chain element, and the last slot's destination is
`q`. -/
def chainStep (ind : List Nat) : List Nat → Nat → Prop
  | [], _ => True
  | [p], q => ind.getD p 0 = q
  | p :: p' :: rest, q => ind.getD p 0 = p' ∧ chainStep ind (p' :: rest) q

/-- The data array `d'` holds, at each chain slot, the old value of the
next chain slot (the effect of the cycle-following swaps along `ps`,
except at the final slot). -/
def shiftChain {α : Type} (d' d : List α) : List Nat → Prop
  | [] => True
  | [_] => True
  | p :: p' :: rest => d'[p]? = d[p']? ∧ shiftChain d' d (p' :: rest)

/-- The depth-first traversal order produced by `DepthFirstIterator`
(`src/arena/directed.rs`, lines 343-368): a node, then the full traversal of
each of its children in order.  The explicit stack of child iterators in the
source realises exactly this pre-order; fuel models its unbounded descent
and never runs out on well-formed trees (children always have larger
indices). -/
def preorderAux {Load Id : Type} (nodes : List (ArenaNode Load Id)) :
    Nat → Nat → List Nat
  | 0, _ => []
  | fuel + 1, i =>
    match nodes[i]? with
    | none => []
    | some nd => i :: nd.children.flatMap (preorderAux nodes fuel)

/-- `iter_depth` (`src/arena/directed.rs`, lines 210-212) as the list of
visited arena indices, starting at the root index 0. -/
def preorder {Load Id : Type} (t : DirectedArenaTree Load Id) : List Nat :=
  preorderAux t.nodes t.nodes.length 0

/-- `update_child_indices` (`src/arena/directed.rs`, lines 142-155):
translate every stored child index and every node's own index through
`position_of(old, sequence)` (`indices.iter().position(|i| i == child_ref)`). -/
def updateChildIndices {Load Id : Type} (nodes : List (ArenaNode Load Id))
    (ord : List Nat) : List (ArenaNode Load Id) :=
  nodes.map fun nd =>
    { nd with children := nd.children.map (fun c => ord.indexOf c),
              index := ord.indexOf nd.index }

/-- `DepthFirstArenaTree` (`src/arena/depth.rs`, line 12): a newtype over the
directed tree whose storage is in depth-first order. -/
structure DepthFirstArenaTree (Load Id : Type) where
  tree : DirectedArenaTree Load Id

/-- `From<DirectedArenaTree> for DepthFirstArenaTree`
(`src/arena/depth.rs`, lines 14-32): capture the depth-first visitation
order, rewrite all stored indices through it, apply the permutation in
place with `sort_by_indices`, and re-insert every node's id into the lookup
map (the map is extended, not rebuilt from scratch). -/
def toDepthFirst {Load Id : Type} [DecidableEq Id]
    (t : DirectedArenaTree Load Id) : Option (DepthFirstArenaTree Load Id) :=
  let ord := preorder t
  let nodes1 := updateChildIndices t.nodes ord
  match sortByIndices nodes1 ord with
  | none => none
  | some nodes2 =>
    some ⟨{ nodes := nodes2,
            lookup := nodes2.foldl (fun m nd => lookupInsert m nd.id nd.index) t.lookup }⟩

/-- `iter_sub` (`src/arena/depth.rs`, lines 81-84):
`self.0.nodes[start..start + width]` for `start = root.index`,
`width = root.width`. -/
def iterSub {Load Id : Type} (t : DepthFirstArenaTree Load Id)
    (root : ArenaNode Load Id) : List (ArenaNode Load Id) :=
  (t.tree.nodes.drop root.index).take root.width

/-! ## Path accumulation (`src/forward.rs`, `src/rigid.rs`, `src/arena/depth.rs`) -/

/-- The body of the correct accumulation scan
(`src/forward.rs`, lines 103-116, and equivalently `src/rigid.rs`,
lines 68-86): trim the stack with `while node.depth() < stack.len() { stack.pop() }`
(the length is re-read at every test, so the loop leaves exactly the first
`depth` entries), combine the node with the top of the stack (`first` when
the stack is empty), push and emit.  `comb i n a` stands for
`concat(a, node.get().transform(params, index))`, the source's combining
step, generalised over the collaborator exactly as the source is generic
over `Rigid`. -/
def accScanGo {N A : Type} (dep : N → Nat) (comb : Nat → N → A → A)
    (first : A) : Nat → List A → List N → List (N × A)
  | _, _, [] => []
  | i, stack, n :: rest =>
    let stack' := stack.take (dep n)
    let current := comb i n (stack'.getLast?.getD first)
    (n, current) :: accScanGo dep comb first (i + 1) (stack' ++ [current]) rest

/-- `TransformationAccumulation::accumulate` (`src/forward.rs`,
lines 98-117): the scan over the node sequence with an initially empty
stack. -/
def accumulate {N A : Type} (dep : N → Nat) (comb : Nat → N → A → A)
    (first : A) (nodes : List N) : List (N × A) :=
  accScanGo dep comb first 0 [] nodes

/-- The pop loop of `DepthFirstAccumulation::accumulate`
(`src/arena/depth.rs`, lines 141-144, and `src/arena/accumulatable.rs`,
lines 53-55): `let depth = stack.len(); while node.depth() < depth { stack.pop(); }`.
The bound `snap` is a snapshot taken before the loop, so the condition never
changes; fuel exhaustion (`none`) models the resulting endless loop. -/
def snapPopLoop {A : Type} (nodeDepth snap : Nat) (stack : List A) :
    Nat → Option (List A)
  | 0 => none
  | fuel + 1 =>
    if nodeDepth < snap then snapPopLoop nodeDepth snap stack.dropLast fuel
    else some stack

/-- `DepthFirstAccumulation::accumulate` (`src/arena/depth.rs`,
lines 127-150): zip the nodes with the parameters and scan with the
snapshotted pop loop.  Every node's pop loop is given `fuel` steps; a
`none` result means some pop loop never terminated. -/
def depthAccumulateGo {N P A : Type} (dep : N → Nat)
    (acc : N → P → A → A) (first : A) (fuel : Nat) :
    List (N × P) → List A → Option (List (N × A))
  | [], _ => some []
  | (n, p) :: rest, stack =>
    match snapPopLoop (dep n) stack.length stack fuel with
    | none => none
    | some stack' =>
      let current := acc n p (stack'.getLast?.getD first)
      match depthAccumulateGo dep acc first fuel rest (stack' ++ [current]) with
      | none => none
      | some out => some ((n, current) :: out)

/-- `DepthFirstAccumulation::accumulate` (`src/arena/depth.rs`,
lines 127-150) run from the empty stack. -/
def depthAccumulate {N P A : Type} (dep : N → Nat) (acc : N → P → A → A)
    (first : A) (nodes : List N) (params : List P) (fuel : Nat) :
    Option (List (N × A)) :=
  depthAccumulateGo dep acc first fuel (nodes.zip params) []

/-- Modelled from the spec's words (§4.5 and §8): the parent of node `i` in
a depth-first sequence is the nearest previous node one level shallower. -/
def parentIdx (depths : List Nat) (i : Nat) : Option Nat :=
  (List.range i).reverse.find? fun j => depths.getD j 0 + 1 = depths.getD i 0

/-- Modelled from the spec's words (§4.5 and §8): the naive explicit
root-to-node walk, re-combining along the ancestor chain of node `i`.
Fuel bounds the chain (ancestor positions strictly decrease). -/
def pathValueAux {N A : Type} (dep : N → Nat) (comb : Nat → N → A → A)
    (first : A) (nodes : List N) : Nat → Nat → Option A
  | 0, _ => none
  | fuel + 1, i =>
    match nodes[i]? with
    | none => none
    | some n =>
      if dep n = 0 then some (comb i n first)
      else
        match parentIdx (nodes.map dep) i with
        | none => none
        | some j =>
          match pathValueAux dep comb first nodes fuel j with
          | none => none
          | some a => some (comb i n a)

/-- The naive ancestor-chain value of node `i` (spec side of the
path-accumulation claim). -/
def pathValue {N A : Type} (dep : N → Nat) (comb : Nat → N → A → A)
    (first : A) (nodes : List N) (i : Nat) : Option A :=
  pathValueAux dep comb first nodes (i + 1) i

/-! ## The differentiable model (`src/differentiable.rs`) -/

/-- The state of `DifferentiableModel` (`src/differentiable.rs`,
lines 77-90). -/
structure DifferentiableModel (F : Type) where
  matrix : List F
  configuration : List F
  rows : Nat
  cols : Nat
  offsets : List Nat
  sizes : List Nat
  selectedJoints : List Bool
  selectedEffectors : List Bool
  deriving Repr

/-- The `scan` computing per-node row offsets (`src/differentiable.rs`,
lines 136-145): emit the running offset, then advance it by the node's
effector size when the node is a selected effector. -/
def offsetsScan {Load Id : Type} [DecidableEq Id] (effSize : Load → Nat)
    (selE : List Id) (off : Nat) : List (ArenaNode Load Id) → List Nat
  | [] => []
  | n :: rest =>
    off :: offsetsScan effSize selE
      (if n.id ∈ selE then off + effSize n.load else off) rest

/-- `DifferentiableModel::setup` (`src/differentiable.rs`, lines 118-168):
per-node selection flags (an empty joint selection selects every joint),
row offsets, per-node sizes, total rows (sum of selected effector sizes),
total columns (count of selected joints), a zero-initialized `rows × cols`
matrix and a zero `rows` configuration buffer.  `effSize` is the payload
collaborator `effector_size`. -/
def setup {Load Id F : Type} [DecidableEq Id] [Zero F] (effSize : Load → Nat)
    (t : DepthFirstArenaTree Load Id) (selJ selE : List Id) :
    DifferentiableModel F :=
  let nodes := t.tree.nodes
  let selectedEffectors := nodes.map fun n => decide (n.id ∈ selE)
  let selectedJoints :=
    if selJ.isEmpty then List.replicate nodes.length true
    else nodes.map fun n => decide (n.id ∈ selJ)
  let rows := (nodes.map fun n => if n.id ∈ selE then effSize n.load else 0).sum
  let cols := selectedJoints.count true
  { matrix := List.replicate (rows * cols) 0,
    configuration := List.replicate rows 0,
    rows := rows,
    cols := cols,
    offsets := offsetsScan effSize selE 0 nodes,
    sizes := nodes.map fun n => effSize n.load,
    selectedJoints := selectedJoints,
    selectedEffectors := selectedEffectors }

/-- Write `vals` into `col` starting at `off` — the effect of the payload
collaborator writing one effector block at its row offset. -/
def writeBlock {F : Type} (col : List F) (off : Nat) : List F → List F
  | [] => col
  | v :: vs => writeBlock (col.set off v) (off + 1) vs

/-- One step of the Jacobian column fill: the body of the closure iterating
`iter_sub(joint_node)` (`src/differentiable.rs`, lines 227-238).  A quad
carries the effector node, its pose, its row offset and its selection flag;
a selected quad writes the partial-derivative block at its offset. -/
def fillStep {Load Id A F : Type} (effSize : Load → Nat)
    (pd : Load → A → Load → A → Nat → F) (jl : Load) (jp : A)
    (c : List F) (q : ArenaNode Load Id × A × Nat × Bool) : List F :=
  if q.2.2.2 then
    writeBlock c q.2.2.1
      ((List.range (effSize q.1.load)).map fun r => pd q.1.load q.2.1 jl jp r)
  else c

/-- `matrix.chunks_mut(rows)`: split a flat buffer into consecutive chunks
of size `k` (the last possibly shorter; `k = 0` panics in Rust and yields
`[]` here, unreachable under the claims' hypotheses). -/
def chunksOf {α : Type} (k : Nat) : List α → List (List α)
  | [] => []
  | a :: rest =>
    if _h : k = 0 then []
    else (a :: rest).take k :: chunksOf k ((a :: rest).drop k)
  termination_by l => l.length
  decreasing_by
    simp only [List.length_drop, List.length_cons]
    omega

/-- The per-column Jacobian fill of `DifferentiableModel::compute`
(`src/differentiable.rs`, lines 218-239): iterate `iter_sub(joint_node)`
zipped with the poses, offsets and effector flags skipped to the joint's
enumeration index, and for every selected effector write its
partial-derivative block at its row offset into the column.  `pd eff ep jl jp r`
is the `r`-th value the payload collaborator `partial_derivative` writes
for effector load `eff` with pose `ep` against joint load `jl` with pose
`jp`. -/
def fillColumn {Load Id A F : Type} (effSize : Load → Nat)
    (pd : Load → A → Load → A → Nat → F)
    (nodes : List (ArenaNode Load Id)) (trafos : List A) (offsets : List Nat)
    (selE : List Bool) (idx : Nat) (jointNode : ArenaNode Load Id)
    (jointPose : A) (col : List F) : List F :=
  let sub := (nodes.drop jointNode.index).take jointNode.width
  let quads := sub.zip ((trafos.drop idx).zip ((offsets.drop idx).zip (selE.drop idx)))
  quads.foldl
    (fun c q =>
      if q.2.2.2 then
        writeBlock c q.2.2.1
          ((List.range (effSize q.1.load)).map fun r =>
            pd q.1.load q.2.1 jointNode.load jointPose r)
      else c)
    col

/-- Zip the matrix columns with the filtered selected joints and fill each
(`src/differentiable.rs`, lines 207-239); columns beyond the joint list and
joints beyond the column list are dropped by the `zip`, as in the source. -/
def fillColumns {Load Id A F : Type} (effSize : Load → Nat)
    (pd : Load → A → Load → A → Nat → F)
    (nodes : List (ArenaNode Load Id)) (trafos : List A) (offsets : List Nat)
    (selE : List Bool) :
    List (List F) → List (Nat × ArenaNode Load Id × A) → List (List F)
  | cols, [] => cols
  | [], _ => []
  | c :: cs, (idx, nd, pose) :: js =>
    fillColumn effSize pd nodes trafos offsets selE idx nd pose c ::
      fillColumns effSize pd nodes trafos offsets selE cs js

/-- `ComputeSelection` (`src/differentiable.rs`, lines 16-23). -/
inductive ComputeSelection where
  | effectorsOnly
  | jacobianOnly
  | all
  deriving DecidableEq, Repr

/-- `DifferentiableModel::compute` (`src/differentiable.rs`,
lines 182-241): one accumulation pass computing every node's pose, then the
effector writes (for `EffectorsOnly`/`All`) and the per-selected-joint
Jacobian fill (for `JacobianOnly`/`All`).  `trans i l` is the payload
collaborator `transform(params, index)`, `concat`/`neutral` its transform
composition, `effOut l p r` the `r`-th value of `effector(pose, buffer,
offset)`, and `pd` the partial-derivative collaborator. -/
def compute {Load Id A F : Type} (trans : Nat → Load → A)
    (concat : A → A → A) (neutral : A) (effSize : Load → Nat)
    (effOut : Load → A → Nat → F) (pd : Load → A → Load → A → Nat → F)
    (m : DifferentiableModel F) (t : DepthFirstArenaTree Load Id)
    (selection : ComputeSelection) : DifferentiableModel F :=
  let nodes := t.tree.nodes
  let nodesTrafos :=
    accumulate (fun n => n.depth)
      (fun i n a => concat a (trans i n.load)) neutral nodes
  let trafos := nodesTrafos.map Prod.snd
  let configuration :=
    if selection = .effectorsOnly ∨ selection = .all then
      (nodes.zip (trafos.zip (m.selectedEffectors.zip m.offsets))).foldl
        (fun c q =>
          if q.2.2.1 then
            writeBlock c q.2.2.2
              ((List.range (effSize q.1.load)).map fun r => effOut q.1.load q.2.1 r)
          else c)
        m.configuration
    else m.configuration
  let matrix :=
    if selection = .jacobianOnly ∨ selection = .all then
      let joints :=
        ((nodes.zip trafos).enum.zip m.selectedJoints).filterMap
          fun q => if q.2 then some (q.1.1, q.1.2.1, q.1.2.2) else none
      (fillColumns effSize pd nodes trafos m.offsets m.selectedEffectors
        (chunksOf m.rows m.matrix) joints).flatten
    else m.matrix
  { m with matrix := matrix, configuration := configuration }

/-! ## The differential inverse solver (`src/inverse.rs`)

The numeric type is modelled as `ℚ`: the claims about the solver concern
its control flow and the data it carries, not floating-point rounding.
The collaborators are parameters: `eff p` is the flat effector
configuration after `compute(p, All)` (`flat_effectors`), and `lin p d` is
the update the external linear solver returns for the Jacobian at `p` and
right-hand side `d` (`RB::solve_linear`). -/

/-- `DiffIKInfo` (`src/inverse.rs`, lines 36-41). -/
structure DiffIKInfo where
  iterationCount : Nat
  squaredError : ℚ
  deriving DecidableEq, Repr

/-- The update application (`src/inverse.rs`, lines 130-133):
`params.iter_mut().zip(active).filter(active).zip(result)` — the k-th
active parameter is incremented by `result[k]`; once `result` is exhausted
the zip ends and the remaining parameters are untouched. -/
def applyActive : List ℚ → List Bool → List ℚ → List ℚ
  | [], _, _ => []
  | ps, [], _ => ps
  | p :: ps, a :: act, rs =>
    if a then
      match rs with
      | [] => p :: applyActive ps act []
      | r :: rs' => (p + r) :: applyActive ps act rs'
    else p :: applyActive ps act rs

/-- One pass of the `loop` body in `DifferentialInverseModel::solve`
(`src/inverse.rs`, lines 104-142) up to and including the parameter
update: residual, squared error, scaling, linear solve, update. -/
def solveStep (eff : List ℚ → List ℚ) (lin : List ℚ → List ℚ → List ℚ)
    (active : List Bool) (targets : List ℚ) (scale : ℚ)
    (params : List ℚ) : List ℚ :=
  let diff := (targets.zip (eff params)).map fun q => q.1 - q.2
  let scaled := diff.map (· * scale)
  applyActive params active (lin params scaled)

/-- The squared residual error computed in the loop
(`src/inverse.rs`, line 114): `diff.iter().map(|x| x*x).sum()` for
`diff = targets - flat_effectors(params)`. -/
def solveError (eff : List ℚ → List ℚ) (targets : List ℚ)
    (params : List ℚ) : ℚ :=
  (((targets.zip (eff params)).map fun q => q.1 - q.2).map fun x => x * x).sum

/-- The solver loop (`src/inverse.rs`, lines 104-142): compute, form the
residual and its squared error, scale, solve, apply the update, then break
if the (pre-update) error is below `minErr`, else increment the counter and
break if it reached `maxIter`.  Fuel models the unbounded `loop`; the
termination theorem shows `maxIter + 1` passes always suffice. -/
def solveGo (eff : List ℚ → List ℚ) (lin : List ℚ → List ℚ → List ℚ)
    (active : List Bool) (targets : List ℚ) (scale minErr : ℚ)
    (maxIter : Nat) : List ℚ → Nat → Nat → Option (List ℚ × DiffIKInfo)
  | _, _, 0 => none
  | params, counter, fuel + 1 =>
    let error := solveError eff targets params
    let params' := solveStep eff lin active targets scale params
    if error < minErr then some (params', ⟨counter, error⟩)
    else if counter + 1 ≥ maxIter then some (params', ⟨counter + 1, error⟩)
    else solveGo eff lin active targets scale minErr maxIter params' (counter + 1) fuel

/-- `DifferentialInverseModel::solve` (`src/inverse.rs`, lines 100-148),
started with counter 0 and enough fuel for the full iteration budget. -/
def solve (eff : List ℚ → List ℚ) (lin : List ℚ → List ℚ → List ℚ)
    (active : List Bool) (targets : List ℚ) (scale minErr : ℚ)
    (maxIter : Nat) (params : List ℚ) : Option (List ℚ × DiffIKInfo) :=
  solveGo eff lin active targets scale minErr maxIter params 0 (maxIter + 1)

/-! ## Well-formedness of built trees

`SWF` collects the structural facts that hold for every tree reachable by
`set_root` followed by successful `add` calls, `widthOK` the meaning of the
width fields.  `Built` is the reachability predicate itself. -/

/-- The ancestor chain of node `i` (excluding `i`), following `parentRef`
upward; fuel `i` suffices because parents always have smaller indices on
well-formed trees. -/
def ancChainAux {Load Id : Type} (nodes : List (ArenaNode Load Id)) :
    Nat → Nat → List Nat
  | _, 0 => []
  | i, fuel + 1 =>
    match nodes[i]? with
    | none => []
    | some nd =>
      match nd.parentRef with
      | none => []
      | some p => p :: ancChainAux nodes p fuel

/-- The ancestor chain of node `i`, excluding `i` itself. -/
def ancChain {Load Id : Type} (nodes : List (ArenaNode Load Id)) (i : Nat) :
    List Nat :=
  ancChainAux nodes i i

/-- The parent index stored at slot `k` (the view of the arena the ancestor
walk follows). -/
def parentOf {Load Id : Type} (nodes : List (ArenaNode Load Id)) (k : Nat) :
    Option Nat :=
  match nodes[k]? with
  | none => none
  | some nd => nd.parentRef

/-- `j` lies in the subtree of `i`: `i` is `j` itself or a proper ancestor. -/
def inSubtree {Load Id : Type} (nodes : List (ArenaNode Load Id))
    (i j : Nat) : Prop :=
  i = j ∨ i ∈ ancChain nodes j

instance {Load Id : Type} (nodes : List (ArenaNode Load Id)) (i j : Nat) :
    Decidable (inSubtree nodes i j) := by
  unfold inSubtree; infer_instance

/-- Structural well-formedness: indices are positions, node 0 is the only
root (depth 0, no parent), every other node's parent has a smaller index
and one smaller depth, and every node's child list is exactly the
increasing list of positions whose parent it is. -/
def SWF {Load Id : Type} (t : DirectedArenaTree Load Id) : Prop :=
  0 < t.nodes.length ∧
  (∀ k < t.nodes.length, ∀ nd, t.nodes[k]? = some nd →
    nd.index = k ∧
    (k = 0 → nd.parentRef = none ∧ nd.depth = 0) ∧
    (0 < k → ∃ p, nd.parentRef = some p ∧ p < k ∧
      ∀ pn, t.nodes[p]? = some pn → nd.depth = pn.depth + 1) ∧
    nd.children =
      (List.range t.nodes.length).filter
        (fun j => (t.nodes[j]?.map (·.parentRef)).getD none = some k))

/-- Width correctness: every node's width is the number of nodes in its
subtree. -/
def widthOK {Load Id : Type} (t : DirectedArenaTree Load Id) : Prop :=
  ∀ k < t.nodes.length, ∀ nd, t.nodes[k]? = some nd →
    nd.width =
      ((List.range t.nodes.length).filter
        (fun j => decide (inSubtree t.nodes k j))).length

/-- Trees reachable by one `set_root` (from an arbitrary prior state,
matching the source, which does not clear the lookup) followed by any
sequence of successful `add` calls. -/
inductive Built {Load Id : Type} [DecidableEq Id] :
    DirectedArenaTree Load Id → Prop
  | root (t : DirectedArenaTree Load Id) (load : Load) (id : Id) :
      Built (setRoot t load id)
  | step (t t' : DirectedArenaTree Load Id) (load : Load) (id pid : Id)
      (ht : Built t) (h : add t load id pid = some (t', .ok id)) : Built t'

/-- The stack state of the accumulation scan after processing the first `i`
nodes (the contents of the `scan`'s mutable `Vec` between iterations). -/
def scanStack {N A : Type} (dep : N → Nat) (comb : Nat → N → A → A)
    (first : A) (nodes : List N) : Nat → List A
  | 0 => []
  | i + 1 =>
    match nodes[i]? with
    | none => scanStack dep comb first nodes i
    | some n =>
      let s := (scanStack dep comb first nodes i).take (dep n)
      s ++ [comb i n (s.getLast?.getD first)]

/-- The value the accumulation scan emits for node `i`. -/
def scanVal {N A : Type} (dep : N → Nat) (comb : Nat → N → A → A)
    (first : A) (nodes : List N) (i : Nat) : A :=
  match nodes[i]? with
  | none => first
  | some n =>
    comb i n
      (((scanStack dep comb first nodes i).take (dep n)).getLast?.getD first)

/-- The most recent position `j ≤ i` whose depth is `d` (the node whose
accumulated value occupies stack slot `d` during the scan). -/
def lastAtDepth (depths : List Nat) (i d : Nat) : Option Nat :=
  (List.range (i + 1)).reverse.find? fun j => depths.getD j 0 = d

/-- Modelled from the spec's words (§4.6): the row offset of node `i` is the
running prefix sum over depth-first order, incremented only at
selected-effector nodes by that node's effector output size. -/
def rowOffset {Load Id : Type} [DecidableEq Id] (effSize : Load → Nat)
    (selE : List Id) (nodes : List (ArenaNode Load Id)) (i : Nat) : Nat :=
  ((nodes.take i).map fun n => if n.id ∈ selE then effSize n.load else 0).sum

/-! ## Theorems -/

theorem lookupGet_insert_self {Id : Type} [DecidableEq Id]
    (m : List (Id × Nat)) (k : Id) (v : Nat) :
    lookupGet (lookupInsert m k v) k = some v := by
  simp [lookupInsert, lookupGet]

theorem lookupGet_insert_ne {Id : Type} [DecidableEq Id]
    (m : List (Id × Nat)) (k k' : Id) (v : Nat) (h : k ≠ k') :
    lookupGet (lookupInsert m k v) k' = lookupGet m k' := by
  simp [lookupInsert, lookupGet, h]

theorem offsetsScan_getElem {Load Id : Type} [DecidableEq Id]
    (effSize : Load → Nat) (selE : List Id) :
    ∀ (nodes : List (ArenaNode Load Id)) (a i : Nat), i < nodes.length →
      (offsetsScan effSize selE a nodes)[i]? =
        some (a + rowOffset effSize selE nodes i) := by
  intro nodes
  induction nodes with
  | nil => intro a i h; simp at h
  | cons n rest ih =>
    intro a i h
    cases i with
    | zero => simp [offsetsScan, rowOffset]
    | succ j =>
      have hj : j < rest.length := by simpa using h
      simp only [offsetsScan, List.getElem?_cons_succ]
      rw [ih _ j hj]
      simp only [rowOffset, List.take_succ_cons, List.map_cons, List.sum_cons]
      by_cases hm : n.id ∈ selE <;> simp [hm] <;> omega

theorem offsetsScan_length {Load Id : Type} [DecidableEq Id]
    (effSize : Load → Nat) (selE : List Id) :
    ∀ (nodes : List (ArenaNode Load Id)) (a : Nat),
      (offsetsScan effSize selE a nodes).length = nodes.length := by
  intro nodes
  induction nodes with
  | nil => intro a; simp [offsetsScan]
  | cons n rest ih => intro a; simp [offsetsScan, ih]

theorem count_true_map {α : Type} (l : List α) (p : α → Bool) :
    (l.map p).count true = (l.filter p).length := by
  rw [List.count_eq_countP, List.countP_map, List.countP_eq_length_filter]
  congr 1
  apply List.filter_congr
  intro x _
  cases hp : p x <;> simp [Function.comp, hp]

theorem sum_map_ite {α : Type} (l : List α) (p : α → Prop) [DecidablePred p]
    (f : α → Nat) :
    (l.map fun x => if p x then f x else 0).sum =
      ((l.filter fun x => decide (p x)).map f).sum := by
  induction l with
  | nil => rfl
  | cons a rest ih =>
    by_cases hp : p a <;> simp [hp, ih]

/-- C6: after `setup`, the column count is the number of selected joints,
the row count is the sum of the effector sizes over the selected-effector
nodes, every node's row offset is the running prefix sum (incremented only
at selected-effector nodes), and the matrix and configuration buffers are
zero-initialized with sizes `rows × cols` and `rows`.  The hypotheses pin
the claim's reading of "number of selected joints": a non-empty duplicate-free
selection of ids that all occur in a duplicate-free tree. -/
theorem C6_setup_shape {Load Id F : Type} [DecidableEq Id] [Zero F]
    (effSize : Load → Nat) (t : DepthFirstArenaTree Load Id)
    (selJ selE : List Id)
    (hne : selJ ≠ [])
    (hJd : selJ.Nodup)
    (hids : (t.tree.nodes.map (·.id)).Nodup)
    (hJmem : ∀ i ∈ selJ, i ∈ t.tree.nodes.map (·.id)) :
    (setup (F := F) effSize t selJ selE).cols = selJ.length ∧
    (setup (F := F) effSize t selJ selE).rows =
      ((t.tree.nodes.filter fun n => decide (n.id ∈ selE)).map
        fun n => effSize n.load).sum ∧
    (∀ i < t.tree.nodes.length,
      (setup (F := F) effSize t selJ selE).offsets[i]? =
        some (rowOffset effSize selE t.tree.nodes i)) ∧
    (setup (F := F) effSize t selJ selE).matrix =
      List.replicate
        ((setup (F := F) effSize t selJ selE).rows *
          (setup (F := F) effSize t selJ selE).cols) 0 ∧
    (setup (F := F) effSize t selJ selE).configuration =
      List.replicate (setup (F := F) effSize t selJ selE).rows 0 := by
  have hempty : selJ.isEmpty = false := by
    cases selJ with
    | nil => exact absurd rfl hne
    | cons a l => rfl
  refine ⟨?_, ?_, ?_, ?_, ?_⟩
  · -- cols = number of selected joints
    simp only [setup, hempty, Bool.false_eq_true, if_false]
    rw [count_true_map]
    have h1 : (t.tree.nodes.filter fun n => decide (n.id ∈ selJ)).length =
        ((t.tree.nodes.map (·.id)).filter fun i => decide (i ∈ selJ)).length := by
      rw [← List.countP_eq_length_filter, ← List.countP_eq_length_filter,
        List.countP_map]
      rfl
    rw [h1]
    have hperm :
        List.Perm ((t.tree.nodes.map (·.id)).filter fun i => decide (i ∈ selJ))
          selJ := by
      apply List.Perm.symm
      apply List.perm_of_nodup_nodup_toFinset_eq hJd (hids.filter _)
      ext x
      simp only [List.mem_toFinset, List.mem_filter, decide_eq_true_eq]
      exact ⟨fun hx => ⟨hJmem x hx, hx⟩, fun hx => hx.2⟩
    exact hperm.length_eq
  · -- rows = sum over selected-effector nodes
    simp only [setup]
    exact sum_map_ite _ _ _
  · -- offsets = prefix sums
    intro i hi
    simp only [setup]
    simpa using offsetsScan_getElem effSize selE t.tree.nodes 0 i hi
  · simp [setup]
  · simp [setup]

theorem C6_setup_shape_witness :
    (setup (F := ℚ) (fun _ => 3)
        (⟨⟨[⟨10, 0, 0, [1], 2, 0, none⟩, ⟨20, 1, 1, [], 1, 1, some 0⟩], []⟩⟩ :
          DepthFirstArenaTree ℕ ℕ) [1] [1]).cols = 1 :=
  (C6_setup_shape (fun _ => 3)
    ⟨⟨[⟨10, 0, 0, [1], 2, 0, none⟩, ⟨20, 1, 1, [], 1, 1, some 0⟩], []⟩⟩
    [1] [1] (by decide) (by decide) (by decide) (by decide)).1

/-- C10: `DifferentiableModel::setup` treats an empty joint selection as
"select every joint" (`active()` is all-true and `cols()` equals the node
count), while an empty effector selection selects no effectors and gives
zero rows. -/
theorem C10_empty_selection_defaults {Load Id F : Type} [DecidableEq Id]
    [Zero F] (effSize : Load → Nat) (t : DepthFirstArenaTree Load Id)
    (selJ selE : List Id) :
    ((setup (F := F) effSize t [] selE).selectedJoints =
        List.replicate t.tree.nodes.length true ∧
      (setup (F := F) effSize t [] selE).cols = t.tree.nodes.length) ∧
    (setup (F := F) effSize t selJ []).rows = 0 := by
  refine ⟨⟨?_, ?_⟩, ?_⟩
  · simp [setup]
  · simp [setup]
  · simp only [setup]
    apply List.sum_eq_zero
    intro x hx
    simp only [List.mem_map] at hx
    obtain ⟨nd, _, hnd⟩ := hx
    simpa using hnd.symm

theorem snapPopLoop_diverges {A : Type} (nodeDepth snap : Nat)
    (h : nodeDepth < snap) :
    ∀ (fuel : Nat) (stack : List A),
      snapPopLoop nodeDepth snap stack fuel = none := by
  intro fuel
  induction fuel with
  | zero => intro stack; rfl
  | succ f ih => intro stack; simp [snapPopLoop, h, ih]

/-- C9: the accumulation in `src/arena/depth.rs` snapshots the stack length
before its pop loop (`let depth = stack.len(); while node.depth() < depth`),
so the loop condition never changes once entered: on the three-node sequence
with depths `[0, 1, 1]` (a root with two children) the scan never
terminates, for any amount of fuel, instead of emitting one output per
node. -/
theorem C9_snapshot_pop_loop_diverges :
    ∀ fuel : Nat,
      depthAccumulate (fun n : Nat => n) (fun n _ a => a + n) 0
        [0, 1, 1] [0, 0, 0] fuel = none := by
  intro fuel
  cases fuel with
  | zero => rfl
  | succ f =>
    have ha : snapPopLoop 0 0 ([] : List ℕ) (f + 1) = some [] := by
      simp [snapPopLoop]
    have hb : snapPopLoop 1 1 ([0] : List ℕ) (f + 1) = some [0] := by
      simp [snapPopLoop]
    have h2 : snapPopLoop 1 2 ([0, 1] : List ℕ) (f + 1) = none :=
      snapPopLoop_diverges 1 2 (by omega) (f + 1) [0, 1]
    simp [depthAccumulate, depthAccumulateGo, ha, hb, h2]

/-- C7 (failing part): `set_root` clears the node storage but not the id
lookup, so after `set_root(10, id 0); set_root(20, id 1)` the stale id `0`
still resolves — `node_by_id(0)` returns the *new* root node (whose id
is `1`) instead of `None`.  The rest of the claim holds: the tree contains
exactly one node, at index 0, depth 0, width 1, with no parent. -/
theorem C7_setRoot_stale_lookup :
    let t : DirectedArenaTree ℕ ℕ :=
      setRoot (setRoot ⟨[], []⟩ 10 0) 20 1
    t.nodes.length = 1 ∧
    t.nodes[0]? = some ⟨20, 0, 1, [], 1, 0, none⟩ ∧
    nodeById t 0 = some ⟨20, 0, 1, [], 1, 0, none⟩ ∧
    (nodeById t 0 ≠ none) := by
  refine ⟨rfl, rfl, rfl, ?_⟩
  intro h
  simp [nodeById, setRoot, lookupInsert, lookupGet] at h

theorem solveGo_spec (eff : List ℚ → List ℚ) (lin : List ℚ → List ℚ → List ℚ)
    (active : List Bool) (targets : List ℚ) (scale minErr : ℚ)
    (maxIter : Nat) :
    ∀ (fuel c : Nat) (params : List ℚ), c < maxIter → maxIter ≤ c + fuel →
      ∃ Q, 1 ≤ Q ∧ c + Q ≤ maxIter ∧
        solveGo eff lin active targets scale minErr maxIter params c fuel =
          some ((solveStep eff lin active targets scale)^[Q] params,
            ⟨if solveError eff targets
                ((solveStep eff lin active targets scale)^[Q - 1] params) < minErr
              then c + Q - 1 else c + Q,
              solveError eff targets
                ((solveStep eff lin active targets scale)^[Q - 1] params)⟩) ∧
        (∀ j < Q - 1,
          ¬ solveError eff targets
              ((solveStep eff lin active targets scale)^[j] params) < minErr) ∧
        (¬ solveError eff targets
            ((solveStep eff lin active targets scale)^[Q - 1] params) < minErr →
          c + Q = maxIter) := by
  intro fuel
  induction fuel with
  | zero => intro c params hc hle; omega
  | succ f ih =>
    intro c params hc hle
    by_cases he : solveError eff targets params < minErr
    · refine ⟨1, le_refl 1, by omega, ?_, ?_, ?_⟩
      · simp [solveGo, he]
      · intro j hj; omega
      · intro hne
        exact absurd he hne
    · by_cases hcnt : c + 1 ≥ maxIter
      · refine ⟨1, le_refl 1, by omega, ?_, ?_, ?_⟩
        · simp [solveGo, he, hcnt]
        · intro j hj; omega
        · intro _; omega
      · obtain ⟨Q', h1, h2, h3, h4, h5⟩ :=
          ih (c + 1) (solveStep eff lin active targets scale params)
            (by omega) (by omega)
        refine ⟨Q' + 1, by omega, by omega, ?_, ?_, ?_⟩
        · have hstep :
            solveGo eff lin active targets scale minErr maxIter params c (f + 1) =
              solveGo eff lin active targets scale minErr maxIter
                (solveStep eff lin active targets scale params) (c + 1) f := by
            simp [solveGo, he]
            intro h
            omega
          rw [hstep, h3]
          have hiter : ∀ k : Nat,
              (solveStep eff lin active targets scale)^[k]
                  (solveStep eff lin active targets scale params) =
                (solveStep eff lin active targets scale)^[k + 1] params := by
            intro k
            rw [Function.iterate_succ_apply]
          have hq : Q' + 1 - 1 = Q' - 1 + 1 := by omega
          have hcc : c + 1 + Q' - 1 = c + (Q' + 1) - 1 := by omega
          have hcc2 : c + 1 + Q' = c + (Q' + 1) := by omega
          simp only [hiter, hq, hcc, hcc2]
        · intro j hj
          cases j with
          | zero => simpa using he
          | succ j' =>
            have hj' : j' < Q' - 1 := by omega
            have := h4 j' hj'
            rwa [Function.iterate_succ_apply]
        · intro hne
          have hq : Q' + 1 - 1 = Q' - 1 + 1 := by omega
          rw [hq, Function.iterate_succ_apply] at hne
          have := h5 hne
          omega

theorem applyActive_not_active :
    ∀ (ps : List ℚ) (act : List Bool) (rs : List ℚ) (k : Nat),
      act[k]? = some false → (applyActive ps act rs)[k]? = ps[k]? := by
  intro ps
  induction ps with
  | nil => intro act rs k _; simp [applyActive]
  | cons p rest ih =>
    intro act rs k hk
    cases act with
    | nil => simp [applyActive]
    | cons a act' =>
      cases k with
      | zero =>
        simp only [List.getElem?_cons_zero, Option.some_inj] at hk
        subst hk
        cases rs <;> simp [applyActive]
      | succ k' =>
        simp only [List.getElem?_cons_succ] at hk
        cases a with
        | false =>
          simp [applyActive]
          exact ih act' rs k' hk
        | true =>
          cases rs with
          | nil =>
            simp [applyActive]
            exact ih act' [] k' hk
          | cons r rs' =>
            simp [applyActive]
            exact ih act' rs' k' hk

theorem solveStep_iterate_not_active (eff : List ℚ → List ℚ)
    (lin : List ℚ → List ℚ → List ℚ) (active : List Bool) (targets : List ℚ)
    (scale : ℚ) (params : List ℚ) (P k : Nat)
    (hk : active[k]? = some false) :
    ((solveStep eff lin active targets scale)^[P] params)[k]? = params[k]? := by
  induction P with
  | zero => rfl
  | succ Q ih =>
    rw [Function.iterate_succ_apply']
    have h1 : (solveStep eff lin active targets scale
        ((solveStep eff lin active targets scale)^[Q] params))[k]? =
        ((solveStep eff lin active targets scale)^[Q] params)[k]? :=
      applyActive_not_active _ active _ k hk
    rw [h1]
    exact ih

/-- C4 (amended): `solve` always terminates; it runs `P` full passes with
`1 ≤ P ≤ max(maxIterations, 1)`, where each pass computes the effectors and
Jacobian, forms the residual and takes its squared error *before* applying
the update, solves the linear system and applies the update only to the
selected joints; it stops at the first pass whose *pre-update* error is
below the tolerance (reporting that pass's index and that error) or when
the incremented counter reaches the cap (reporting the cap and the last
pre-update error).  One update is always applied, even on immediate
convergence. -/
theorem C4_solver_loop (eff : List ℚ → List ℚ) (lin : List ℚ → List ℚ → List ℚ)
    (active : List Bool) (targets : List ℚ) (scale minErr : ℚ)
    (maxIter : Nat) (params0 : List ℚ) :
    ∃ P, 1 ≤ P ∧ P ≤ max maxIter 1 ∧
      solve eff lin active targets scale minErr maxIter params0 =
        some ((solveStep eff lin active targets scale)^[P] params0,
          ⟨if solveError eff targets
              ((solveStep eff lin active targets scale)^[P - 1] params0) < minErr
            then P - 1 else P,
            solveError eff targets
              ((solveStep eff lin active targets scale)^[P - 1] params0)⟩) ∧
      (∀ j < P - 1, ¬ solveError eff targets
          ((solveStep eff lin active targets scale)^[j] params0) < minErr) ∧
      (¬ solveError eff targets
          ((solveStep eff lin active targets scale)^[P - 1] params0) < minErr →
        P = max maxIter 1) ∧
      (∀ k : Nat, active[k]? = some false →
        ((solveStep eff lin active targets scale)^[P] params0)[k]? =
          params0[k]?) := by
  cases Nat.eq_zero_or_pos maxIter with
  | inl h0 =>
    subst h0
    refine ⟨1, le_refl 1, by omega, ?_, ?_, ?_, ?_⟩
    · by_cases he : solveError eff targets params0 < minErr <;>
        simp [solve, solveGo, he]
    · intro j hj; omega
    · intro _; rfl
    · intro k hk
      exact solveStep_iterate_not_active eff lin active targets scale params0 1 k hk
  | inr hpos =>
    obtain ⟨Q, h1, h2, h3, h4, h5⟩ :=
      solveGo_spec eff lin active targets scale minErr maxIter
        (maxIter + 1) 0 params0 hpos (by omega)
    refine ⟨Q, h1, by omega, ?_, ?_, ?_, ?_⟩
    · simpa [solve] using h3
    · exact h4
    · intro hne
      have := h5 hne
      omega
    · intro k hk
      exact solveStep_iterate_not_active eff lin active targets scale params0 Q k hk

/-- C4 (counterexample to the claim as stated): the claim says the update
is applied and *then* the squared residual error is recomputed, the loop
stopping exactly when that error is below the tolerance and the returned
info carrying that error.  Instantiating the collaborators with a
one-dimensional identity model (effector = parameter, update = residual),
target 5, tolerance 1, cap 1, start 0: the code returns squared error 25 —
the error measured *before* the update — although the residual error of the
returned parameters is 0, which is below the tolerance. -/
theorem C4_error_not_recomputed :
    solve (fun p => p) (fun _ d => d) [true] [5] 1 1 1 [0] =
      some ([5], ⟨1, 25⟩) ∧
    solveError (fun p => p) [5] [5] = 0 ∧
    ((0 : ℚ) < 1) ∧ ¬ ((25 : ℚ) < 1) := by
  refine ⟨?_, ?_, by norm_num, by norm_num⟩
  · simp [solve, solveGo, solveError, solveStep, applyActive]
    norm_num
  · simp [solveError]

theorem find?_congr_on {α : Type} (p q : α → Bool) :
    ∀ l : List α, (∀ x ∈ l, p x = q x) → l.find? p = l.find? q := by
  intro l
  induction l with
  | nil => intro _; rfl
  | cons a rest ih =>
    intro h
    have ha := h a (by simp)
    rw [List.find?_cons, List.find?_cons, ha]
    cases q a with
    | true => rfl
    | false => exact ih fun x hx => h x (by simp [hx])

theorem parentIdx_lt (depths : List Nat) (i j : Nat)
    (h : parentIdx depths i = some j) : j < i := by
  have hmem := List.mem_of_find?_eq_some h
  simp only [List.mem_reverse, List.mem_range] at hmem
  exact hmem

theorem lastAtDepth_self (depths : List Nat) (i d : Nat)
    (h : depths.getD i 0 = d) : lastAtDepth depths i d = some i := by
  unfold lastAtDepth
  rw [List.range_succ, List.reverse_append]
  rw [List.getD_eq_getElem?_getD] at h
  simp [List.find?_cons, h]

theorem lastAtDepth_step (depths : List Nat) (i d : Nat)
    (h : depths.getD (i + 1) 0 ≠ d) :
    lastAtDepth depths (i + 1) d = lastAtDepth depths i d := by
  unfold lastAtDepth
  rw [List.range_succ, List.reverse_append]
  simp only [List.reverse_cons, List.reverse_nil, List.nil_append,
    List.singleton_append, List.find?_cons]
  have : (decide (depths.getD (i + 1) 0 = d)) = false := by
    simpa using h
  rw [this]

theorem accScanGo_length {N A : Type} (dep : N → Nat)
    (comb : Nat → N → A → A) (first : A) :
    ∀ (rest : List N) (i : Nat) (stack : List A),
      (accScanGo dep comb first i stack rest).length = rest.length := by
  intro rest
  induction rest with
  | nil => intro i stack; rfl
  | cons n r ih => intro i stack; simp [accScanGo, ih]

theorem pathValueAux_stable {N A : Type} (dep : N → Nat)
    (comb : Nat → N → A → A) (first : A) (nodes : List N) :
    ∀ (i f1 f2 : Nat), i < f1 → i < f2 →
      pathValueAux dep comb first nodes f1 i =
        pathValueAux dep comb first nodes f2 i := by
  intro i
  induction i using Nat.strong_induction_on with
  | _ i ih =>
    intro f1 f2 h1 h2
    match f1, h1 with
    | g1 + 1, h1 =>
    match f2, h2 with
    | g2 + 1, h2 =>
    simp only [pathValueAux]
    cases hn : nodes[i]? with
    | none => rfl
    | some n =>
      by_cases hd : dep n = 0
      · simp [hd]
      · simp only [hd, if_false]
        cases hp : parentIdx (nodes.map dep) i with
        | none => rfl
        | some j =>
          have hj : j < i := parentIdx_lt _ _ _ hp
          dsimp only
          rw [ih j hj g1 g2 (by omega) (by omega)]

theorem getLast?_take_eq {A : Type} (s : List A) (d : Nat) (hd1 : 1 ≤ d)
    (hds : d ≤ s.length) : (s.take d).getLast? = s[d - 1]? := by
  rw [List.getLast?_eq_getElem? (s.take d), List.length_take]
  have hmin : min d s.length = d := by omega
  rw [hmin, List.getElem?_take, if_pos (by omega)]

theorem depths_getD {N : Type} (dep : N → Nat) (nodes : List N) (j : Nat)
    (n : N) (h : nodes[j]? = some n) : (nodes.map dep).getD j 0 = dep n := by
  rw [List.getD_eq_getElem?_getD, List.getElem?_map, h]
  rfl

theorem accScanGo_getElem {N A : Type} (dep : N → Nat)
    (comb : Nat → N → A → A) (first : A) (nodes : List N) :
    ∀ (k i : Nat), i + k < nodes.length →
      ∃ n, nodes[i + k]? = some n ∧
        (accScanGo dep comb first i (scanStack dep comb first nodes i)
            (nodes.drop i))[k]? =
          some (n, scanVal dep comb first nodes (i + k)) := by
  intro k
  induction k with
  | zero =>
    intro i hi
    simp only [Nat.add_zero] at hi ⊢
    have hget : nodes[i]? = some nodes[i] := List.getElem?_eq_getElem hi
    refine ⟨nodes[i], hget, ?_⟩
    rw [List.drop_eq_getElem_cons hi]
    simp only [accScanGo, List.getElem?_cons_zero, Option.some_inj]
    simp [scanVal, hget]
  | succ k' ih =>
    intro i hi
    have hi' : i < nodes.length := by omega
    have hget : nodes[i]? = some nodes[i] := List.getElem?_eq_getElem hi'
    rw [List.drop_eq_getElem_cons hi']
    simp only [accScanGo, List.getElem?_cons_succ]
    have hstack : scanStack dep comb first nodes (i + 1) =
        ((scanStack dep comb first nodes i).take (dep nodes[i])) ++
          [comb i nodes[i]
            (((scanStack dep comb first nodes i).take (dep nodes[i])).getLast?.getD
              first)] := by
      simp [scanStack, hget]
    rw [← hstack]
    have hlt : (i + 1) + k' < nodes.length := by omega
    obtain ⟨n, hn1, hn2⟩ := ih (i + 1) hlt
    have harith : i + 1 + k' = i + (k' + 1) := by omega
    rw [harith] at hn1 hn2
    exact ⟨n, hn1, hn2⟩

theorem accumulate_getElem {N A : Type} (dep : N → Nat)
    (comb : Nat → N → A → A) (first : A) (nodes : List N) (i : Nat)
    (hi : i < nodes.length) :
    ∃ n, nodes[i]? = some n ∧
      (accumulate dep comb first nodes)[i]? =
        some (n, scanVal dep comb first nodes i) := by
  have h := accScanGo_getElem dep comb first nodes i 0 (by omega)
  simpa [accumulate] using h

theorem scanStack_inv {N A : Type} (dep : N → Nat) (comb : Nat → N → A → A)
    (first : A) (nodes : List N)
    (hroot : (nodes.map dep).getD 0 0 = 0)
    (hstep : ∀ i, i + 1 < nodes.length →
      1 ≤ (nodes.map dep).getD (i + 1) 0 ∧
      (nodes.map dep).getD (i + 1) 0 ≤ (nodes.map dep).getD i 0 + 1) :
    ∀ i, i < nodes.length → ∀ n, nodes[i]? = some n →
      (scanStack dep comb first nodes (i + 1)).length = dep n + 1 ∧
      (∀ d, d ≤ dep n → ∃ j, lastAtDepth (nodes.map dep) i d = some j ∧
        (scanStack dep comb first nodes (i + 1))[d]? =
          some (scanVal dep comb first nodes j)) := by
  intro i
  induction i with
  | zero =>
    intro hi n hn
    have hd0 : dep n = 0 := by
      rw [← depths_getD dep nodes 0 n hn]; exact hroot
    have hunfold : scanStack dep comb first nodes 1 =
        [comb 0 n ((([] : List A)).getLast?.getD first)] := by
      simp [scanStack, hn, hd0]
    constructor
    · rw [hunfold, hd0]; rfl
    · intro d hd
      have hdz : d = 0 := by omega
      subst hdz
      refine ⟨0, ?_, ?_⟩
      · exact lastAtDepth_self _ 0 0 (by rw [depths_getD dep nodes 0 n hn, hd0])
      · rw [hunfold]
        simp [scanVal, hn, hd0]
  | succ i' ih =>
    intro hi n hn
    have hi' : i' < nodes.length := by omega
    have hm : nodes[i']? = some nodes[i'] := List.getElem?_eq_getElem hi'
    obtain ⟨hs1, hs2⟩ := hstep i' hi
    rw [depths_getD dep nodes (i' + 1) n hn] at hs1 hs2
    rw [depths_getD dep nodes i' nodes[i'] hm] at hs2
    obtain ⟨hlen, hentries⟩ := ih hi' nodes[i'] hm
    have hunfold : scanStack dep comb first nodes (i' + 2) =
        ((scanStack dep comb first nodes (i' + 1)).take (dep n)) ++
          [scanVal dep comb first nodes (i' + 1)] := by
      simp only [scanStack, scanVal, hn, hm]
    have htlen : ((scanStack dep comb first nodes (i' + 1)).take (dep n)).length
        = dep n := by
      rw [List.length_take, hlen]; omega
    constructor
    · rw [hunfold, List.length_append, htlen]; rfl
    · intro d hd
      rcases Nat.lt_or_ge d (dep n) with hdlt | hdge
      · obtain ⟨j, hj1, hj2⟩ := hentries d (by omega)
        refine ⟨j, ?_, ?_⟩
        · rw [← hj1]
          apply lastAtDepth_step
          rw [depths_getD dep nodes (i' + 1) n hn]
          omega
        · rw [hunfold, List.getElem?_append_left (by rw [htlen]; omega),
            List.getElem?_take, if_pos hdlt]
          exact hj2
      · have hdeq : d = dep n := by omega
        subst hdeq
        refine ⟨i' + 1, ?_, ?_⟩
        · exact lastAtDepth_self _ (i' + 1) _
            (by rw [depths_getD dep nodes (i' + 1) n hn])
        · rw [hunfold]
          have : ((scanStack dep comb first nodes (i' + 1)).take (dep n) ++
              [scanVal dep comb first nodes (i' + 1)])[(dep n)]? =
              some (scanVal dep comb first nodes (i' + 1)) := by
            rw [← htlen]
            simp
          exact this

theorem pathValueAux_succ {N A : Type} (dep : N → Nat)
    (comb : Nat → N → A → A) (first : A) (nodes : List N) (fuel i : Nat) :
    pathValueAux dep comb first nodes (fuel + 1) i =
      match nodes[i]? with
      | none => none
      | some n =>
        if dep n = 0 then some (comb i n first)
        else
          match parentIdx (nodes.map dep) i with
          | none => none
          | some j =>
            match pathValueAux dep comb first nodes fuel j with
            | none => none
            | some a => some (comb i n a) := rfl

theorem scanVal_eq_pathValue {N A : Type} (dep : N → Nat)
    (comb : Nat → N → A → A) (first : A) (nodes : List N)
    (hroot : (nodes.map dep).getD 0 0 = 0)
    (hstep : ∀ i, i + 1 < nodes.length →
      1 ≤ (nodes.map dep).getD (i + 1) 0 ∧
      (nodes.map dep).getD (i + 1) 0 ≤ (nodes.map dep).getD i 0 + 1) :
    ∀ i, i < nodes.length →
      pathValue dep comb first nodes i =
        some (scanVal dep comb first nodes i) := by
  intro i
  induction i using Nat.strong_induction_on with
  | _ i ihs =>
    intro hi
    have hn : nodes[i]? = some nodes[i] := List.getElem?_eq_getElem hi
    by_cases hd : dep nodes[i] = 0
    · simp [pathValue, pathValueAux, hn, hd, scanVal]
    · -- not the root, so i ≥ 1 and the parent is on the stack
      match i, hi, hn, hd, ihs with
      | 0, hi, hn, hd, ihs =>
        exact absurd (by rw [← depths_getD dep nodes 0 nodes[0] hn]; exact hroot) hd
      | i' + 1, hi, hn, hd, ihs =>
        have hi' : i' < nodes.length := by omega
        have hm : nodes[i']? = some nodes[i'] := List.getElem?_eq_getElem hi'
        obtain ⟨hs1, hs2⟩ := hstep i' hi
        rw [depths_getD dep nodes (i' + 1) nodes[i' + 1] hn] at hs1 hs2
        rw [depths_getD dep nodes i' nodes[i'] hm] at hs2
        obtain ⟨hlen, hentries⟩ :=
          scanStack_inv dep comb first nodes hroot hstep i' hi' nodes[i'] hm
        obtain ⟨j, hj1, hj2⟩ :=
          hentries (dep nodes[i' + 1] - 1) (by omega)
        -- the claim-side parent coincides with the stack anchor
        have hpar : parentIdx (nodes.map dep) (i' + 1) = some j := by
          rw [← hj1]
          unfold parentIdx lastAtDepth
          apply find?_congr_on
          intro x _
          rw [decide_eq_decide]
          rw [depths_getD dep nodes (i' + 1) nodes[i' + 1] hn]
          omega
        have hjlt : j < i' + 1 := parentIdx_lt _ _ _ hpar
        -- the emitted value combines with the anchor's value
        have hval : scanVal dep comb first nodes (i' + 1) =
            comb (i' + 1) nodes[i' + 1] (scanVal dep comb first nodes j) := by
          simp only [scanVal, hn]
          congr 1
          rw [getLast?_take_eq _ _ hs1 (by omega), hj2]
          rfl
        -- unfold the naive walk
        have hih := ihs j hjlt (by omega)
        simp only [pathValue]
        rw [pathValueAux_succ, hn]
        dsimp only
        rw [if_neg hd, hpar]
        dsimp only
        rw [pathValueAux_stable dep comb first nodes j (i' + 1) (j + 1)
          (by omega) (by omega)]
        have hihval : pathValueAux dep comb first nodes (j + 1) j =
            some (scanVal dep comb first nodes j) := hih
        rw [hihval]
        dsimp only
        rw [hval]

/-- C2: on every depth-first node sequence (root at depth 0, each later
node at depth between 1 and its predecessor's depth + 1), the accumulation
scan of `src/forward.rs`/`src/rigid.rs` emits exactly one value per node,
in traversal order, and the value emitted for node `i` is the aggregate of
the combining function along `i`'s unique root path — the same value the
naive explicit ancestor-chain walk computes. -/
theorem C2_path_accumulator_correct {N A : Type} (dep : N → Nat)
    (comb : Nat → N → A → A) (first : A) (nodes : List N)
    (hroot : (nodes.map dep).getD 0 0 = 0)
    (hstep : ∀ i, i + 1 < nodes.length →
      1 ≤ (nodes.map dep).getD (i + 1) 0 ∧
      (nodes.map dep).getD (i + 1) 0 ≤ (nodes.map dep).getD i 0 + 1) :
    (accumulate dep comb first nodes).length = nodes.length ∧
    ∀ i, i < nodes.length → ∃ n a,
      nodes[i]? = some n ∧
      (accumulate dep comb first nodes)[i]? = some (n, a) ∧
      pathValue dep comb first nodes i = some a := by
  constructor
  · simpa [accumulate] using
      accScanGo_length dep comb first nodes 0 []
  · intro i hi
    obtain ⟨n, hn1, hn2⟩ := accumulate_getElem dep comb first nodes i hi
    exact ⟨n, scanVal dep comb first nodes i, hn1, hn2,
      scanVal_eq_pathValue dep comb first nodes hroot hstep i hi⟩

theorem C2_path_accumulator_correct_witness :
    (accumulate (fun n : Nat => n) (fun _ n a => a + n) 0 [0, 1, 1]).length
        = 3 ∧
    ∀ i, i < ([0, 1, 1] : List ℕ).length → ∃ n a,
      ([0, 1, 1] : List ℕ)[i]? = some n ∧
      (accumulate (fun n : Nat => n) (fun _ n a => a + n) 0 [0, 1, 1])[i]? =
        some (n, a) ∧
      pathValue (fun n : Nat => n) (fun _ n a => a + n) 0 [0, 1, 1] i =
        some a := by
  have h := C2_path_accumulator_correct (fun n : Nat => n)
    (fun _ n a => a + n) 0 [0, 1, 1] (by decide)
    (by
      intro i hi
      have h2 : i < 2 := by simp at hi; omega
      interval_cases i <;> decide)
  simpa using h

/-! ### The in-place cycle-following permutation (`sort_by_indices`) -/

theorem swapAt_length {α : Type} (l : List α) (i j : Nat) :
    (swapAt l i j).length = l.length := by
  unfold swapAt
  cases hi : l[i]? <;> cases hj : l[j]? <;> simp

theorem swapAt_fst {α : Type} (l : List α) (i j : Nat) (hi : i < l.length)
    (hj : j < l.length) (hne : i ≠ j) : (swapAt l i j)[i]? = l[j]? := by
  unfold swapAt
  rw [List.getElem?_eq_getElem hi, List.getElem?_eq_getElem hj]
  rw [List.getElem?_set_ne (by omega), List.getElem?_set, if_pos rfl]
  simp [hi, List.getElem?_eq_getElem hj]

theorem swapAt_snd {α : Type} (l : List α) (i j : Nat) (hi : i < l.length)
    (hj : j < l.length) : (swapAt l i j)[j]? = l[i]? := by
  unfold swapAt
  rw [List.getElem?_eq_getElem hi, List.getElem?_eq_getElem hj]
  rw [List.getElem?_set, if_pos rfl]
  simp [hj, List.getElem?_eq_getElem hi]

theorem swapAt_other {α : Type} (l : List α) (i j k : Nat) (hki : k ≠ i)
    (hkj : k ≠ j) : (swapAt l i j)[k]? = l[k]? := by
  unfold swapAt
  cases hi : l[i]? <;> cases hj : l[j]? <;>
    simp [List.getElem?_set_ne (Ne.symm hki), List.getElem?_set_ne (Ne.symm hkj)]

theorem settleAll_length (ind : List Nat) :
    ∀ ps : List Nat, (settleAll ind ps).length = ind.length := by
  intro ps
  induction ps generalizing ind with
  | nil => rfl
  | cons p rest ih => simpa [settleAll] using ih (ind.set p p)

theorem settleAll_cons (ind : List Nat) (p : Nat) (ps : List Nat) :
    settleAll ind (p :: ps) = settleAll (ind.set p p) ps := rfl

theorem settleAll_not_mem (ps : List Nat) :
    ∀ (ind : List Nat) (k : Nat), k ∉ ps →
      (settleAll ind ps).getD k 0 = ind.getD k 0 := by
  induction ps with
  | nil => intro ind k _; rfl
  | cons p rest ih =>
    intro ind k hk
    rw [settleAll_cons, ih _ k (fun h => hk (by simp [h]))]
    rw [List.getD_eq_getElem?_getD, List.getD_eq_getElem?_getD,
      List.getElem?_set_ne (fun h => hk (by simp [h.symm]))]

theorem settleAll_mem (ps : List Nat) :
    ∀ (ind : List Nat) (p : Nat), p ∈ ps → p < ind.length →
      (settleAll ind ps).getD p 0 = p := by
  induction ps with
  | nil => intro ind p h _; simp at h
  | cons a rest ih =>
    intro ind p hp hlen
    rw [settleAll_cons]
    by_cases hmem : p ∈ rest
    · exact ih _ p hmem (by simpa using hlen)
    · have hpa : p = a := by
        rcases List.mem_cons.mp hp with h | h
        · exact h
        · exact absurd h hmem
      subst hpa
      rw [settleAll_not_mem rest _ p hmem]
      rw [List.getD_eq_getElem?_getD, List.getElem?_set, if_pos rfl]
      simp [hlen]

theorem chainStep_congr (ind₁ ind : List Nat) :
    ∀ (ps : List Nat) (q : Nat),
      (∀ x ∈ ps, ind₁.getD x 0 = ind.getD x 0) →
      chainStep ind ps q → chainStep ind₁ ps q := by
  intro ps
  induction ps with
  | nil => intro q _ _; trivial
  | cons p rest ih =>
    intro q hag hc
    cases rest with
    | nil =>
      simp only [chainStep] at hc ⊢
      rw [hag p (by simp)]
      exact hc
    | cons p' rest' =>
      obtain ⟨hc1, hc2⟩ := hc
      exact ⟨by rw [hag p (by simp)]; exact hc1,
        ih q (fun x hx => hag x (by simp [hx])) hc2⟩

theorem shiftChain_congr {α : Type} (d' d₁ d₂ : List α) :
    ∀ ps : List Nat,
      (∀ x, x ∈ ps.tail → d₁[x]? = d₂[x]?) →
      shiftChain d' d₁ ps → shiftChain d' d₂ ps := by
  intro ps
  induction ps with
  | nil => intro _ hc; exact hc
  | cons p rest ih =>
    intro hag hc
    cases rest with
    | nil => exact hc
    | cons p' rest' =>
      obtain ⟨hc1, hc2⟩ := hc
      refine ⟨by rw [hc1]; exact hag p' (by simp), ?_⟩
      exact ih (fun x hx => hag x (by simp at hx ⊢; tauto)) hc2

theorem cycleLoop_chain {α : Type} :
    ∀ (rest : List Nat) (p₀ : Nat) (data : List α) (ind : List Nat)
      (q fuel : Nat),
      (p₀ :: rest).Nodup →
      chainStep ind (p₀ :: rest) q →
      ind.getD q 0 = q →
      q ∉ p₀ :: rest →
      (∀ p ∈ p₀ :: rest, p < data.length) →
      rest.length + 1 ≤ fuel →
      ∃ data',
        cycleLoop data ind p₀ fuel = some (data', settleAll ind (p₀ :: rest)) ∧
        data'.length = data.length ∧
        (∀ k : Nat, k ∉ p₀ :: rest → data'[k]? = data[k]?) ∧
        shiftChain data' data (p₀ :: rest) ∧
        data'[(p₀ :: rest).getLast?.getD 0]? = data[p₀]? := by
  intro rest
  induction rest with
  | nil =>
    intro p₀ data ind q fuel hnd hchain hq hqmem hlen hfuel
    match fuel, hfuel with
    | f + 1, _ =>
    have hp0q : ind.getD p₀ 0 = q := hchain
    have hqp0 : q ≠ p₀ := by intro h; exact hqmem (by simp [h])
    refine ⟨data, ?_, rfl, fun k _ => rfl, trivial, by simp⟩
    simp only [cycleLoop, hp0q]
    rw [if_pos ?_]
    · rfl
    · rw [List.getD_eq_getElem?_getD, List.getElem?_set_ne hqp0.symm,
        ← List.getD_eq_getElem?_getD]
      exact hq
  | cons p₁ rest' ih =>
    intro p₀ data ind q fuel hnd hchain hq hqmem hlen hfuel
    match fuel, hfuel with
    | f + 1, hfuel =>
    obtain ⟨hp0, hchain'⟩ := hchain
    have hp0ne1 : p₀ ≠ p₁ := by
      intro h; rw [h] at hnd; simp at hnd
    have hp1next : ind.getD p₁ 0 ≠ p₁ := by
      cases rest' with
      | nil =>
        have : ind.getD p₁ 0 = q := hchain'
        rw [this]; intro h; exact hqmem (by simp [h])
      | cons p₂ rest'' =>
        obtain ⟨h2, _⟩ := hchain'
        rw [h2]; intro h
        rw [h] at hnd
        simp at hnd
    -- the loop does not break: the destination p₁ is not yet settled
    have hcond : ¬ ((ind.set p₀ p₀).getD p₁ 0 = p₁) := by
      rw [List.getD_eq_getElem?_getD, List.getElem?_set_ne hp0ne1,
        ← List.getD_eq_getElem?_getD]
      exact hp1next
    have hstep₁ : cycleLoop data ind p₀ (f + 1) =
        cycleLoop (swapAt data p₀ p₁) (ind.set p₀ p₀) p₁ f := by
      simp only [cycleLoop, hp0]
      rw [if_neg hcond]
    -- apply the induction hypothesis to the shortened chain
    have hnd' : (p₁ :: rest').Nodup := hnd.of_cons
    have hp0notin : p₀ ∉ p₁ :: rest' := (List.nodup_cons.mp hnd).1
    have hp1notin : p₁ ∉ rest' := (List.nodup_cons.mp hnd').1
    have hagree : ∀ x ∈ p₁ :: rest', (ind.set p₀ p₀).getD x 0 = ind.getD x 0 := by
      intro x hx
      have hxne : x ≠ p₀ := by
        intro h; rw [h] at hx; exact hp0notin hx
      rw [List.getD_eq_getElem?_getD, List.getElem?_set_ne (Ne.symm hxne),
        ← List.getD_eq_getElem?_getD]
    have hchain₁ : chainStep (ind.set p₀ p₀) (p₁ :: rest') q :=
      chainStep_congr _ ind _ q hagree hchain'
    have hq₁ : (ind.set p₀ p₀).getD q 0 = q := by
      have hqp0 : q ≠ p₀ := by intro h; exact hqmem (by simp [h])
      rw [List.getD_eq_getElem?_getD, List.getElem?_set_ne hqp0.symm,
        ← List.getD_eq_getElem?_getD]
      exact hq
    have hqmem' : q ∉ p₁ :: rest' := fun h => hqmem (by simp [h])
    have hlen' : ∀ p ∈ p₁ :: rest', p < (swapAt data p₀ p₁).length := by
      intro p hp
      rw [swapAt_length]
      exact hlen p (by simp [hp])
    obtain ⟨data', hrun, hdlen, hoff, hshift, hlast⟩ :=
      ih p₁ (swapAt data p₀ p₁) (ind.set p₀ p₀) q f hnd' hchain₁ hq₁ hqmem'
        hlen' (by simpa using hfuel)
    have hp0len : p₀ < data.length := hlen p₀ (by simp)
    have hp1len : p₁ < data.length := hlen p₁ (by simp)
    have hp0mem' : p₀ ∉ p₁ :: rest' := hp0notin
    refine ⟨data', ?_, by rw [hdlen, swapAt_length], ?_, ?_, ?_⟩
    · rw [hstep₁, hrun, settleAll_cons ind p₀ (p₁ :: rest')]
    · intro k hk
      have hk1 : k ∉ p₁ :: rest' := fun h => hk (by simp [h])
      have hkp0 : k ≠ p₀ := fun h => hk (by simp [h])
      have hkp1 : k ≠ p₁ := fun h => hk (by simp [h])
      rw [hoff k hk1, swapAt_other data p₀ p₁ k hkp0 hkp1]
    · refine ⟨?_, ?_⟩
      · -- data'[p₀] = data[p₁]
        have h1 : data'[p₀]? = (swapAt data p₀ p₁)[p₀]? := hoff p₀ hp0mem'
        rw [h1, swapAt_fst data p₀ p₁ hp0len hp1len hp0ne1]
      · -- the shifted chain over the tail, transported back to `data`
        apply shiftChain_congr data' (swapAt data p₀ p₁) data _ _ hshift
        intro x hx
        have hxrest : x ∈ rest' := hx
        have hxp0 : x ≠ p₀ := by
          intro h; rw [h] at hxrest; exact hp0notin (by simp [hxrest])
        have hxp1 : x ≠ p₁ := by
          intro h; rw [h] at hxrest; exact hp1notin hxrest
        exact swapAt_other data p₀ p₁ x hxp0 hxp1
    · rw [List.getLast?_cons_cons]
      rw [hlast, swapAt_snd data p₀ p₁ hp0len hp1len]

theorem cycleLoop_cycle {α : Type} (p₀ p₁ : Nat) (rest : List Nat)
    (data : List α) (ind : List Nat) (fuel : Nat)
    (hnd : (p₀ :: p₁ :: rest).Nodup)
    (hchain : chainStep ind (p₀ :: p₁ :: rest) p₀)
    (hbound : ∀ p ∈ p₀ :: p₁ :: rest, p < data.length)
    (hp0ind : p₀ < ind.length)
    (hfuel : rest.length + 2 ≤ fuel) :
    ∃ data',
      cycleLoop data ind p₀ fuel = some (data', settleAll ind (p₀ :: p₁ :: rest)) ∧
      data'.length = data.length ∧
      (∀ k : Nat, k ∉ p₀ :: p₁ :: rest → data'[k]? = data[k]?) ∧
      shiftChain data' data (p₀ :: p₁ :: rest) ∧
      data'[(p₀ :: p₁ :: rest).getLast?.getD 0]? = data[p₀]? := by
  match fuel, hfuel with
  | f + 1, hfuel =>
  obtain ⟨hp0, hchain'⟩ := hchain
  have hp0ne1 : p₀ ≠ p₁ := by
    intro h; rw [h] at hnd; simp at hnd
  have hnd' : (p₁ :: rest).Nodup := hnd.of_cons
  have hp0notin : p₀ ∉ p₁ :: rest := (List.nodup_cons.mp hnd).1
  have hp1notin : p₁ ∉ rest := (List.nodup_cons.mp hnd').1
  have hp1next : ind.getD p₁ 0 ≠ p₁ := by
    cases rest with
    | nil =>
      have : ind.getD p₁ 0 = p₀ := hchain'
      rw [this]; exact hp0ne1
    | cons p₂ rest'' =>
      obtain ⟨h2, _⟩ := hchain'
      rw [h2]; intro h
      rw [h] at hnd'
      simp at hnd'
  have hcond : ¬ ((ind.set p₀ p₀).getD p₁ 0 = p₁) := by
    rw [List.getD_eq_getElem?_getD, List.getElem?_set_ne hp0ne1,
      ← List.getD_eq_getElem?_getD]
    exact hp1next
  have hstep₁ : cycleLoop data ind p₀ (f + 1) =
      cycleLoop (swapAt data p₀ p₁) (ind.set p₀ p₀) p₁ f := by
    simp only [cycleLoop, hp0]
    rw [if_neg hcond]
  have hagree : ∀ x ∈ p₁ :: rest, (ind.set p₀ p₀).getD x 0 = ind.getD x 0 := by
    intro x hx
    have hxne : x ≠ p₀ := by
      intro h; rw [h] at hx; exact hp0notin hx
    rw [List.getD_eq_getElem?_getD, List.getElem?_set_ne (Ne.symm hxne),
      ← List.getD_eq_getElem?_getD]
  have hchain₁ : chainStep (ind.set p₀ p₀) (p₁ :: rest) p₀ :=
    chainStep_congr _ ind _ p₀ hagree hchain'
  have hq₁ : (ind.set p₀ p₀).getD p₀ 0 = p₀ := by
    rw [List.getD_eq_getElem?_getD, List.getElem?_set, if_pos rfl]
    simp [hp0ind]
  have hlen' : ∀ p ∈ p₁ :: rest, p < (swapAt data p₀ p₁).length := by
    intro p hp
    rw [swapAt_length]
    exact hbound p (by simp [hp])
  obtain ⟨data', hrun, hdlen, hoff, hshift, hlast⟩ :=
    cycleLoop_chain rest p₁ (swapAt data p₀ p₁) (ind.set p₀ p₀) p₀ f hnd'
      hchain₁ hq₁ hp0notin hlen' (by omega)
  have hp0len : p₀ < data.length := hbound p₀ (by simp)
  have hp1len : p₁ < data.length := hbound p₁ (by simp)
  refine ⟨data', ?_, by rw [hdlen, swapAt_length], ?_, ?_, ?_⟩
  · rw [hstep₁, hrun, settleAll_cons ind p₀ (p₁ :: rest)]
  · intro k hk
    have hk1 : k ∉ p₁ :: rest := fun h => hk (by simp [h])
    have hkp0 : k ≠ p₀ := fun h => hk (by simp [h])
    have hkp1 : k ≠ p₁ := fun h => hk (by simp [h])
    rw [hoff k hk1, swapAt_other data p₀ p₁ k hkp0 hkp1]
  · refine ⟨?_, ?_⟩
    · have h1 : data'[p₀]? = (swapAt data p₀ p₁)[p₀]? := hoff p₀ hp0notin
      rw [h1, swapAt_fst data p₀ p₁ hp0len hp1len hp0ne1]
    · apply shiftChain_congr data' (swapAt data p₀ p₁) data _ _ hshift
      intro x hx
      have hxrest : x ∈ rest := hx
      have hxp0 : x ≠ p₀ := by
        intro h; rw [h] at hxrest; exact hp0notin (by simp [hxrest])
      have hxp1 : x ≠ p₁ := by
        intro h; rw [h] at hxrest; exact hp1notin hxrest
      exact swapAt_other data p₀ p₁ x hxp0 hxp1
  · rw [List.getLast?_cons_cons]
    rw [hlast, swapAt_snd data p₀ p₁ hp0len hp1len]

theorem chainStep_build (ind : List Nat) (g : Nat → Nat) (q : Nat) :
    ∀ (cnt a : Nat), 0 < cnt →
      (∀ i, a ≤ i → i + 1 < a + cnt → ind.getD (g i) 0 = g (i + 1)) →
      ind.getD (g (a + cnt - 1)) 0 = q →
      chainStep ind ((List.range' a cnt).map g) q := by
  intro cnt
  induction cnt with
  | zero => intro a h; omega
  | succ c ih =>
    intro a _ hadj hlast
    cases c with
    | zero =>
      have : (List.range' a 1).map g = [g a] := by simp
      rw [this]
      have : a + 1 - 1 = a := by omega
      rw [this] at hlast
      exact hlast
    | succ c' =>
      have hr : List.range' a (c' + 2) = a :: List.range' (a + 1) (c' + 1) := by
        rw [List.range'_succ]
      rw [hr, List.map_cons]
      have hr2 : List.range' (a + 1) (c' + 1) = (a + 1) :: List.range' (a + 2) c' := by
        rw [List.range'_succ]
      rw [hr2, List.map_cons]
      refine ⟨hadj a (le_refl a) (by omega), ?_⟩
      have := ih (a + 1) (by omega)
        (fun i hi1 hi2 => hadj i (by omega) (by omega))
        (by have harith : a + 1 + (c' + 1) - 1 = a + (c' + 2) - 1 := by omega
            rw [harith]; exact hlast)
      rw [hr2, List.map_cons] at this
      exact this

theorem iterate_lt (σ : Nat → Nat) (n : Nat) (hσ : ∀ k, k < n → σ k < n) :
    ∀ (t s : Nat), s < n → σ^[t] s < n := by
  intro t
  induction t with
  | zero => intro s hs; exact hs
  | succ t ih =>
    intro s hs
    rw [Function.iterate_succ_apply]
    exact ih (σ s) (hσ s hs)

theorem iterate_cancel (σ : Nat → Nat) (n : Nat) (hσ : ∀ k, k < n → σ k < n)
    (hinj : ∀ k₁, k₁ < n → ∀ k₂, k₂ < n → σ k₁ = σ k₂ → k₁ = k₂) :
    ∀ (t x y : Nat), x < n → y < n → σ^[t] x = σ^[t] y → x = y := by
  intro t
  induction t with
  | zero => intro x y _ _ h; exact h
  | succ t ih =>
    intro x y hx hy h
    rw [Function.iterate_succ_apply, Function.iterate_succ_apply] at h
    exact hinj x hx y hy (ih (σ x) (σ y) (hσ x hx) (hσ y hy) h)

theorem exists_period (σ : Nat → Nat) (n : Nat) (hσ : ∀ k, k < n → σ k < n)
    (hinj : ∀ k₁, k₁ < n → ∀ k₂, k₂ < n → σ k₁ = σ k₂ → k₁ = k₂)
    (s : Nat) (hs : s < n) : ∃ t, 0 < t ∧ t ≤ n ∧ σ^[t] s = s := by
  have hmaps : ∀ a ∈ Finset.range (n + 1), σ^[a] s ∈ Finset.range n := by
    intro a _
    simp only [Finset.mem_range]
    exact iterate_lt σ n hσ a s hs
  have hcard : (Finset.range n).card < (Finset.range (n + 1)).card := by
    simp
  obtain ⟨a, ha, b, hb, hab, heq⟩ :=
    Finset.exists_ne_map_eq_of_card_lt_of_maps_to hcard hmaps
  simp only [Finset.mem_range] at ha hb
  rcases Nat.lt_or_ge a b with hlt | hge
  · refine ⟨b - a, by omega, by omega, ?_⟩
    have hsplit : σ^[a] (σ^[b - a] s) = σ^[a] s := by
      rw [← Function.iterate_add_apply]
      have : a + (b - a) = b := by omega
      rw [this]
      exact heq.symm
    exact iterate_cancel σ n hσ hinj a _ s
      (iterate_lt σ n hσ _ s hs) hs hsplit
  · have hlt : b < a := by omega
    refine ⟨a - b, by omega, by omega, ?_⟩
    have hsplit : σ^[b] (σ^[a - b] s) = σ^[b] s := by
      rw [← Function.iterate_add_apply]
      have : b + (a - b) = a := by omega
      rw [this]
      exact heq
    exact iterate_cancel σ n hσ hinj b _ s
      (iterate_lt σ n hσ _ s hs) hs hsplit

theorem shiftChain_getElem {α : Type} (d' d : List α) :
    ∀ (ps : List Nat), shiftChain d' d ps →
      ∀ i, i + 1 < ps.length →
        d'[ps.getD i 0]? = d[ps.getD (i + 1) 0]? := by
  intro ps
  induction ps with
  | nil => intro _ i hi; simp at hi
  | cons p rest ih =>
    intro hs i hi
    cases rest with
    | nil => simp at hi
    | cons p' rest' =>
      obtain ⟨h1, h2⟩ := hs
      cases i with
      | zero => simpa using h1
      | succ i' =>
        have := ih h2 i' (by simpa using hi)
        simpa using this

theorem sortCycle_step {α : Type} (data₀ : List α) (σ : Nat → Nat)
    (hσlt : ∀ k, k < data₀.length → σ k < data₀.length)
    (hσinj : ∀ k₁, k₁ < data₀.length → ∀ k₂, k₂ < data₀.length →
      σ k₁ = σ k₂ → k₁ = k₂)
    (data : List α) (ind : List Nat) (idx : Nat)
    (hinv : SortInv data₀ σ data ind)
    (hidx : idx < data₀.length)
    (huns : ind.getD idx 0 ≠ idx)
    (fuel : Nat) (hfuel : data₀.length + 1 ≤ fuel) :
    ∃ data' ind',
      cycleLoop data ind idx fuel = some (data', ind') ∧
      SortInv data₀ σ data' ind' ∧
      (∀ k, k < data₀.length → ind.getD k 0 = k → ind'.getD k 0 = k) ∧
      ind'.getD idx 0 = idx := by
  obtain ⟨hdlen, hilen, hopt, hclose, hsetd, hunsd⟩ := hinv
  -- the minimal period of idx under σ
  obtain ⟨t₀, ht₀pos, ht₀le, ht₀per⟩ :=
    exists_period σ data₀.length hσlt hσinj idx hidx
  have hper : ∃ t, 0 < t ∧ σ^[t] idx = idx := ⟨t₀, ht₀pos, ht₀per⟩
  letI : DecidablePred fun t => 0 < t ∧ σ^[t] idx = idx :=
    fun _ => Classical.propDecidable _
  set m := Nat.find hper with hmdef
  have hPm : 0 < m ∧ σ^[m] idx = idx := Nat.find_spec hper
  have hmin : ∀ t, t < m → ¬(0 < t ∧ σ^[t] idx = idx) :=
    fun t ht => Nat.find_min hper ht
  have hmn : m ≤ data₀.length := le_trans (Nat.find_min' hper ⟨ht₀pos, ht₀per⟩) ht₀le
  -- every orbit element is unsettled, and `ind` acts as `σ` on it
  have hiter_uns : ∀ t, ind.getD (σ^[t] idx) 0 ≠ σ^[t] idx := by
    intro t
    induction t with
    | zero => simpa using huns
    | succ t ih =>
      rw [Function.iterate_succ_apply']
      exact hclose (σ^[t] idx) (iterate_lt σ data₀.length hσlt t idx hidx) ih
  have hiter_eq : ∀ t, ind.getD (σ^[t] idx) 0 = σ^[t + 1] idx := by
    intro t
    have hlt := iterate_lt σ data₀.length hσlt t idx hidx
    rcases hopt _ hlt with h | h
    · exact absurd h (hiter_uns t)
    · rw [h, Function.iterate_succ_apply']
  have h0 : ind.getD idx 0 = σ idx := by simpa using hiter_eq 0
  have hσidx : σ idx ≠ idx := fun h => huns (by rw [h0, h])
  have hm1 : m ≠ 1 := by
    intro h
    apply hσidx
    have h2 := hPm.2
    rw [h] at h2
    simpa using h2
  have hm2 : 2 ≤ m := by have := hPm.1; omega
  -- the orbit as an explicit list
  set ps := (List.range m).map (fun t => σ^[t] idx) with hps
  have hps_len : ps.length = m := by simp [hps]
  have hps_getD : ∀ t, t < m → ps.getD t 0 = σ^[t] idx := by
    intro t ht
    rw [hps, List.getD_eq_getElem?_getD, List.getElem?_map,
      List.getElem?_range ht]
    rfl
  have hps_mem : ∀ x, x ∈ ps ↔ ∃ t, t < m ∧ σ^[t] idx = x := by
    intro x
    rw [hps, List.mem_map]
    constructor
    · rintro ⟨a, ha, h2⟩
      exact ⟨a, by simpa using ha, h2⟩
    · rintro ⟨t, ht, h2⟩
      exact ⟨t, by simpa using ht, h2⟩
  have hps_sub : ∀ p ∈ ps, p < data₀.length := by
    intro p hp
    obtain ⟨t, _, ht2⟩ := (hps_mem p).mp hp
    rw [← ht2]
    exact iterate_lt σ data₀.length hσlt t idx hidx
  have hps_nodup : ps.Nodup := by
    rw [hps]
    refine List.Nodup.map_on ?_ (List.nodup_range m)
    intro a ha b hb heq
    simp only [List.mem_range] at ha hb
    rcases Nat.lt_trichotomy a b with h | h | h
    · exfalso
      have hsplit : σ^[a] (σ^[b - a] idx) = σ^[a] idx := by
        rw [← Function.iterate_add_apply]
        have : a + (b - a) = b := by omega
        rw [this]
        exact heq.symm
      have hba := iterate_cancel σ data₀.length hσlt hσinj a _ idx
        (iterate_lt σ data₀.length hσlt _ idx hidx) hidx hsplit
      exact hmin (b - a) (by omega) ⟨by omega, hba⟩
    · exact h
    · exfalso
      have hsplit : σ^[b] (σ^[a - b] idx) = σ^[b] idx := by
        rw [← Function.iterate_add_apply]
        have : b + (a - b) = a := by omega
        rw [this]
        exact heq
      have hab := iterate_cancel σ data₀.length hσlt hσinj b _ idx
        (iterate_lt σ data₀.length hσlt _ idx hidx) hidx hsplit
      exact hmin (a - b) (by omega) ⟨by omega, hab⟩
  have hchain : chainStep ind ps idx := by
    have hbuild := chainStep_build ind (fun t => σ^[t] idx) idx m 0 hPm.1
      (fun i _ hi2 => hiter_eq i)
      (by
        have h1 : ind.getD (σ^[m - 1] idx) 0 = σ^[m - 1 + 1] idx :=
          hiter_eq (m - 1)
        rw [show m - 1 + 1 = m by omega] at h1
        simpa [hPm.2] using h1)
    rw [hps, List.range_eq_range']
    exact hbuild
  -- split off the first two orbit elements to enter the cycle lemma
  obtain ⟨c, hc⟩ : ∃ c, m = c + 2 := ⟨m - 2, by omega⟩
  have hps_shape : ps = idx :: σ idx ::
      (List.range' 2 c).map (fun t => σ^[t] idx) := by
    rw [hps, hc, List.range_eq_range']
    rw [List.range'_succ]
    rw [show (0 : Nat) + 1 = 1 by omega]
    rw [List.range'_succ]
    rw [show (1 : Nat) + 1 = 2 by omega]
    simp
  have hbound : ∀ p ∈ ps, p < data.length := by
    intro p hp
    rw [hdlen]
    exact hps_sub p hp
  have hfuel2 : ((List.range' 2 c).map (fun t => σ^[t] idx)).length + 2 ≤ fuel := by
    simp only [List.length_map, List.length_range']
    omega
  obtain ⟨data', hrun, hdlen', hoff, hshift, hlast⟩ :=
    cycleLoop_cycle idx (σ idx) ((List.range' 2 c).map (fun t => σ^[t] idx))
      data ind fuel (hps_shape ▸ hps_nodup) (hps_shape ▸ hchain)
      (hps_shape ▸ hbound) (by rw [hilen]; exact hidx) hfuel2
  rw [← hps_shape] at hrun hoff hshift hlast
  refine ⟨data', settleAll ind ps, ?_, ?_, ?_, ?_⟩
  · exact hrun
  · -- the invariant is restored
    have hset_mem : ∀ p ∈ ps, (settleAll ind ps).getD p 0 = p := by
      intro p hp
      exact settleAll_mem ps ind p hp (by rw [hilen]; exact hps_sub p hp)
    have hset_not : ∀ k : Nat, k ∉ ps →
        (settleAll ind ps).getD k 0 = ind.getD k 0 :=
      fun k hk => settleAll_not_mem ps ind k hk
    -- σ of an off-orbit slot is off-orbit
    have hσ_off : ∀ k, k < data₀.length → k ∉ ps → σ k ∉ ps := by
      intro k hk hknot hσk
      obtain ⟨t, htm, hteq⟩ := (hps_mem (σ k)).mp hσk
      cases t with
      | zero =>
        simp only [Function.iterate_zero_apply] at hteq
        have hstep' : σ (σ^[m - 1] idx) = σ^[m] idx := by
          have h : σ^[m] idx = σ (σ^[m - 1] idx) := by
            conv_lhs => rw [show m = (m - 1) + 1 by omega]
            exact Function.iterate_succ_apply' σ (m - 1) idx
          exact h.symm
        have hidx_eq : σ k = σ (σ^[m - 1] idx) := by
          rw [hstep', hPm.2, ← hteq]
        have := hσinj k hk (σ^[m - 1] idx)
          (iterate_lt σ data₀.length hσlt _ idx hidx) hidx_eq
        apply hknot
        rw [this]
        exact (hps_mem _).mpr ⟨m - 1, by omega, rfl⟩
      | succ t' =>
        have hteq' : σ k = σ (σ^[t'] idx) := by
          rw [← hteq, Function.iterate_succ_apply']
        have := hσinj k hk (σ^[t'] idx)
          (iterate_lt σ data₀.length hσlt _ idx hidx) hteq'
        apply hknot
        rw [this]
        exact (hps_mem _).mpr ⟨t', by omega, rfl⟩
    refine ⟨by rw [hdlen', hdlen], by rw [settleAll_length, hilen], ?_, ?_, ?_, ?_⟩
    · intro k hk
      by_cases hkps : k ∈ ps
      · left; exact hset_mem k hkps
      · rw [hset_not k hkps]; exact hopt k hk
    · intro k hk hkuns
      have hkps : k ∉ ps := by
        intro h
        exact hkuns (hset_mem k h)
      rw [hset_not k hkps] at hkuns
      rw [hset_not (σ k) (hσ_off k hk hkps)]
      exact hclose k hk hkuns
    · intro k hk hkset
      by_cases hkps : k ∈ ps
      · -- a freshly settled orbit slot holds data₀[σ k]
        obtain ⟨t, htm, hteq⟩ := (hps_mem k).mp hkps
        rcases Nat.lt_or_ge (t + 1) m with htlt | htge
        · -- interior slot: shifted from the next orbit element
          have hsh := shiftChain_getElem data' data ps hshift t
            (by rw [hps_len]; omega)
          rw [hps_getD t (by omega), hps_getD (t + 1) (by omega), hteq] at hsh
          rw [hsh]
          have hnext_uns : ind.getD (σ^[t + 1] idx) 0 ≠ σ^[t + 1] idx :=
            hiter_uns (t + 1)
          have hnext_lt := iterate_lt σ data₀.length hσlt (t + 1) idx hidx
          rw [hunsd _ hnext_lt hnext_uns]
          congr 1
          rw [← hteq, Function.iterate_succ_apply']
        · -- the last orbit slot: shifted from the head
          have ht_eq : t = m - 1 := by omega
          have hlast_idx : ps.getLast?.getD 0 = σ^[m - 1] idx := by
            rw [List.getLast?_eq_getElem? ps, hps_len]
            rw [hps, List.getElem?_map, List.getElem?_range (by omega)]
            rfl
          rw [hlast_idx] at hlast
          have hkeq : k = σ^[m - 1] idx := by rw [← hteq, ht_eq]
          rw [hkeq, hlast]
          have hidx_uns : ind.getD idx 0 ≠ idx := huns
          rw [hunsd idx hidx hidx_uns]
          congr 1
          have hdone : σ^[m] idx = σ (σ^[m - 1] idx) := by
            conv_lhs => rw [show m = (m - 1) + 1 by omega]
            exact Function.iterate_succ_apply' σ (m - 1) idx
          rw [← hdone, hPm.2]
      · -- previously settled, untouched
        rw [hset_not k hkps] at hkset
        rw [hoff k hkps]
        exact hsetd k hk hkset
    · intro k hk hkuns
      have hkps : k ∉ ps := by
        intro h
        exact hkuns (hset_mem k h)
      rw [hset_not k hkps] at hkuns
      rw [hoff k hkps]
      exact hunsd k hk hkuns
  · intro k hk hkset
    by_cases hkps : k ∈ ps
    · exact settleAll_mem ps ind k hkps (by rw [hilen]; exact hps_sub k hkps)
    · rw [settleAll_not_mem ps ind k hkps]; exact hkset
  · have : idx ∈ ps := (hps_mem idx).mpr ⟨0, by omega, rfl⟩
    exact settleAll_mem ps ind idx this (by rw [hilen]; exact hidx)

theorem sortOuter_spec {α : Type} (data₀ : List α) (σ : Nat → Nat)
    (hσlt : ∀ k, k < data₀.length → σ k < data₀.length)
    (hσinj : ∀ k₁, k₁ < data₀.length → ∀ k₂, k₂ < data₀.length →
      σ k₁ = σ k₂ → k₁ = k₂) :
    ∀ (cnt j : Nat) (data : List α) (ind : List Nat),
      j + cnt = data₀.length →
      SortInv data₀ σ data ind →
      (∀ k, k < j → ind.getD k 0 = k) →
      ∃ data' ind',
        sortOuter data₀.length (List.range' j cnt) data ind =
          some (data', ind') ∧
        SortInv data₀ σ data' ind' ∧
        (∀ k, k < data₀.length → ind'.getD k 0 = k) := by
  intro cnt
  induction cnt with
  | zero =>
    intro j data ind hj hinv hset
    refine ⟨data, ind, rfl, hinv, ?_⟩
    intro k hk
    exact hset k (by omega)
  | succ c ih =>
    intro j data ind hj hinv hset
    rw [List.range'_succ]
    by_cases hjset : ind.getD j 0 = j
    · have hstep : sortOuter data₀.length (j :: List.range' (j + 1) c) data ind =
          sortOuter data₀.length (List.range' (j + 1) c) data ind := by
        simp only [sortOuter, hjset]
        rw [if_neg (by simp)]
      rw [hstep]
      apply ih (j + 1) data ind (by omega) hinv
      intro k hk
      rcases Nat.lt_or_ge k j with h | h
      · exact hset k h
      · have : k = j := by omega
        rw [this]; exact hjset
    · obtain ⟨data', ind', hrun, hinv', hmono, hjset'⟩ :=
        sortCycle_step data₀ σ hσlt hσinj data ind j hinv (by omega) hjset
          (data₀.length + 1) (le_refl _)
      have hstep : sortOuter data₀.length (j :: List.range' (j + 1) c) data ind =
          sortOuter data₀.length (List.range' (j + 1) c) data' ind' := by
        simp only [sortOuter]
        rw [if_pos (by simpa using hjset), hrun]
      rw [hstep]
      apply ih (j + 1) data' ind' (by omega) hinv'
      intro k hk
      rcases Nat.lt_or_ge k j with h | h
      · exact hmono k (by omega) (hset k h)
      · have : k = j := by omega
        rw [this]; exact hjset'

/-- The in-place cycle-following `sort_by_indices` terminates on every
permutation and agrees with the naive allocate-and-copy reordering. -/
theorem sortByIndices_eq_naiveReorder {α : Type} (dflt : α) (data : List α)
    (ind : List Nat) (hperm : List.Perm ind (List.range data.length)) :
    sortByIndices data ind = some (naiveReorder dflt data ind) := by
  have hilen : ind.length = data.length := by
    have := hperm.length_eq
    simpa using this
  have hnodup : ind.Nodup :=
    (List.Perm.nodup_iff hperm).mpr (List.nodup_range _)
  have hmem : ∀ x ∈ ind, x < data.length := by
    intro x hx
    have := hperm.mem_iff.mp hx
    simpa using this
  set σ : Nat → Nat := fun k => ind.getD k 0 with hσ
  have hσlt : ∀ k, k < data.length → σ k < data.length := by
    intro k hk
    apply hmem
    rw [hσ]
    simp only [List.getD_eq_getElem?_getD,
      List.getElem?_eq_getElem (by omega : k < ind.length), Option.getD_some]
    exact List.getElem_mem _
  have hσinj : ∀ k₁, k₁ < data.length → ∀ k₂, k₂ < data.length →
      σ k₁ = σ k₂ → k₁ = k₂ := by
    intro k₁ h₁ k₂ h₂ heq
    rw [hσ] at heq
    simp only [List.getD_eq_getElem?_getD,
      List.getElem?_eq_getElem (by omega : k₁ < ind.length),
      List.getElem?_eq_getElem (by omega : k₂ < ind.length),
      Option.getD_some] at heq
    exact (List.Nodup.getElem_inj_iff hnodup).mp heq
  have hinv : SortInv data σ data ind := by
    refine ⟨rfl, hilen, ?_, ?_, ?_, ?_⟩
    · intro k _; right; rfl
    · intro k hk hne
      intro hfix
      have hu : σ (σ k) = σ k := hfix
      by_cases h : σ k = k
      · exact hne h
      · exact h (hσinj (σ k) (hσlt k hk) k hk hu)
    · intro k hk hfix
      have : σ k = k := hfix
      rw [this]
    · intro _ _ _; rfl
  obtain ⟨data', ind', hrun, hinv', hall⟩ :=
    sortOuter_spec data σ hσlt hσinj data.length 0 data ind (by omega) hinv
      (fun k hk => absurd hk (by omega))
  obtain ⟨hdlen', _, _, _, hsetd', _⟩ := hinv'
  have hfinal : (sortOuter data.length (List.range data.length) data ind) =
      some (data', ind') := by
    rw [List.range_eq_range']
    exact hrun
  rw [sortByIndices, hfinal, Option.map_some']
  congr 1
  show data' = naiveReorder dflt data ind
  apply List.ext_getElem?
  intro k
  rcases Nat.lt_or_ge k data.length with hk | hk
  · rw [hsetd' k hk (hall k hk)]
    rw [naiveReorder, List.getElem?_map,
      List.getElem?_eq_getElem (show k < ind.length by omega), Option.map_some']
    have hik : ind[k] = σ k := by
      rw [hσ]
      simp [List.getD_eq_getElem?_getD,
        List.getElem?_eq_getElem (show k < ind.length by omega)]
    rw [List.getElem?_eq_getElem (hσlt k hk)]
    congr 1
    rw [hik, List.getD_eq_getElem?_getD,
      List.getElem?_eq_getElem (hσlt k hk), Option.getD_some]
  · rw [List.getElem?_eq_none (show data'.length ≤ k by omega),
      List.getElem?_eq_none]
    rw [naiveReorder, List.length_map]
    omega

/-- C8: on every array and every permutation of its indices, the in-place
cycle-following `sort_by_indices` terminates and produces exactly the array
the naive allocate-and-copy reordering produces. -/
theorem C8_sort_by_indices_eq_naive {α : Type} (dflt : α) (data : List α)
    (ind : List Nat) (hperm : List.Perm ind (List.range data.length)) :
    sortByIndices data ind = some (naiveReorder dflt data ind) :=
  sortByIndices_eq_naiveReorder dflt data ind hperm

theorem C8_sort_by_indices_eq_naive_witness :
    sortByIndices [10, 20, 30] [1, 2, 0] =
      some (naiveReorder 0 [10, 20, 30] [1, 2, 0]) :=
  C8_sort_by_indices_eq_naive 0 [10, 20, 30] [1, 2, 0] (by decide)

/-! ### `add`: error cases and the ancestor width walk -/

theorem ancChainAux_eq_parentOf {Load Id : Type}
    (nodes : List (ArenaNode Load Id)) (i fuel : Nat) :
    ancChainAux nodes i (fuel + 1) =
      match parentOf nodes i with
      | none => []
      | some p => p :: ancChainAux nodes p fuel := by
  unfold parentOf
  cases h : nodes[i]? with
  | none => simp [ancChainAux, h]
  | some nd =>
    cases hp : nd.parentRef with
    | none => simp [ancChainAux, h, hp]
    | some p => simp [ancChainAux, h, hp]

theorem ancChainAux_congr {Load Id : Type}
    (n1 n2 : List (ArenaNode Load Id))
    (h : ∀ k, parentOf n1 k = parentOf n2 k) :
    ∀ fuel i, ancChainAux n1 i fuel = ancChainAux n2 i fuel := by
  intro fuel
  induction fuel with
  | zero => intro i; rfl
  | succ f ih =>
    intro i
    rw [ancChainAux_eq_parentOf, ancChainAux_eq_parentOf, h i]
    cases parentOf n2 i with
    | none => rfl
    | some p =>
      dsimp only
      rw [ih p]

theorem ancChainAux_sub {Load Id : Type} (nodes : List (ArenaNode Load Id))
    (hpar : ∀ (k : Nat) (nd : ArenaNode Load Id), nodes[k]? = some nd →
      ∀ q, nd.parentRef = some q → q < k) :
    ∀ fuel i, ∀ x ∈ ancChainAux nodes i fuel, x < i := by
  intro fuel
  induction fuel with
  | zero => intro i x hx; simp [ancChainAux] at hx
  | succ f ih =>
    intro i x hx
    rw [ancChainAux_eq_parentOf] at hx
    cases hp : parentOf nodes i with
    | none => rw [hp] at hx; simp at hx
    | some p =>
      rw [hp] at hx
      have hpi : p < i := by
        unfold parentOf at hp
        cases hn : nodes[i]? with
        | none => rw [hn] at hp; simp at hp
        | some nd =>
          rw [hn] at hp
          exact hpar i nd hn p hp
      rcases List.mem_cons.mp hx with h | h
      · omega
      · have := ih p x h
        omega

theorem ancChainAux_stable {Load Id : Type} (nodes : List (ArenaNode Load Id))
    (hpar : ∀ (k : Nat) (nd : ArenaNode Load Id), nodes[k]? = some nd →
      ∀ q, nd.parentRef = some q → q < k) :
    ∀ (i : Nat), ∀ fuel1 fuel2, i ≤ fuel1 → i ≤ fuel2 →
      ancChainAux nodes i fuel1 = ancChainAux nodes i fuel2 := by
  intro i
  induction i using Nat.strong_induction_on with
  | _ i ih =>
    intro fuel1 fuel2 h1 h2
    have hpn : ∀ p, parentOf nodes i = some p → p < i := by
      intro p hp
      unfold parentOf at hp
      cases hn : nodes[i]? with
      | none => rw [hn] at hp; simp at hp
      | some nd =>
        rw [hn] at hp
        exact hpar i nd hn p hp
    cases fuel1 with
    | zero =>
      cases fuel2 with
      | zero => rfl
      | succ g =>
        rw [ancChainAux_eq_parentOf]
        cases hp : parentOf nodes i with
        | none => rfl
        | some p => exact absurd (hpn p hp) (by omega)
    | succ f =>
      cases fuel2 with
      | zero =>
        rw [ancChainAux_eq_parentOf]
        cases hp : parentOf nodes i with
        | none => rfl
        | some p => exact absurd (hpn p hp) (by omega)
      | succ g =>
        rw [ancChainAux_eq_parentOf, ancChainAux_eq_parentOf]
        cases hp : parentOf nodes i with
        | none => rfl
        | some p =>
          have hpi := hpn p hp
          dsimp only
          rw [ih p hpi f g (by omega) (by omega)]

theorem widthWalk_succ {Load Id : Type} (nodes : List (ArenaNode Load Id))
    (cur f : Nat) :
    widthWalk nodes cur (f + 1) =
      match nodes[cur]? with
      | none => none
      | some nd =>
        match nd.parentRef with
        | none => some nodes
        | some r =>
          match nodes[r]? with
          | none => none
          | some rn =>
            widthWalk (nodes.set r { rn with width := rn.width + 1 }) r f := rfl

theorem widthWalk_spec {Load Id : Type} :
    ∀ (cur : Nat) (nodes : List (ArenaNode Load Id)),
      (∀ (k : Nat) (nd : ArenaNode Load Id), nodes[k]? = some nd →
        ∀ q, nd.parentRef = some q → q < k) →
      cur < nodes.length →
      ∀ fuel, cur + 1 ≤ fuel →
      ∃ nodes', widthWalk nodes cur fuel = some nodes' ∧
        nodes'.length = nodes.length ∧
        (∀ (k : Nat) (nd : ArenaNode Load Id), nodes[k]? = some nd →
          nodes'[k]? = some { nd with width :=
            nd.width + (if k ∈ ancChain nodes cur then 1 else 0) }) := by
  intro cur
  induction cur using Nat.strong_induction_on with
  | _ cur ih =>
    intro nodes hpar hcur fuel hfuel
    match fuel, hfuel with
    | f + 1, hfuel =>
    obtain ⟨nd, hnd⟩ : ∃ nd, nodes[cur]? = some nd :=
      ⟨nodes[cur], List.getElem?_eq_getElem hcur⟩
    cases hp : nd.parentRef with
    | none =>
      refine ⟨nodes, ?_, rfl, ?_⟩
      · simp only [widthWalk, hnd, hp]
      · intro k nd' hk
        have hchain : ancChain nodes cur = [] := by
          have hpo : parentOf nodes cur = none := by
            simp only [parentOf, hnd, hp]
          unfold ancChain
          cases hc : cur with
          | zero => rfl
          | succ c =>
            rw [hc] at hpo
            rw [ancChainAux_eq_parentOf, hpo]
        rw [hchain]
        simp only [List.not_mem_nil, if_false, Nat.add_zero]
        exact hk
    | some r =>
      have hr : r < cur := hpar cur nd hnd r hp
      have hrlen : r < nodes.length := by omega
      obtain ⟨rn, hrn⟩ : ∃ rn, nodes[r]? = some rn :=
        ⟨nodes[r], List.getElem?_eq_getElem hrlen⟩
      set nodes1 := nodes.set r { rn with width := rn.width + 1 } with hn1
      have hstep : widthWalk nodes cur (f + 1) = widthWalk nodes1 r f := by
        simp only [widthWalk, hnd, hp, hrn]
      have h1r : nodes1[r]? = some { rn with width := rn.width + 1 } := by
        rw [hn1, List.getElem?_set, if_pos rfl]
        simp [hrlen]
      have hpar1 : ∀ (k : Nat) (nd₁ : ArenaNode Load Id), nodes1[k]? = some nd₁ →
          ∀ q, nd₁.parentRef = some q → q < k := by
        intro k nd₁ hk q hq
        by_cases hkr : k = r
        · subst hkr
          rw [h1r] at hk
          have hnd_eq : nd₁ = { rn with width := rn.width + 1 } :=
            (Option.some_inj.mp hk).symm
          rw [hnd_eq] at hq
          exact hpar _ rn hrn q hq
        · rw [hn1, List.getElem?_set_ne (fun h => hkr h.symm)] at hk
          exact hpar k nd₁ hk q hq
      obtain ⟨nodes', hw, hlen', hprops⟩ :=
        ih r hr nodes1 hpar1 (by rw [hn1, List.length_set]; omega) f (by omega)
      have hcongr : ∀ k, parentOf nodes1 k = parentOf nodes k := by
        intro k
        by_cases hkr : k = r
        · subst hkr
          simp only [parentOf, h1r, hrn]
        · unfold parentOf
          rw [hn1, List.getElem?_set_ne (fun h => hkr h.symm)]
      have hchain_r : ancChain nodes1 r = ancChain nodes r := by
        unfold ancChain
        exact ancChainAux_congr nodes1 nodes hcongr r r
      have hchain_cur : ancChain nodes cur = r :: ancChain nodes r := by
        obtain ⟨c, hc⟩ : ∃ c, cur = c + 1 := ⟨cur - 1, by omega⟩
        subst hc
        unfold ancChain
        rw [ancChainAux_eq_parentOf]
        have hpo : parentOf nodes (c + 1) = some r := by
          simp only [parentOf, hnd, hp]
        rw [hpo]
        dsimp only
        congr 1
        exact ancChainAux_stable nodes hpar r c r (by omega) (le_refl r)
      have hrnot : r ∉ ancChain nodes r := by
        intro hmem
        have := ancChainAux_sub nodes hpar r r r hmem
        omega
      refine ⟨nodes', by rw [hstep, hw],
        by rw [hlen', hn1, List.length_set], ?_⟩
      intro k nd' hk
      by_cases hkr : k = r
      · subst hkr
        have hnd_eq : nd' = rn := by
          rw [hrn] at hk
          exact (Option.some_inj.mp hk).symm
        subst hnd_eq
        have h2 := hprops _ _ h1r
        rw [hchain_r, if_neg hrnot, Nat.add_zero] at h2
        rw [hchain_cur, if_pos (List.mem_cons_self _ _)]
        simpa using h2
      · have h1 : nodes1[k]? = some nd' := by
          rw [hn1, List.getElem?_set_ne (fun h => hkr h.symm)]
          exact hk
        have h2 := hprops k nd' h1
        rw [hchain_r] at h2
        rw [hchain_cur]
        by_cases hmem : k ∈ ancChain nodes r
        · rw [if_pos (List.mem_cons_of_mem r hmem)]
          rw [if_pos hmem] at h2
          exact h2
        · rw [if_neg (by
            intro hc
            rcases List.mem_cons.mp hc with h | h
            · exact hkr h
            · exact hmem h)]
          rw [if_neg hmem] at h2
          exact h2

/-- C5: `add(load, id, parentId)` fails with `UnknownNode(parentId)` when the
parent id does not resolve, fails with `NotUnique(id)` when the id is
already taken — in both cases leaving the tree exactly as it was — and on
success appends the new node at the next index with `depth = parent.depth + 1`
and width 1, appends the new index at the end of the parent's child list,
bumps the parent's width, bumps every strict ancestor's width by exactly
one, and leaves every other node (and every other field) unchanged.  The
hypotheses state the structural sanity every tree built by
`set_root`/`add` enjoys: stored indices equal positions and parents have
smaller indices. -/
theorem add_spec {Load Id : Type} [DecidableEq Id]
    (t : DirectedArenaTree Load Id) (load : Load) (id pid : Id)
    (hidx : ∀ (k : Nat) (nd : ArenaNode Load Id), t.nodes[k]? = some nd →
      nd.index = k)
    (hpar : ∀ (k : Nat) (nd : ArenaNode Load Id), t.nodes[k]? = some nd →
      ∀ q, nd.parentRef = some q → q < k) :
    (nodeById t pid = none →
      add t load id pid = some (t, .error (.unknownNode pid))) ∧
    (∀ p, nodeById t pid = some p → (∃ n ∈ t.nodes, n.id = id) →
      add t load id pid = some (t, .error (.notUnique id))) ∧
    (∀ p, nodeById t pid = some p → (∀ n ∈ t.nodes, n.id ≠ id) →
      ∃ t', add t load id pid = some (t', .ok id) ∧
        t'.lookup = lookupInsert t.lookup id t.nodes.length ∧
        t'.nodes.length = t.nodes.length + 1 ∧
        t'.nodes[t.nodes.length]? =
          some ⟨load, t.nodes.length, id, [], 1, p.depth + 1, some p.index⟩ ∧
        t'.nodes[p.index]? = some { p with
          children := p.children ++ [t.nodes.length],
          width := p.width + 1 } ∧
        (∀ (k : Nat) (nd : ArenaNode Load Id), k ≠ p.index →
          t.nodes[k]? = some nd →
          t'.nodes[k]? = some { nd with width :=
            nd.width + (if k ∈ ancChain t.nodes p.index then 1 else 0) })) := by
  refine ⟨?_, ?_, ?_⟩
  · intro h
    simp only [add, h]
  · intro p hp hdup
    have htrue : t.nodes.any (fun n => n.id = id) = true := by
      rw [List.any_eq_true]
      obtain ⟨n, hn, hnid⟩ := hdup
      exact ⟨n, hn, by simp [hnid]⟩
    simp only [add, hp, htrue, if_true]
  · intro p hp hnodup
    -- resolve the parent: its stored index is its position
    have hpj : ∃ j, lookupGet t.lookup pid = some j ∧ t.nodes[j]? = some p := by
      unfold nodeById at hp
      cases hg : lookupGet t.lookup pid with
      | none => rw [hg] at hp; simp at hp
      | some j => rw [hg] at hp; exact ⟨j, rfl, hp⟩
    obtain ⟨j, hg, hj⟩ := hpj
    have hpidx : p.index = j := hidx j p hj
    have hjp : t.nodes[p.index]? = some p := by rw [hpidx]; exact hj
    have hplt : p.index < t.nodes.length := by
      have := List.getElem?_eq_some.mp hjp
      exact this.1
    have hfalse : t.nodes.any (fun n => n.id = id) = false := by
      rw [List.any_eq_false]
      intro n hn
      simpa using hnodup n hn
    set nodes1 := t.nodes.set p.index
      { p with children := p.children ++ [t.nodes.length],
               width := p.width + 1 } with hn1
    have h1p : nodes1[p.index]? = some { p with
        children := p.children ++ [t.nodes.length],
        width := p.width + 1 } := by
      rw [hn1, List.getElem?_set, if_pos rfl]
      simp [hplt]
    have hpar1 : ∀ (k : Nat) (nd₁ : ArenaNode Load Id), nodes1[k]? = some nd₁ →
        ∀ q, nd₁.parentRef = some q → q < k := by
      intro k nd₁ hk q hq
      by_cases hkr : k = p.index
      · subst hkr
        rw [h1p] at hk
        have hnd_eq : nd₁ = { p with
            children := p.children ++ [t.nodes.length],
            width := p.width + 1 } := (Option.some_inj.mp hk).symm
        rw [hnd_eq] at hq
        exact hpar _ p hjp q hq
      · rw [hn1, List.getElem?_set_ne (fun h => hkr h.symm)] at hk
        exact hpar k nd₁ hk q hq
    have hlen1 : nodes1.length = t.nodes.length := by
      rw [hn1, List.length_set]
    obtain ⟨nodes2, hw, hlen2, hprops⟩ :=
      widthWalk_spec p.index nodes1 hpar1 (by omega) (t.nodes.length + 1)
        (by omega)
    have hcongr : ∀ k, parentOf nodes1 k = parentOf t.nodes k := by
      intro k
      by_cases hkr : k = p.index
      · subst hkr
        simp only [parentOf, h1p, hjp]
      · unfold parentOf
        rw [hn1, List.getElem?_set_ne (fun h => hkr h.symm)]
    have hchain1 : ancChain nodes1 p.index = ancChain t.nodes p.index := by
      unfold ancChain
      exact ancChainAux_congr nodes1 t.nodes hcongr p.index p.index
    have hpnot : p.index ∉ ancChain nodes1 p.index := by
      intro hmem
      have := ancChainAux_sub nodes1 hpar1 p.index p.index p.index hmem
      omega
    refine ⟨⟨nodes2 ++ [⟨load, t.nodes.length, id, [], 1, p.depth + 1,
        some p.index⟩], lookupInsert t.lookup id t.nodes.length⟩,
      ?_, rfl, ?_, ?_, ?_, ?_⟩
    · simp only [add, hp, hfalse, Bool.false_eq_true, if_false, hjp, hw]
    · simp only [List.length_append, List.length_cons, List.length_nil]
      omega
    · have hl2 : nodes2.length = t.nodes.length := by rw [hlen2, hlen1]
      rw [show t.nodes.length = nodes2.length from hl2.symm]
      simp
    · have h2 := hprops p.index _ h1p
      rw [if_neg hpnot, Nat.add_zero] at h2
      have hplt2 : p.index < nodes2.length := by rw [hlen2, hlen1]; omega
      rw [List.getElem?_append_left hplt2, h2]
    · intro k nd hkp hk
      have hk1 : nodes1[k]? = some nd := by
        rw [hn1, List.getElem?_set_ne (fun h => hkp h.symm)]
        exact hk
      have h2 := hprops k nd hk1
      rw [hchain1] at h2
      have hklt : k < nodes2.length := by
        rw [hlen2, hlen1]
        exact (List.getElem?_eq_some.mp hk).1
      rw [List.getElem?_append_left hklt, h2]

/-- C5: the `add` error/success semantics, as `add_spec` states it. -/
theorem C5_add_semantics {Load Id : Type} [DecidableEq Id]
    (t : DirectedArenaTree Load Id) (load : Load) (id pid : Id)
    (hidx : ∀ (k : Nat) (nd : ArenaNode Load Id), t.nodes[k]? = some nd →
      nd.index = k)
    (hpar : ∀ (k : Nat) (nd : ArenaNode Load Id), t.nodes[k]? = some nd →
      ∀ q, nd.parentRef = some q → q < k) :
    (nodeById t pid = none →
      add t load id pid = some (t, .error (.unknownNode pid))) ∧
    (∀ p, nodeById t pid = some p → (∃ n ∈ t.nodes, n.id = id) →
      add t load id pid = some (t, .error (.notUnique id))) ∧
    (∀ p, nodeById t pid = some p → (∀ n ∈ t.nodes, n.id ≠ id) →
      ∃ t', add t load id pid = some (t', .ok id) ∧
        t'.lookup = lookupInsert t.lookup id t.nodes.length ∧
        t'.nodes.length = t.nodes.length + 1 ∧
        t'.nodes[t.nodes.length]? =
          some ⟨load, t.nodes.length, id, [], 1, p.depth + 1, some p.index⟩ ∧
        t'.nodes[p.index]? = some { p with
          children := p.children ++ [t.nodes.length],
          width := p.width + 1 } ∧
        (∀ (k : Nat) (nd : ArenaNode Load Id), k ≠ p.index →
          t.nodes[k]? = some nd →
          t'.nodes[k]? = some { nd with width :=
            nd.width + (if k ∈ ancChain t.nodes p.index then 1 else 0) })) :=
  add_spec t load id pid hidx hpar

theorem C5_add_semantics_witness :
    add (⟨[⟨100, 0, 0, [], 1, 0, none⟩], [(0, 0)]⟩ :
        DirectedArenaTree ℕ ℕ) 300 2 5 =
      some (⟨[⟨100, 0, 0, [], 1, 0, none⟩], [(0, 0)]⟩,
        .error (.unknownNode 5)) :=
  (C5_add_semantics ⟨[⟨100, 0, 0, [], 1, 0, none⟩], [(0, 0)]⟩ 300 2 5
    (by
      intro k nd hk
      have hklt : k < 1 := by
        have := (List.getElem?_eq_some.mp hk).1
        simpa using this
      interval_cases k
      simp only [List.getElem?_cons_zero, Option.some_inj] at hk
      rw [← hk])
    (by
      intro k nd hk q hq
      have hklt : k < 1 := by
        have := (List.getElem?_eq_some.mp hk).1
        simpa using this
      interval_cases k
      simp only [List.getElem?_cons_zero, Option.some_inj] at hk
      rw [← hk] at hq
      simp at hq)).1 (by decide)

/-! ## The Jacobian column fill (claim C3) -/

theorem writeBlock_length {F : Type} :
    ∀ (vals col : List F) (off : Nat),
      (writeBlock col off vals).length = col.length := by
  intro vals
  induction vals with
  | nil => intro col off; rfl
  | cons v vs ih => intro col off; simp [writeBlock, ih]

theorem writeBlock_outside {F : Type} :
    ∀ (vals col : List F) (off p : Nat),
      (p < off ∨ off + vals.length ≤ p) →
      (writeBlock col off vals)[p]? = col[p]? := by
  intro vals
  induction vals with
  | nil => intro col off p _; rfl
  | cons v vs ih =>
    intro col off p hp
    simp only [List.length_cons] at hp
    simp only [writeBlock]
    rw [ih (col.set off v) (off + 1) p (by omega)]
    exact List.getElem?_set_ne (by omega)

theorem writeBlock_in {F : Type} :
    ∀ (vals col : List F) (off r : Nat),
      off + vals.length ≤ col.length → r < vals.length →
      (writeBlock col off vals)[off + r]? = vals[r]? := by
  intro vals
  induction vals with
  | nil => intro col off r _ hr; simp at hr
  | cons v vs ih =>
    intro col off r hb hr
    simp only [List.length_cons] at hb hr
    simp only [writeBlock]
    cases r with
    | zero =>
      rw [writeBlock_outside vs (col.set off v) (off + 1) (off + 0)
        (Or.inl (by omega))]
      simp only [Nat.add_zero]
      rw [List.getElem?_set_self (by omega)]
      simp
    | succ r' =>
      have harith : off + (r' + 1) = (off + 1) + r' := by omega
      rw [harith, ih (col.set off v) (off + 1) r'
        (by simp only [List.length_set]; omega) (by omega)]
      simp

theorem fillColumn_eq_foldl {Load Id A F : Type} (effSize : Load → Nat)
    (pd : Load → A → Load → A → Nat → F)
    (nodes : List (ArenaNode Load Id)) (trafos : List A) (offsets : List Nat)
    (selE : List Bool) (idx : Nat) (jointNode : ArenaNode Load Id)
    (jointPose : A) (col : List F) :
    fillColumn effSize pd nodes trafos offsets selE idx jointNode jointPose
        col =
      (((nodes.drop jointNode.index).take jointNode.width).zip
          ((trafos.drop idx).zip
            ((offsets.drop idx).zip (selE.drop idx)))).foldl
        (fillStep effSize pd jointNode.load jointPose) col := rfl

theorem chunksOf_cons_block {α : Type} (k : Nat) (hk : 0 < k)
    (A B : List α) (hA : A.length = k) :
    chunksOf k (A ++ B) = A :: chunksOf k B := by
  cases A with
  | nil => simp at hA; omega
  | cons a rest =>
    rw [List.cons_append, chunksOf]
    rw [dif_neg (by omega)]
    rw [← List.cons_append]
    rw [← hA, List.take_left, List.drop_left]

theorem chunksOf_replicate {α : Type} (k : Nat) (hk : 0 < k) (x : α) :
    ∀ c : Nat, chunksOf k (List.replicate (k * c) x) =
      List.replicate c (List.replicate k x) := by
  intro c
  induction c with
  | zero => simp [chunksOf]
  | succ c' ih =>
    have h1 : k * (c' + 1) = k + k * c' := by ring
    rw [h1, List.replicate_add,
      chunksOf_cons_block k hk _ _ (List.length_replicate k x), ih]
    rfl

theorem fillColumns_length {Load Id A F : Type} (effSize : Load → Nat)
    (pd : Load → A → Load → A → Nat → F)
    (nodes : List (ArenaNode Load Id)) (trafos : List A) (offsets : List Nat)
    (selE : List Bool) :
    ∀ (cols : List (List F)) (js : List (Nat × ArenaNode Load Id × A)),
      (fillColumns effSize pd nodes trafos offsets selE cols js).length =
        cols.length := by
  intro cols
  induction cols with
  | nil => intro js; cases js <;> rfl
  | cons c cs ih =>
    intro js
    cases js with
    | nil => rfl
    | cons j js' => simp [fillColumns, ih]

theorem fillColumns_getElem_some {Load Id A F : Type} (effSize : Load → Nat)
    (pd : Load → A → Load → A → Nat → F)
    (nodes : List (ArenaNode Load Id)) (trafos : List A) (offsets : List Nat)
    (selE : List Bool) :
    ∀ (cols : List (List F)) (js : List (Nat × ArenaNode Load Id × A))
      (c : Nat) (colv : List F) (idx : Nat) (nd : ArenaNode Load Id) (p : A),
      cols[c]? = some colv → js[c]? = some (idx, nd, p) →
      (fillColumns effSize pd nodes trafos offsets selE cols js)[c]? =
        some (fillColumn effSize pd nodes trafos offsets selE idx nd p
          colv) := by
  intro cols
  induction cols with
  | nil => intro js c colv idx nd p h1 _; simp at h1
  | cons c0 cs ih =>
    intro js c colv idx nd p h1 h2
    cases js with
    | nil => simp at h2
    | cons j js' =>
      cases c with
      | zero =>
        simp only [List.getElem?_cons_zero, Option.some.injEq] at h1 h2
        subst h1; subst h2
        simp [fillColumns]
      | succ c' =>
        simp only [List.getElem?_cons_succ] at h1 h2
        simpa only [fillColumns, List.getElem?_cons_succ] using
          ih js' c' colv idx nd p h1 h2

theorem keepNth {α β : Type} (f : α → β) :
    ∀ (l : List α) (s : List Bool) (idx : Nat) (a : α),
      l[idx]? = some a → s[idx]? = some true →
      ((l.zip s).filterMap fun q => if q.2 then some (f q.1) else none)[
        (s.take idx).count true]? = some (f a) := by
  intro l
  induction l with
  | nil => intro s idx a h1 _; simp at h1
  | cons x l' ih =>
    intro s idx a h1 h2
    cases s with
    | nil => simp at h2
    | cons b s' =>
      cases idx with
      | zero =>
        simp only [List.getElem?_cons_zero, Option.some.injEq] at h1 h2
        subst h1; subst h2
        simp [List.zip_cons_cons, List.filterMap_cons]
      | succ idx' =>
        simp only [List.getElem?_cons_succ] at h1 h2
        have hih := ih s' idx' a h1 h2
        cases hb : b with
        | true =>
          simp only [List.zip_cons_cons, List.filterMap_cons, hb,
            List.take_succ_cons, List.count_cons]
          simpa [Nat.add_comm] using hih
        | false =>
          simp only [List.zip_cons_cons, List.filterMap_cons, hb,
            List.take_succ_cons, List.count_cons]
          simpa using hih

theorem count_take_lt (l : List Bool) (i : Nat) (h : l[i]? = some true) :
    (l.take i).count true < l.count true := by
  have hi : i < l.length := by
    by_contra hc
    rw [List.getElem?_eq_none (by omega)] at h
    exact Option.noConfusion h
  conv_rhs => rw [← List.take_append_drop i l]
  rw [List.count_append, List.drop_eq_getElem_cons hi]
  have hv : l[i] = true := by
    rw [List.getElem?_eq_getElem hi] at h
    exact Option.some.inj h
  rw [hv, List.count_cons]
  simp

theorem rowOffset_succ {Load Id : Type} [DecidableEq Id]
    (effSize : Load → Nat) (selE : List Id)
    (nodes : List (ArenaNode Load Id)) (i : Nat) (nd : ArenaNode Load Id)
    (h : nodes[i]? = some nd) :
    rowOffset effSize selE nodes (i + 1) =
      rowOffset effSize selE nodes i +
        (if nd.id ∈ selE then effSize nd.load else 0) := by
  unfold rowOffset
  rw [List.take_succ, h]
  simp [List.sum_append]

theorem rowOffset_mono {Load Id : Type} [DecidableEq Id]
    (effSize : Load → Nat) (selE : List Id)
    (nodes : List (ArenaNode Load Id)) (i j : Nat) (hij : i ≤ j) :
    rowOffset effSize selE nodes i ≤ rowOffset effSize selE nodes j := by
  have key : ∀ m : Nat, rowOffset effSize selE nodes m ≤
      rowOffset effSize selE nodes (m + 1) := by
    intro m
    by_cases hm : m < nodes.length
    · obtain ⟨nd, hnd⟩ : ∃ nd, nodes[m]? = some nd :=
        ⟨nodes[m], List.getElem?_eq_getElem hm⟩
      rw [rowOffset_succ effSize selE nodes m nd hnd]
      omega
    · unfold rowOffset
      rw [List.take_of_length_le (by omega),
        List.take_of_length_le (by omega)]
  exact Nat.le_induction (le_refl _)
    (fun n _ ih => le_trans ih (key n)) j hij

theorem rowOffset_full {Load Id : Type} [DecidableEq Id]
    (effSize : Load → Nat) (selE : List Id)
    (nodes : List (ArenaNode Load Id)) :
    rowOffset effSize selE nodes nodes.length =
      (nodes.map fun n => if n.id ∈ selE then effSize n.load else 0).sum := by
  unfold rowOffset
  rw [List.take_length]

theorem quads_getElem {N A : Type} (nodes : List N) (ts : List A)
    (os : List Nat) (ss : List Bool) (idx w k : Nat) (hk : k < w)
    (nd : N) (tv : A) (ov : Nat) (sv : Bool)
    (h1 : nodes[idx + k]? = some nd) (h2 : ts[idx + k]? = some tv)
    (h3 : os[idx + k]? = some ov) (h4 : ss[idx + k]? = some sv) :
    (((nodes.drop idx).take w).zip
        ((ts.drop idx).zip ((os.drop idx).zip (ss.drop idx))))[k]? =
      some (nd, tv, ov, sv) := by
  apply List.getElem?_zip_eq_some.mpr
  constructor
  · rw [List.getElem?_take]
    rw [if_pos hk, List.getElem?_drop]
    exact h1
  · apply List.getElem?_zip_eq_some.mpr
    refine ⟨by rw [List.getElem?_drop]; exact h2, ?_⟩
    apply List.getElem?_zip_eq_some.mpr
    exact ⟨by rw [List.getElem?_drop]; exact h3,
      by rw [List.getElem?_drop]; exact h4⟩

theorem quads_getElem_inv {N A : Type} (nodes : List N) (ts : List A)
    (os : List Nat) (ss : List Bool) (idx w k : Nat) (q : N × A × Nat × Bool)
    (h : (((nodes.drop idx).take w).zip
        ((ts.drop idx).zip ((os.drop idx).zip (ss.drop idx))))[k]? =
      some q) :
    k < w ∧ nodes[idx + k]? = some q.1 ∧ ts[idx + k]? = some q.2.1 ∧
      os[idx + k]? = some q.2.2.1 ∧ ss[idx + k]? = some q.2.2.2 := by
  obtain ⟨ha, hb⟩ := List.getElem?_zip_eq_some.mp h
  obtain ⟨hb1, hb2⟩ := List.getElem?_zip_eq_some.mp hb
  obtain ⟨hc1, hc2⟩ := List.getElem?_zip_eq_some.mp hb2
  rw [List.getElem?_take] at ha
  by_cases hk : k < w
  · rw [if_pos hk, List.getElem?_drop] at ha
    rw [List.getElem?_drop] at hb1 hc1 hc2
    exact ⟨hk, ha, hb1, hc1, hc2⟩
  · rw [if_neg hk] at ha
    exact Option.noConfusion ha

/-- Entry characterization of the fold filling one Jacobian column: given
in-bounds, offset-monotone (hence disjoint) blocks, the fold preserves the
length, writes each selected quad's partial-derivative block at its offset,
and leaves every position outside all selected blocks unchanged. -/
theorem fillFold_spec {Load Id A F : Type} (effSize : Load → Nat)
    (pd : Load → A → Load → A → Nat → F) (jl : Load) (jp : A) :
    ∀ (quads : List (ArenaNode Load Id × A × Nat × Bool)) (col : List F),
      (∀ (k : Nat) (q : ArenaNode Load Id × A × Nat × Bool),
        quads[k]? = some q → q.2.2.2 = true →
        q.2.2.1 + effSize q.1.load ≤ col.length) →
      (∀ (k1 k2 : Nat) (q1 q2 : ArenaNode Load Id × A × Nat × Bool),
        k1 < k2 → quads[k1]? = some q1 → quads[k2]? = some q2 →
        q1.2.2.2 = true → q2.2.2.2 = true →
        q1.2.2.1 + effSize q1.1.load ≤ q2.2.2.1) →
      (quads.foldl (fillStep effSize pd jl jp) col).length = col.length ∧
      (∀ (k : Nat) (q : ArenaNode Load Id × A × Nat × Bool),
        quads[k]? = some q → q.2.2.2 = true →
        ∀ r, r < effSize q.1.load →
          (quads.foldl (fillStep effSize pd jl jp) col)[q.2.2.1 + r]? =
            some (pd q.1.load q.2.1 jl jp r)) ∧
      (∀ p : Nat,
        (∀ (k : Nat) (q : ArenaNode Load Id × A × Nat × Bool),
          quads[k]? = some q → q.2.2.2 = true →
          p < q.2.2.1 ∨ q.2.2.1 + effSize q.1.load ≤ p) →
        (quads.foldl (fillStep effSize pd jl jp) col)[p]? = col[p]?) := by
  intro quads
  induction quads with
  | nil =>
    intro col _ _
    refine ⟨rfl, ?_, ?_⟩
    · intro k q hq; simp at hq
    · intro p _; rfl
  | cons q0 rest ih =>
    intro col hb hmono
    have hstep : (q0 :: rest).foldl (fillStep effSize pd jl jp) col =
        rest.foldl (fillStep effSize pd jl jp)
          (fillStep effSize pd jl jp col q0) := rfl
    have hlen1 : (fillStep effSize pd jl jp col q0).length = col.length := by
      by_cases hq0 : q0.2.2.2 = true
      · simp only [fillStep, hq0, if_true]
        exact writeBlock_length _ _ _
      · simp only [fillStep]
        rw [if_neg hq0]
    have hb' : ∀ (k : Nat) (q : ArenaNode Load Id × A × Nat × Bool),
        rest[k]? = some q → q.2.2.2 = true →
        q.2.2.1 + effSize q.1.load ≤
          (fillStep effSize pd jl jp col q0).length := by
      intro k q hq hsel
      rw [hlen1]
      exact hb (k + 1) q (by simpa using hq) hsel
    have hmono' : ∀ (k1 k2 : Nat) (q1 q2 : ArenaNode Load Id × A × Nat × Bool),
        k1 < k2 → rest[k1]? = some q1 → rest[k2]? = some q2 →
        q1.2.2.2 = true → q2.2.2.2 = true →
        q1.2.2.1 + effSize q1.1.load ≤ q2.2.2.1 := by
      intro k1 k2 q1 q2 hlt h1 h2 hs1 hs2
      exact hmono (k1 + 1) (k2 + 1) q1 q2 (by omega)
        (by simpa using h1) (by simpa using h2) hs1 hs2
    obtain ⟨ihlen, ihA, ihB⟩ := ih (fillStep effSize pd jl jp col q0) hb' hmono'
    refine ⟨?_, ?_, ?_⟩
    · rw [hstep, ihlen, hlen1]
    · intro k q hq hsel r hr
      rw [hstep]
      cases k with
      | zero =>
        have hq0 : q0 = q := by
          simpa using hq
        subst hq0
        have hbound := hb 0 q0 (by simp) hsel
        have hout : ∀ (k' : Nat) (q' : ArenaNode Load Id × A × Nat × Bool),
            rest[k']? = some q' → q'.2.2.2 = true →
            q0.2.2.1 + r < q'.2.2.1 ∨
              q'.2.2.1 + effSize q'.1.load ≤ q0.2.2.1 + r := by
          intro k' q' hq' hsel'
          left
          have := hmono 0 (k' + 1) q0 q' (by omega) (by simp)
            (by simpa using hq') hsel hsel'
          omega
        rw [ihB (q0.2.2.1 + r) hout]
        simp only [fillStep, hsel, if_true]
        rw [writeBlock_in _ _ _ _ (by simpa using hbound) (by simpa using hr)]
        simp [hr]
      | succ k' =>
        exact ihA k' q (by simpa using hq) hsel r hr
    · intro p hp
      rw [hstep]
      rw [ihB p (fun k' q' hq' hsel' =>
        hp (k' + 1) q' (by simpa using hq') hsel')]
      by_cases hq0 : q0.2.2.2 = true
      · simp only [fillStep, hq0, if_true]
        apply writeBlock_outside
        have := hp 0 q0 (by simp) hq0
        simp only [List.length_map, List.length_range]
        omega
      · simp only [fillStep]
        rw [if_neg hq0]

/-- One Jacobian column after `fillColumn`: every selected effector inside
the joint's subtree slice gets its partial-derivative block at its row
offset, and every row of a selected effector outside the slice is left
exactly as it was. -/
theorem fillColumn_spec {Load Id A F : Type} [DecidableEq Id]
    (effSize : Load → Nat) (pd : Load → A → Load → A → Nat → F)
    (selE : List Id) (nodes : List (ArenaNode Load Id)) (trafos : List A)
    (offs : List Nat) (idx : Nat) (jnd : ArenaNode Load Id) (jp : A)
    (col : List F)
    (hoffs : ∀ j : Nat, j < nodes.length →
      offs[j]? = some (rowOffset effSize selE nodes j))
    (hidxe : jnd.index = idx)
    (htral : trafos.length = nodes.length)
    (hcollen : col.length = rowOffset effSize selE nodes nodes.length) :
    (fillColumn effSize pd nodes trafos offs
        (nodes.map fun nd => decide (nd.id ∈ selE)) idx jnd jp col).length =
      col.length ∧
    (∀ (j : Nat) (e : ArenaNode Load Id), idx ≤ j → j < idx + jnd.width →
      nodes[j]? = some e → e.id ∈ selE →
      ∀ r, r < effSize e.load →
        ∃ ep, trafos[j]? = some ep ∧
          (fillColumn effSize pd nodes trafos offs
            (nodes.map fun nd => decide (nd.id ∈ selE)) idx jnd jp
            col)[rowOffset effSize selE nodes j + r]? =
            some (pd e.load ep jnd.load jp r)) ∧
    (∀ (j : Nat) (e : ArenaNode Load Id), nodes[j]? = some e →
      e.id ∈ selE → (j < idx ∨ idx + jnd.width ≤ j) →
      ∀ r, r < effSize e.load →
        (fillColumn effSize pd nodes trafos offs
          (nodes.map fun nd => decide (nd.id ∈ selE)) idx jnd jp
          col)[rowOffset effSize selE nodes j + r]? =
          col[rowOffset effSize selE nodes j + r]?) := by
  rw [fillColumn_eq_foldl, hidxe]
  have hquadfact : ∀ (k : Nat) (q : ArenaNode Load Id × A × Nat × Bool),
      (((nodes.drop idx).take jnd.width).zip
        ((trafos.drop idx).zip
          ((offs.drop idx).zip
            ((nodes.map fun nd => decide (nd.id ∈ selE)).drop idx))))[k]? =
        some q →
      k < jnd.width ∧ idx + k < nodes.length ∧
        nodes[idx + k]? = some q.1 ∧
        q.2.2.1 = rowOffset effSize selE nodes (idx + k) ∧
        q.2.2.2 = decide (q.1.id ∈ selE) := by
    intro k q hkq
    have hh := quads_getElem_inv nodes trafos offs
      (nodes.map fun nd => decide (nd.id ∈ selE)) idx jnd.width k q hkq
    obtain ⟨hk, h1, _h2, h3, h4⟩ := hh
    have hkn : idx + k < nodes.length := by
      by_contra hc
      rw [List.getElem?_eq_none (by omega)] at h1
      exact Option.noConfusion h1
    refine ⟨hk, hkn, h1, ?_, ?_⟩
    · rw [hoffs (idx + k) hkn] at h3
      exact (Option.some.inj h3).symm
    · rw [List.getElem?_map, h1] at h4
      exact (Option.some.inj h4).symm
  have hblock : ∀ (k : Nat) (q : ArenaNode Load Id × A × Nat × Bool),
      (((nodes.drop idx).take jnd.width).zip
        ((trafos.drop idx).zip
          ((offs.drop idx).zip
            ((nodes.map fun nd => decide (nd.id ∈ selE)).drop idx))))[k]? =
        some q →
      q.2.2.2 = true →
      q.2.2.1 + effSize q.1.load =
        rowOffset effSize selE nodes (idx + k + 1) ∧
        idx + k < nodes.length := by
    intro k q hkq hqsel
    obtain ⟨_, hkn, h1, hoffv, hflag⟩ := hquadfact k q hkq
    have hmem : q.1.id ∈ selE := by
      rw [hqsel] at hflag
      exact of_decide_eq_true hflag.symm
    refine ⟨?_, hkn⟩
    rw [rowOffset_succ effSize selE nodes (idx + k) q.1 h1, if_pos hmem,
      hoffv]
  have hb : ∀ (k : Nat) (q : ArenaNode Load Id × A × Nat × Bool),
      (((nodes.drop idx).take jnd.width).zip
        ((trafos.drop idx).zip
          ((offs.drop idx).zip
            ((nodes.map fun nd => decide (nd.id ∈ selE)).drop idx))))[k]? =
        some q →
      q.2.2.2 = true → q.2.2.1 + effSize q.1.load ≤ col.length := by
    intro k q hkq hqsel
    obtain ⟨hend, hkn⟩ := hblock k q hkq hqsel
    rw [hend, hcollen]
    exact rowOffset_mono effSize selE nodes _ _ (by omega)
  have hmono : ∀ (k1 k2 : Nat) (q1 q2 : ArenaNode Load Id × A × Nat × Bool),
      k1 < k2 →
      (((nodes.drop idx).take jnd.width).zip
        ((trafos.drop idx).zip
          ((offs.drop idx).zip
            ((nodes.map fun nd => decide (nd.id ∈ selE)).drop idx))))[k1]? =
        some q1 →
      (((nodes.drop idx).take jnd.width).zip
        ((trafos.drop idx).zip
          ((offs.drop idx).zip
            ((nodes.map fun nd => decide (nd.id ∈ selE)).drop idx))))[k2]? =
        some q2 →
      q1.2.2.2 = true → q2.2.2.2 = true →
      q1.2.2.1 + effSize q1.1.load ≤ q2.2.2.1 := by
    intro k1 k2 q1 q2 hlt h1 h2 hs1 hs2
    obtain ⟨hend1, _⟩ := hblock k1 q1 h1 hs1
    obtain ⟨_, _, _, hoffv2, _⟩ := hquadfact k2 q2 h2
    rw [hend1, hoffv2]
    exact rowOffset_mono effSize selE nodes _ _ (by omega)
  obtain ⟨hlen, hA, hB⟩ := fillFold_spec effSize pd jnd.load jp _ col hb hmono
  refine ⟨hlen, ?_, ?_⟩
  · intro j e hij hjw hje hmem r hr
    have hjn : j < nodes.length := by
      by_contra hc
      rw [List.getElem?_eq_none (by omega)] at hje
      exact Option.noConfusion hje
    obtain ⟨ep, hep⟩ : ∃ ep, trafos[j]? = some ep :=
      ⟨trafos.get ⟨j, (by omega)⟩, List.getElem?_eq_getElem (by omega)⟩
    have hj : j = idx + (j - idx) := by omega
    have hquad := quads_getElem nodes trafos offs
      (nodes.map fun nd => decide (nd.id ∈ selE)) idx jnd.width (j - idx)
      (by omega) e ep (rowOffset effSize selE nodes j) true
      (by rw [← hj]; exact hje) (by rw [← hj]; exact hep)
      (by rw [← hj]; exact hoffs j hjn)
      (by rw [← hj, List.getElem?_map, hje]; simp [hmem])
    refine ⟨ep, hep, ?_⟩
    exact hA (j - idx) (e, ep, rowOffset effSize selE nodes j, true) hquad
      rfl r hr
  · intro j e hje hmem hout r hr
    have hjn : j < nodes.length := by
      by_contra hc
      rw [List.getElem?_eq_none (by omega)] at hje
      exact Option.noConfusion hje
    apply hB
    intro k q hkq hqsel
    obtain ⟨hend, hkn⟩ := hblock k q hkq hqsel
    obtain ⟨hk, _, _, hoffv, _⟩ := hquadfact k q hkq
    rcases hout with hlt | hge
    · left
      have h1 : rowOffset effSize selE nodes (j + 1) ≤
          rowOffset effSize selE nodes (idx + k) :=
        rowOffset_mono effSize selE nodes _ _ (by omega)
      have h2 : rowOffset effSize selE nodes (j + 1) =
          rowOffset effSize selE nodes j + effSize e.load := by
        rw [rowOffset_succ effSize selE nodes j e hje, if_pos hmem]
      rw [hoffv]
      omega
    · right
      have h1 : rowOffset effSize selE nodes (idx + k + 1) ≤
          rowOffset effSize selE nodes j :=
        rowOffset_mono effSize selE nodes _ _ (by omega)
      omega

/-- C3: under the Jacobian selections (`JacobianOnly` or `All`), `compute`
on a `setup` model of an index-sane tree fills the Jacobian column of each
selected joint from that joint's own subtree slice
`[idx, idx + width)` only: every selected effector inside the slice has its
partial-derivative block written at its row offset, and the rows of every
selected effector outside the slice still hold the `setup` zeros. -/
theorem C3_jacobian_column_fill {Load Id A F : Type} [DecidableEq Id]
    [Zero F] (trans : Nat → Load → A) (concat : A → A → A) (neutral : A)
    (effSize : Load → Nat) (effOut : Load → A → Nat → F)
    (pd : Load → A → Load → A → Nat → F)
    (t : DepthFirstArenaTree Load Id) (selJ selE : List Id)
    (sel : ComputeSelection) (m m' : DifferentiableModel F)
    (trafos : List A)
    (hsel : sel = ComputeSelection.jacobianOnly ∨ sel = ComputeSelection.all)
    (hm : m = setup (F := F) effSize t selJ selE)
    (hm' : m' = compute trans concat neutral effSize effOut pd m t sel)
    (htr : trafos = (accumulate (fun n => n.depth)
      (fun i n a => concat a (trans i n.load)) neutral t.tree.nodes).map
        Prod.snd)
    (hrows : 0 < m.rows)
    (hidx : ∀ (k : Nat) (nd : ArenaNode Load Id), t.tree.nodes[k]? = some nd →
      nd.index = k) :
    ∃ cs : List (List F),
      m'.matrix = cs.flatten ∧
      cs.length = m.cols ∧
      ∀ (idx : Nat) (jnd : ArenaNode Load Id),
        t.tree.nodes[idx]? = some jnd →
        m.selectedJoints[idx]? = some true →
        ∃ colv jp, trafos[idx]? = some jp ∧
          cs[(m.selectedJoints.take idx).count true]? = some colv ∧
          colv.length = m.rows ∧
          (∀ (j : Nat) (e : ArenaNode Load Id), idx ≤ j →
            j < idx + jnd.width → t.tree.nodes[j]? = some e →
            m.selectedEffectors[j]? = some true →
            ∀ r, r < effSize e.load →
              ∃ off ep, m.offsets[j]? = some off ∧ trafos[j]? = some ep ∧
                colv[off + r]? = some (pd e.load ep jnd.load jp r)) ∧
          (∀ (j : Nat) (e : ArenaNode Load Id), t.tree.nodes[j]? = some e →
            m.selectedEffectors[j]? = some true →
            (j < idx ∨ idx + jnd.width ≤ j) →
            ∀ r, r < effSize e.load →
              ∃ off, m.offsets[j]? = some off ∧
                colv[off + r]? = some 0) := by
  subst hm'
  subst hm
  have hoffs : ∀ j : Nat, j < t.tree.nodes.length →
      (setup (F := F) effSize t selJ selE).offsets[j]? =
        some (rowOffset effSize selE t.tree.nodes j) := by
    intro j hj
    show (offsetsScan effSize selE 0 t.tree.nodes)[j]? = _
    rw [offsetsScan_getElem effSize selE t.tree.nodes 0 j hj]
    simp
  have hrowsR : (setup (F := F) effSize t selJ selE).rows =
      rowOffset effSize selE t.tree.nodes t.tree.nodes.length := by
    rw [rowOffset_full]
    rfl
  have htral : trafos.length = t.tree.nodes.length := by
    rw [htr, List.length_map]
    exact accScanGo_length _ _ _ t.tree.nodes 0 []
  have hselEget : ∀ (j : Nat) (e : ArenaNode Load Id),
      t.tree.nodes[j]? = some e →
      (setup (F := F) effSize t selJ selE).selectedEffectors[j]? =
        some true → e.id ∈ selE := by
    intro j e hje hsej
    have h0 : (t.tree.nodes.map fun nd => decide (nd.id ∈ selE))[j]? =
        some true := hsej
    rw [List.getElem?_map, hje] at h0
    have h1 : some (decide (e.id ∈ selE)) = some true := h0
    exact of_decide_eq_true (Option.some.inj h1)
  have hchunks : chunksOf (setup (F := F) effSize t selJ selE).rows
      (setup (F := F) effSize t selJ selE).matrix =
      List.replicate (setup (F := F) effSize t selJ selE).cols
        (List.replicate (setup (F := F) effSize t selJ selE).rows 0) := by
    have hmr : (setup (F := F) effSize t selJ selE).matrix =
        List.replicate ((setup (F := F) effSize t selJ selE).rows *
          (setup (F := F) effSize t selJ selE).cols) (0 : F) := rfl
    rw [hmr, chunksOf_replicate _ hrows (0 : F) _]
  have hmatrix : (compute trans concat neutral effSize effOut pd
      (setup (F := F) effSize t selJ selE) t sel).matrix =
      (fillColumns effSize pd t.tree.nodes trafos
        (setup (F := F) effSize t selJ selE).offsets
        (setup (F := F) effSize t selJ selE).selectedEffectors
        (chunksOf (setup (F := F) effSize t selJ selE).rows
          (setup (F := F) effSize t selJ selE).matrix)
        (((t.tree.nodes.zip trafos).enum.zip
            (setup (F := F) effSize t selJ selE).selectedJoints).filterMap
          fun q => if q.2 then some (q.1.1, q.1.2.1, q.1.2.2) else none)
        ).flatten := by
    rw [htr]
    simp only [compute]
    rw [if_pos hsel]
  refine ⟨_, hmatrix, ?_, ?_⟩
  · rw [fillColumns_length, hchunks, List.length_replicate]
  · intro idx jnd hjnd hselj
    have hjn : idx < t.tree.nodes.length := by
      by_contra hc
      rw [List.getElem?_eq_none (by omega)] at hjnd
      exact Option.noConfusion hjnd
    obtain ⟨jp, hjp⟩ : ∃ jp, trafos[idx]? = some jp :=
      ⟨trafos.get ⟨idx, (by omega)⟩, List.getElem?_eq_getElem (by omega)⟩
    have hzip : (t.tree.nodes.zip trafos)[idx]? = some (jnd, jp) :=
      List.getElem?_zip_eq_some.mpr ⟨hjnd, hjp⟩
    have henum : (t.tree.nodes.zip trafos).enum[idx]? =
        some (idx, jnd, jp) := by
      simp [List.getElem?_enum, hzip]
    have hjoints := keepNth (fun p => (p.1, p.2.1, p.2.2))
      ((t.tree.nodes.zip trafos).enum)
      (setup (F := F) effSize t selJ selE).selectedJoints idx (idx, jnd, jp)
      henum hselj
    have hc : ((setup (F := F) effSize t selJ selE).selectedJoints.take
        idx).count true < (setup (F := F) effSize t selJ selE).cols := by
      have hcols : (setup (F := F) effSize t selJ selE).cols =
          (setup (F := F) effSize t selJ selE).selectedJoints.count true :=
        rfl
      rw [hcols]
      exact count_take_lt _ idx hselj
    have hcol0 : (chunksOf (setup (F := F) effSize t selJ selE).rows
        (setup (F := F) effSize t selJ selE).matrix)[
          ((setup (F := F) effSize t selJ selE).selectedJoints.take
            idx).count true]? =
        some (List.replicate (setup (F := F) effSize t selJ selE).rows 0) := by
      rw [hchunks]
      simp [List.getElem?_replicate, hc]
    have hcs := fillColumns_getElem_some effSize pd t.tree.nodes trafos
      (setup (F := F) effSize t selJ selE).offsets
      (setup (F := F) effSize t selJ selE).selectedEffectors
      (chunksOf (setup (F := F) effSize t selJ selE).rows
        (setup (F := F) effSize t selJ selE).matrix)
      (((t.tree.nodes.zip trafos).enum.zip
          (setup (F := F) effSize t selJ selE).selectedJoints).filterMap
        fun q => if q.2 then some (q.1.1, q.1.2.1, q.1.2.2) else none)
      (((setup (F := F) effSize t selJ selE).selectedJoints.take
        idx).count true)
      (List.replicate (setup (F := F) effSize t selJ selE).rows 0)
      idx jnd jp hcol0 hjoints
    have hcs' : (fillColumns effSize pd t.tree.nodes trafos
        (setup (F := F) effSize t selJ selE).offsets
        (setup (F := F) effSize t selJ selE).selectedEffectors
        (chunksOf (setup (F := F) effSize t selJ selE).rows
          (setup (F := F) effSize t selJ selE).matrix)
        (((t.tree.nodes.zip trafos).enum.zip
            (setup (F := F) effSize t selJ selE).selectedJoints).filterMap
          fun q => if q.2 then some (q.1.1, q.1.2.1, q.1.2.2) else none))[
        ((setup (F := F) effSize t selJ selE).selectedJoints.take
          idx).count true]? =
        some (fillColumn effSize pd t.tree.nodes trafos
          (setup (F := F) effSize t selJ selE).offsets
          (t.tree.nodes.map fun nd => decide (nd.id ∈ selE)) idx jnd jp
          (List.replicate (setup (F := F) effSize t selJ selE).rows 0)) :=
      hcs
    obtain ⟨hflen, hfin, hfout⟩ := fillColumn_spec effSize pd selE
      t.tree.nodes trafos (setup (F := F) effSize t selJ selE).offsets idx
      jnd jp (List.replicate (setup (F := F) effSize t selJ selE).rows 0)
      hoffs (hidx idx jnd hjnd) htral (by rw [List.length_replicate, hrowsR])
    refine ⟨_, jp, hjp, hcs', ?_, ?_, ?_⟩
    · rw [hflen, List.length_replicate]
    · intro j e hij hjw hje hsej r hr
      have hjn' : j < t.tree.nodes.length := by
        by_contra hc'
        rw [List.getElem?_eq_none (by omega)] at hje
        exact Option.noConfusion hje
      obtain ⟨ep, hep, hval⟩ := hfin j e hij hjw hje
        (hselEget j e hje hsej) r hr
      exact ⟨rowOffset effSize selE t.tree.nodes j, ep, hoffs j hjn', hep,
        hval⟩
    · intro j e hje hsej hout r hr
      have hjn' : j < t.tree.nodes.length := by
        by_contra hc'
        rw [List.getElem?_eq_none (by omega)] at hje
        exact Option.noConfusion hje
      have hmem : e.id ∈ selE := hselEget j e hje hsej
      have hval := hfout j e hje hmem hout r hr
      refine ⟨rowOffset effSize selE t.tree.nodes j, hoffs j hjn', ?_⟩
      rw [hval]
      have hlt : rowOffset effSize selE t.tree.nodes j + r <
          (setup (F := F) effSize t selJ selE).rows := by
        have h1 : rowOffset effSize selE t.tree.nodes (j + 1) =
            rowOffset effSize selE t.tree.nodes j + effSize e.load := by
          rw [rowOffset_succ effSize selE t.tree.nodes j e hje, if_pos hmem]
        have h2 : rowOffset effSize selE t.tree.nodes (j + 1) ≤
            rowOffset effSize selE t.tree.nodes t.tree.nodes.length :=
          rowOffset_mono effSize selE t.tree.nodes _ _ (by omega)
        rw [hrowsR]
        omega
      simp [List.getElem?_replicate, hlt]

theorem C3_jacobian_column_fill_witness :
    ∃ cs : List (List ℚ),
      (compute (fun i l => ((i + l : ℕ) : ℚ)) (fun a b => a + b) 0
          (fun _ => 1) (fun _ p _ => p) (fun _ ep _ jp _ => ep + jp)
          (setup (F := ℚ) (fun _ => 1)
            (⟨⟨[⟨10, 0, 0, [1], 2, 0, none⟩, ⟨20, 1, 1, [], 1, 1, some 0⟩],
              []⟩⟩ : DepthFirstArenaTree ℕ ℕ) [] [1])
          (⟨⟨[⟨10, 0, 0, [1], 2, 0, none⟩, ⟨20, 1, 1, [], 1, 1, some 0⟩],
            []⟩⟩ : DepthFirstArenaTree ℕ ℕ)
          ComputeSelection.jacobianOnly).matrix = cs.flatten ∧
      cs.length = (setup (F := ℚ) (fun _ => 1)
        (⟨⟨[⟨10, 0, 0, [1], 2, 0, none⟩, ⟨20, 1, 1, [], 1, 1, some 0⟩],
          []⟩⟩ : DepthFirstArenaTree ℕ ℕ) [] [1]).cols := by
  obtain ⟨cs, h1, h2, _⟩ := C3_jacobian_column_fill
    (fun i l => ((i + l : ℕ) : ℚ)) (fun a b => a + b) 0 (fun _ => 1)
    (fun _ p _ => p) (fun _ ep _ jp _ => ep + jp)
    (⟨⟨[⟨10, 0, 0, [1], 2, 0, none⟩, ⟨20, 1, 1, [], 1, 1, some 0⟩],
      []⟩⟩ : DepthFirstArenaTree ℕ ℕ) [] [1]
    ComputeSelection.jacobianOnly _ _ _
    (Or.inl rfl) rfl rfl rfl (by decide)
    (by
      intro k nd hk
      have hklt : k < 2 := by
        have := (List.getElem?_eq_some.mp hk).1
        simpa using this
      interval_cases k
      · simp only [List.getElem?_cons_zero, Option.some_inj] at hk
        rw [← hk]
      · simp only [List.getElem?_cons_succ, List.getElem?_cons_zero,
          Option.some_inj] at hk
        rw [← hk])
  exact ⟨cs, h1, h2⟩

/-! ## Ancestor chains on parent-decreasing arenas (towards claim C1) -/

theorem parentOf_some_lt {Load Id : Type} (nodes : List (ArenaNode Load Id))
    (hpar : ∀ (k : Nat) (nd : ArenaNode Load Id), nodes[k]? = some nd →
      ∀ q, nd.parentRef = some q → q < k)
    (i p : Nat) (hp : parentOf nodes i = some p) : p < i := by
  unfold parentOf at hp
  cases hn : nodes[i]? with
  | none => rw [hn] at hp; exact Option.noConfusion hp
  | some nd =>
    rw [hn] at hp
    exact hpar i nd hn p hp

theorem ancChain_parent {Load Id : Type} (nodes : List (ArenaNode Load Id))
    (hpar : ∀ (k : Nat) (nd : ArenaNode Load Id), nodes[k]? = some nd →
      ∀ q, nd.parentRef = some q → q < k)
    (i p : Nat) (hp : parentOf nodes i = some p) :
    ancChain nodes i = p :: ancChain nodes p := by
  have hpi : p < i := parentOf_some_lt nodes hpar i p hp
  unfold ancChain
  obtain ⟨f, hf⟩ : ∃ f, i = f + 1 := ⟨i - 1, by omega⟩
  subst hf
  rw [ancChainAux_eq_parentOf, hp]
  dsimp only
  rw [ancChainAux_stable nodes hpar p f p (by omega) (le_refl p)]

theorem ancChain_none {Load Id : Type} (nodes : List (ArenaNode Load Id))
    (i : Nat) (hp : parentOf nodes i = none) :
    ancChain nodes i = [] := by
  unfold ancChain
  cases i with
  | zero => rfl
  | succ f => rw [ancChainAux_eq_parentOf, hp]

theorem ancChain_lt {Load Id : Type} (nodes : List (ArenaNode Load Id))
    (hpar : ∀ (k : Nat) (nd : ArenaNode Load Id), nodes[k]? = some nd →
      ∀ q, nd.parentRef = some q → q < k)
    (i x : Nat) (hx : x ∈ ancChain nodes i) : x < i :=
  ancChainAux_sub nodes hpar i i x hx

theorem inSubtree_le {Load Id : Type} (nodes : List (ArenaNode Load Id))
    (hpar : ∀ (k : Nat) (nd : ArenaNode Load Id), nodes[k]? = some nd →
      ∀ q, nd.parentRef = some q → q < k)
    (i j : Nat) (h : inSubtree nodes i j) : i ≤ j := by
  rcases h with h | h
  · omega
  · have := ancChain_lt nodes hpar j i h
    omega

theorem inSubtree_refl {Load Id : Type} (nodes : List (ArenaNode Load Id))
    (i : Nat) : inSubtree nodes i i := Or.inl rfl

theorem inSubtree_lt_length {Load Id : Type}
    (nodes : List (ArenaNode Load Id)) (i j : Nat) (hi : i < nodes.length)
    (h : inSubtree nodes i j) : j < nodes.length := by
  rcases h with h | h
  · omega
  · by_contra hc
    have hnone : parentOf nodes j = none := by
      unfold parentOf
      rw [List.getElem?_eq_none (by omega)]
    rw [ancChain_none nodes j hnone] at h
    exact absurd h (List.not_mem_nil i)

theorem inSubtree_trans {Load Id : Type} (nodes : List (ArenaNode Load Id))
    (hpar : ∀ (k : Nat) (nd : ArenaNode Load Id), nodes[k]? = some nd →
      ∀ q, nd.parentRef = some q → q < k) :
    ∀ (j i c : Nat), inSubtree nodes i c → inSubtree nodes c j →
      inSubtree nodes i j := by
  intro j
  induction j using Nat.strong_induction_on with
  | _ j ih =>
    intro i c h1 h2
    rcases h2 with h2 | h2
    · subst h2; exact h1
    · cases hp : parentOf nodes j with
      | none =>
        rw [ancChain_none nodes j hp] at h2
        exact absurd h2 (List.not_mem_nil c)
      | some p =>
        have hpj : p < j := parentOf_some_lt nodes hpar j p hp
        rw [ancChain_parent nodes hpar j p hp] at h2
        rcases List.mem_cons.mp h2 with hc | hc
        · subst hc
          right
          rw [ancChain_parent nodes hpar j c hp]
          rcases h1 with h1 | h1
          · rw [h1]; exact List.mem_cons_self _ _
          · exact List.mem_cons_of_mem _ h1
        · have hsub : inSubtree nodes i p :=
            ih p hpj i c h1 (Or.inr hc)
          right
          rw [ancChain_parent nodes hpar j p hp]
          rcases hsub with hsub | hsub
          · rw [hsub]; exact List.mem_cons_self _ _
          · exact List.mem_cons_of_mem _ hsub

theorem inSubtree_linear {Load Id : Type} (nodes : List (ArenaNode Load Id))
    (hpar : ∀ (k : Nat) (nd : ArenaNode Load Id), nodes[k]? = some nd →
      ∀ q, nd.parentRef = some q → q < k) :
    ∀ (j i k : Nat), inSubtree nodes i j → inSubtree nodes k j →
      inSubtree nodes i k ∨ inSubtree nodes k i := by
  intro j
  induction j using Nat.strong_induction_on with
  | _ j ih =>
    intro i k h1 h2
    rcases h1 with h1 | h1
    · subst h1; right; exact h2
    · rcases h2 with h2 | h2
      · subst h2; left; exact Or.inr h1
      · cases hp : parentOf nodes j with
        | none =>
          rw [ancChain_none nodes j hp] at h1
          exact absurd h1 (List.not_mem_nil i)
        | some p =>
          have hpj : p < j := parentOf_some_lt nodes hpar j p hp
          rw [ancChain_parent nodes hpar j p hp] at h1 h2
          have hi : inSubtree nodes i p := by
            rcases List.mem_cons.mp h1 with h | h
            · exact Or.inl h
            · exact Or.inr h
          have hk : inSubtree nodes k p := by
            rcases List.mem_cons.mp h2 with h | h
            · exact Or.inl h
            · exact Or.inr h
          exact ih p hpj i k hi hk

theorem inSubtree_child {Load Id : Type} (nodes : List (ArenaNode Load Id))
    (hpar : ∀ (k : Nat) (nd : ArenaNode Load Id), nodes[k]? = some nd →
      ∀ q, nd.parentRef = some q → q < k) :
    ∀ (j i : Nat), i ∈ ancChain nodes j →
      ∃ c, parentOf nodes c = some i ∧ inSubtree nodes c j := by
  intro j
  induction j using Nat.strong_induction_on with
  | _ j ih =>
    intro i hij
    cases hp : parentOf nodes j with
    | none =>
      rw [ancChain_none nodes j hp] at hij
      exact absurd hij (List.not_mem_nil i)
    | some p =>
      have hpj : p < j := parentOf_some_lt nodes hpar j p hp
      rw [ancChain_parent nodes hpar j p hp] at hij
      rcases List.mem_cons.mp hij with h | h
      · subst h
        exact ⟨j, hp, inSubtree_refl nodes j⟩
      · obtain ⟨c, hc1, hc2⟩ := ih p hpj i h
        refine ⟨c, hc1, ?_⟩
        exact inSubtree_trans nodes hpar j c p hc2
          (Or.inr (by rw [ancChain_parent nodes hpar j p hp]
                      exact List.mem_cons_self _ _))

/-! ## Consequences of structural well-formedness -/

theorem swf_hidx {Load Id : Type} (t : DirectedArenaTree Load Id)
    (hswf : SWF t) :
    ∀ (k : Nat) (nd : ArenaNode Load Id), t.nodes[k]? = some nd →
      nd.index = k := by
  intro k nd hk
  have hklt : k < t.nodes.length := by
    by_contra hc
    rw [List.getElem?_eq_none (by omega)] at hk
    exact Option.noConfusion hk
  exact (hswf.2 k hklt nd hk).1

theorem swf_hpar {Load Id : Type} (t : DirectedArenaTree Load Id)
    (hswf : SWF t) :
    ∀ (k : Nat) (nd : ArenaNode Load Id), t.nodes[k]? = some nd →
      ∀ q, nd.parentRef = some q → q < k := by
  intro k nd hk q hq
  have hklt : k < t.nodes.length := by
    by_contra hc
    rw [List.getElem?_eq_none (by omega)] at hk
    exact Option.noConfusion hk
  rcases Nat.eq_zero_or_pos k with h0 | h0
  · subst h0
    rw [((hswf.2 0 hklt nd hk).2.1 rfl).1] at hq
    exact Option.noConfusion hq
  · obtain ⟨p, hp1, hp2, _⟩ := (hswf.2 k hklt nd hk).2.2.1 h0
    rw [hp1] at hq
    have heq : p = q := Option.some.inj hq
    omega

theorem swf_children_mem {Load Id : Type} (t : DirectedArenaTree Load Id)
    (hswf : SWF t) (k : Nat) (nd : ArenaNode Load Id)
    (hk : t.nodes[k]? = some nd) (c : Nat) :
    c ∈ nd.children ↔
      c < t.nodes.length ∧ parentOf t.nodes c = some k := by
  have hklt : k < t.nodes.length := by
    by_contra hc
    rw [List.getElem?_eq_none (by omega)] at hk
    exact Option.noConfusion hk
  rw [(hswf.2 k hklt nd hk).2.2.2, List.mem_filter, List.mem_range]
  constructor
  · rintro ⟨h1, h2⟩
    refine ⟨h1, ?_⟩
    have h3 := of_decide_eq_true h2
    unfold parentOf
    cases hn : t.nodes[c]? with
    | none => rw [hn] at h3; exact Option.noConfusion h3
    | some cn => rw [hn] at h3; exact h3
  · rintro ⟨h1, h2⟩
    refine ⟨h1, decide_eq_true ?_⟩
    unfold parentOf at h2
    cases hn : t.nodes[c]? with
    | none => rw [hn] at h2; exact Option.noConfusion h2
    | some cn => rw [hn] at h2; exact h2

theorem swf_root_sub {Load Id : Type} (t : DirectedArenaTree Load Id)
    (hswf : SWF t) :
    ∀ j, j < t.nodes.length → inSubtree t.nodes 0 j := by
  intro j
  induction j using Nat.strong_induction_on with
  | _ j ih =>
    intro hj
    rcases Nat.eq_zero_or_pos j with h0 | h0
    · subst h0; exact inSubtree_refl t.nodes 0
    · obtain ⟨nd, hnd⟩ : ∃ nd, t.nodes[j]? = some nd :=
        ⟨t.nodes[j], List.getElem?_eq_getElem hj⟩
      obtain ⟨p, hp1, hp2, _⟩ := (hswf.2 j hj nd hnd).2.2.1 h0
      have hpo : parentOf t.nodes j = some p := by
        unfold parentOf
        rw [hnd]
        exact hp1
      have hsub : inSubtree t.nodes 0 p := ih p hp2 (by omega)
      exact inSubtree_trans t.nodes (swf_hpar t hswf) j 0 p hsub
        (Or.inr (by
          rw [ancChain_parent t.nodes (swf_hpar t hswf) j p hpo]
          exact List.mem_cons_self _ _))

/-! ## `set_root` establishes the invariants -/

theorem swf_setRoot {Load Id : Type} [DecidableEq Id]
    (t : DirectedArenaTree Load Id) (load : Load) (id : Id) :
    SWF (setRoot t load id) := by
  constructor
  · simp [setRoot]
  · intro k hk nd hnd
    have hk0 : k = 0 := by
      simp [setRoot] at hk
      omega
    subst hk0
    simp only [setRoot, List.getElem?_cons_zero, Option.some.injEq] at hnd
    subst hnd
    refine ⟨rfl, fun _ => ⟨rfl, rfl⟩, fun h => absurd h (by omega), ?_⟩
    show [] = List.filter _ (List.range 1)
    have hr1 : List.range 1 = [0] := rfl
    rw [hr1, List.filter_cons, List.filter_nil]
    rw [if_neg (by simp [setRoot])]

theorem widthOK_setRoot {Load Id : Type} [DecidableEq Id]
    (t : DirectedArenaTree Load Id) (load : Load) (id : Id) :
    widthOK (setRoot t load id) := by
  intro k hk nd hnd
  have hk0 : k = 0 := by
    simp [setRoot] at hk
    omega
  subst hk0
  simp only [setRoot, List.getElem?_cons_zero, Option.some.injEq] at hnd
  subst hnd
  show 1 = (List.filter _ (List.range 1)).length
  have hr1 : List.range 1 = [0] := rfl
  rw [hr1, List.filter_cons, List.filter_nil]
  rw [if_pos (decide_eq_true (inSubtree_refl _ 0))]
  rfl

/-! ## A successful `add` preserves the invariants -/

theorem ancChainAux_congr_le {Load Id : Type}
    (n1 n2 : List (ArenaNode Load Id))
    (hpar2 : ∀ (k : Nat) (nd : ArenaNode Load Id), n2[k]? = some nd →
      ∀ q, nd.parentRef = some q → q < k) :
    ∀ (fuel i : Nat), (∀ k, k ≤ i → parentOf n1 k = parentOf n2 k) →
      ancChainAux n1 i fuel = ancChainAux n2 i fuel := by
  intro fuel
  induction fuel with
  | zero => intro i _; rfl
  | succ f ih =>
    intro i hle
    rw [ancChainAux_eq_parentOf, ancChainAux_eq_parentOf, hle i (le_refl i)]
    cases hp : parentOf n2 i with
    | none => rfl
    | some p =>
      dsimp only
      have hpi : p < i := parentOf_some_lt n2 hpar2 i p hp
      rw [ih p (fun k hk => hle k (by omega))]

theorem parentOf_eq_getD {Load Id : Type} (nodes : List (ArenaNode Load Id))
    (j : Nat) :
    ((nodes[j]?).map (·.parentRef)).getD none = parentOf nodes j := by
  unfold parentOf
  cases nodes[j]? <;> rfl

theorem nodeById_sound {Load Id : Type} [DecidableEq Id]
    (t : DirectedArenaTree Load Id) (pid : Id) (p : ArenaNode Load Id)
    (hidx : ∀ (k : Nat) (nd : ArenaNode Load Id), t.nodes[k]? = some nd →
      nd.index = k)
    (h : nodeById t pid = some p) : t.nodes[p.index]? = some p := by
  unfold nodeById at h
  cases hl : lookupGet t.lookup pid with
  | none => rw [hl] at h; exact Option.noConfusion h
  | some i =>
    rw [hl] at h
    rw [hidx i p h]
    exact h

theorem add_ok_inv {Load Id : Type} [DecidableEq Id]
    (t t' : DirectedArenaTree Load Id) (load : Load) (id pid : Id)
    (hidx : ∀ (k : Nat) (nd : ArenaNode Load Id), t.nodes[k]? = some nd →
      nd.index = k)
    (hpar : ∀ (k : Nat) (nd : ArenaNode Load Id), t.nodes[k]? = some nd →
      ∀ q, nd.parentRef = some q → q < k)
    (h : add t load id pid = some (t', .ok id)) :
    ∃ p, nodeById t pid = some p ∧ t.nodes[p.index]? = some p ∧
      p.index < t.nodes.length ∧
      t'.lookup = lookupInsert t.lookup id t.nodes.length ∧
      t'.nodes.length = t.nodes.length + 1 ∧
      t'.nodes[t.nodes.length]? =
        some ⟨load, t.nodes.length, id, [], 1, p.depth + 1, some p.index⟩ ∧
      t'.nodes[p.index]? = some { p with
        children := p.children ++ [t.nodes.length],
        width := p.width + 1 } ∧
      (∀ (k : Nat) (nd : ArenaNode Load Id), k ≠ p.index →
        t.nodes[k]? = some nd →
        t'.nodes[k]? = some { nd with width :=
          nd.width + (if k ∈ ancChain t.nodes p.index then 1 else 0) }) := by
  obtain ⟨ha, hb, hc⟩ := add_spec t load id pid hidx hpar
  cases hpid : nodeById t pid with
  | none =>
    rw [ha hpid] at h
    simp at h
  | some p =>
    by_cases hdup : ∃ n ∈ t.nodes, n.id = id
    · rw [hb p hpid hdup] at h
      simp at h
    · push_neg at hdup
      obtain ⟨t'', hadd, hl, hlen, hnew, hpmod, hother⟩ := hc p hpid hdup
      rw [hadd] at h
      have ht : t'' = t' := by
        have h2 := Option.some.inj h
        exact (Prod.ext_iff.mp h2).1
      subst ht
      have hpse : t.nodes[p.index]? = some p :=
        nodeById_sound t pid p hidx hpid
      have hplt : p.index < t.nodes.length := by
        by_contra hcon
        rw [List.getElem?_eq_none (by omega)] at hpse
        exact Option.noConfusion hpse
      exact ⟨p, rfl, hpse, hplt, hl, hlen, hnew, hpmod, hother⟩

theorem add_preserves {Load Id : Type} [DecidableEq Id]
    (t t' : DirectedArenaTree Load Id) (load : Load) (id pid : Id)
    (hswf : SWF t) (hwok : widthOK t)
    (h : add t load id pid = some (t', .ok id)) :
    SWF t' ∧ widthOK t' := by
  obtain ⟨p, hpid, hpse, hplt, hl, hlen, hnew, hpmod, hother⟩ :=
    add_ok_inv t t' load id pid (swf_hidx t hswf) (swf_hpar t hswf) h
  have hn0 : 0 < t.nodes.length := hswf.1
  have hentry : ∀ (k : Nat) (nd' : ArenaNode Load Id),
      t'.nodes[k]? = some nd' →
      (k = t.nodes.length ∧
        nd' = ⟨load, t.nodes.length, id, [], 1, p.depth + 1, some p.index⟩) ∨
      (k = p.index ∧ nd' = { p with
          children := p.children ++ [t.nodes.length],
          width := p.width + 1 }) ∨
      (k ≠ p.index ∧ k < t.nodes.length ∧
        ∃ nd, t.nodes[k]? = some nd ∧
          nd' = { nd with width := nd.width +
            (if k ∈ ancChain t.nodes p.index then 1 else 0) }) := by
    intro k nd' hk
    have hklt : k < t.nodes.length + 1 := by
      by_contra hc
      rw [List.getElem?_eq_none (by rw [hlen]; omega)] at hk
      exact Option.noConfusion hk
    by_cases hkn : k = t.nodes.length
    · subst hkn
      rw [hnew] at hk
      left
      exact ⟨rfl, (Option.some.inj hk).symm⟩
    · by_cases hkp : k = p.index
      · subst hkp
        rw [hpmod] at hk
        right; left
        exact ⟨rfl, (Option.some.inj hk).symm⟩
      · have hkl : k < t.nodes.length := by omega
        obtain ⟨nd, hnd⟩ : ∃ nd, t.nodes[k]? = some nd :=
          ⟨t.nodes.get ⟨k, hkl⟩, List.getElem?_eq_getElem hkl⟩
        right; right
        refine ⟨hkp, hkl, nd, hnd, ?_⟩
        rw [hother k nd hkp hnd] at hk
        exact (Option.some.inj hk).symm
  have hpeq : ∀ k, k < t.nodes.length →
      parentOf t'.nodes k = parentOf t.nodes k := by
    intro k hk
    obtain ⟨nd, hnd⟩ : ∃ nd, t.nodes[k]? = some nd :=
      ⟨t.nodes.get ⟨k, hk⟩, List.getElem?_eq_getElem hk⟩
    by_cases hkp : k = p.index
    · subst hkp
      unfold parentOf
      rw [hpmod, hpse]
    · unfold parentOf
      rw [hother k nd hkp hnd, hnd]
  have hpn : parentOf t'.nodes t.nodes.length = some p.index := by
    unfold parentOf
    rw [hnew]
  have hpar' : ∀ (k : Nat) (nd : ArenaNode Load Id), t'.nodes[k]? = some nd →
      ∀ q, nd.parentRef = some q → q < k := by
    intro k nd hk q hq
    rcases hentry k nd hk with ⟨hkn, hnd⟩ | ⟨hkp, hnd⟩ |
      ⟨hkp, hkl, nd0, hnd0, hnd⟩
    · subst hkn; subst hnd
      have hqe : p.index = q := Option.some.inj hq
      omega
    · subst hkp; subst hnd
      exact swf_hpar t hswf p.index p hpse q hq
    · subst hnd
      exact swf_hpar t hswf k nd0 hnd0 q hq
  have hidx' : ∀ (k : Nat) (nd : ArenaNode Load Id), t'.nodes[k]? = some nd →
      nd.index = k := by
    intro k nd hk
    rcases hentry k nd hk with ⟨hkn, hnd⟩ | ⟨hkp, hnd⟩ |
      ⟨hkp, hkl, nd0, hnd0, hnd⟩
    · subst hkn; subst hnd; rfl
    · subst hkp; subst hnd
      exact swf_hidx t hswf p.index p hpse
    · subst hnd
      exact swf_hidx t hswf k nd0 hnd0
  have hchain_lt : ∀ j, j < t.nodes.length →
      ancChain t'.nodes j = ancChain t.nodes j := by
    intro j hj
    unfold ancChain
    exact ancChainAux_congr_le t'.nodes t.nodes (swf_hpar t hswf) j j
      (fun k hk => hpeq k (by omega))
  have hchain_new : ancChain t'.nodes t.nodes.length =
      p.index :: ancChain t.nodes p.index := by
    rw [ancChain_parent t'.nodes hpar' t.nodes.length p.index hpn]
    rw [hchain_lt p.index hplt]
  have hsub_lt : ∀ k j, j < t.nodes.length →
      (inSubtree t'.nodes k j ↔ inSubtree t.nodes k j) := by
    intro k j hj
    unfold inSubtree
    rw [hchain_lt j hj]
  have hsub_new : ∀ k, k < t.nodes.length →
      (inSubtree t'.nodes k t.nodes.length ↔
        inSubtree t.nodes k p.index) := by
    intro k hk
    unfold inSubtree
    rw [hchain_new]
    constructor
    · rintro (hh | hh)
      · omega
      · rcases List.mem_cons.mp hh with hh | hh
        · exact Or.inl hh
        · exact Or.inr hh
    · rintro (hh | hh)
      · right; rw [hh]; exact List.mem_cons_self _ _
      · right; exact List.mem_cons_of_mem _ hh
  have hfilt : ∀ (nodesX : List (ArenaNode Load Id)) (kk m : Nat),
      List.filter
        (fun j => decide (((nodesX[j]?).map (·.parentRef)).getD none =
          some kk)) (List.range m) =
      List.filter (fun j => decide (parentOf nodesX j = some kk))
        (List.range m) := by
    intro nodesX kk m
    apply List.filter_congr
    intro x _
    simp only [parentOf_eq_getD]
  have hrange : List.range (t.nodes.length + 1) =
      List.range t.nodes.length ++ [t.nodes.length] := by
    rw [List.range_succ]
  have hswf' : SWF t' := by
    constructor
    · rw [hlen]; omega
    · intro k hk nd hnd
      refine ⟨hidx' k nd hnd, ?_, ?_, ?_⟩
      · intro hk0
        subst hk0
        rcases hentry 0 nd hnd with ⟨h0n, _⟩ | ⟨h0p, hnd'⟩ |
          ⟨_, h0l, nd0, hnd0, hnd'⟩
        · omega
        · subst hnd'
          have hr := (hswf.2 0 hn0 p (by rw [h0p]; exact hpse)).2.1 rfl
          exact ⟨hr.1, hr.2⟩
        · subst hnd'
          have hr := (hswf.2 0 hn0 nd0 hnd0).2.1 rfl
          exact ⟨hr.1, hr.2⟩
      · intro hkpos
        rcases hentry k nd hnd with ⟨hkn, hnd'⟩ | ⟨hkp, hnd'⟩ |
          ⟨hkp, hkl, nd0, hnd0, hnd'⟩
        · subst hkn; subst hnd'
          refine ⟨p.index, rfl, hplt, ?_⟩
          intro pn hpn'
          rw [hpmod] at hpn'
          have hpe := Option.some.inj hpn'
          rw [← hpe]
        · subst hkp; subst hnd'
          obtain ⟨q, hq1, hq2, hq3⟩ :=
            (hswf.2 p.index hplt p hpse).2.2.1 hkpos
          refine ⟨q, hq1, hq2, ?_⟩
          intro pn hpn'
          rcases hentry q pn hpn' with ⟨hqn, _⟩ | ⟨hqp, hpn''⟩ |
            ⟨hqp, hql, nd1, hnd1, hpn''⟩
          · omega
          · omega
          · subst hpn''
            exact hq3 nd1 hnd1
        · subst hnd'
          obtain ⟨q, hq1, hq2, hq3⟩ := (hswf.2 k hkl nd0 hnd0).2.2.1 hkpos
          refine ⟨q, hq1, hq2, ?_⟩
          intro pn hpn'
          rcases hentry q pn hpn' with ⟨hqn, _⟩ | ⟨hqp, hpn''⟩ |
            ⟨hqp, hql, nd1, hnd1, hpn''⟩
          · omega
          · subst hpn''
            exact hq3 p (by rw [hqp]; exact hpse)
          · subst hpn''
            exact hq3 nd1 hnd1
      · rcases hentry k nd hnd with ⟨hkn, hnd'⟩ | ⟨hkp, hnd'⟩ |
          ⟨hkp, hkl, nd0, hnd0, hnd'⟩
        · subst hkn; subst hnd'
          show ([] : List Nat) = _
          rw [hlen, hfilt, hrange, List.filter_append]
          have h1 : List.filter
              (fun j => decide (parentOf t'.nodes j = some t.nodes.length))
              (List.range t.nodes.length) = [] := by
            rw [List.filter_eq_nil_iff]
            intro a ha
            rw [List.mem_range] at ha
            rw [decide_eq_true_eq, hpeq a ha]
            cases hpo : parentOf t.nodes a with
            | none => exact Option.noConfusion
            | some q =>
              intro hqe
              have hqa := parentOf_some_lt t.nodes (swf_hpar t hswf) a q hpo
              have : q = t.nodes.length := Option.some.inj hqe
              omega
          have h2 : List.filter
              (fun j => decide (parentOf t'.nodes j = some t.nodes.length))
              [t.nodes.length] = [] := by
            rw [List.filter_cons, List.filter_nil]
            rw [if_neg]
            rw [decide_eq_true_eq, hpn]
            intro hc
            have := Option.some.inj hc
            omega
          rw [h1, h2]
          rfl
        · subst hkp; subst hnd'
          show p.children ++ [t.nodes.length] = _
          rw [hlen, hfilt, hrange, List.filter_append]
          have h1 : List.filter
              (fun j => decide (parentOf t'.nodes j = some p.index))
              (List.range t.nodes.length) = p.children := by
            rw [List.filter_congr (fun a ha => ?_)]
            · rw [← hfilt]
              exact ((hswf.2 p.index hplt p hpse).2.2.2).symm
            · rw [List.mem_range] at ha
              rw [hpeq a ha]
          have h2 : List.filter
              (fun j => decide (parentOf t'.nodes j = some p.index))
              [t.nodes.length] = [t.nodes.length] := by
            rw [List.filter_cons, List.filter_nil]
            rw [if_pos]
            rw [decide_eq_true_eq, hpn]
          rw [h1, h2]
        · subst hnd'
          show nd0.children = _
          rw [hlen, hfilt, hrange, List.filter_append]
          have h1 : List.filter
              (fun j => decide (parentOf t'.nodes j = some k))
              (List.range t.nodes.length) = nd0.children := by
            rw [List.filter_congr (fun a ha => ?_)]
            · rw [← hfilt]
              exact ((hswf.2 k hkl nd0 hnd0).2.2.2).symm
            · rw [List.mem_range] at ha
              rw [hpeq a ha]
          have h2 : List.filter
              (fun j => decide (parentOf t'.nodes j = some k))
              [t.nodes.length] = [] := by
            rw [List.filter_cons, List.filter_nil]
            rw [if_neg]
            rw [decide_eq_true_eq, hpn]
            intro hc
            have := Option.some.inj hc
            omega
          rw [h1, h2, List.append_nil]
  refine ⟨hswf', ?_⟩
  intro k hk nd hnd
  have hfiltlt : ∀ kk : Nat, List.filter
      (fun j => decide (inSubtree t'.nodes kk j))
      (List.range t.nodes.length) =
      List.filter (fun j => decide (inSubtree t.nodes kk j))
        (List.range t.nodes.length) := by
    intro kk
    apply List.filter_congr
    intro a ha
    rw [List.mem_range] at ha
    exact decide_eq_decide.mpr (hsub_lt kk a ha)
  rcases hentry k nd hnd with ⟨hkn, hnd'⟩ | ⟨hkp, hnd'⟩ |
    ⟨hkp, hkl, nd0, hnd0, hnd'⟩
  · subst hkn; subst hnd'
    show 1 = _
    rw [hlen, hrange, List.filter_append, hfiltlt]
    have h1 : List.filter
        (fun j => decide (inSubtree t.nodes t.nodes.length j))
        (List.range t.nodes.length) = [] := by
      rw [List.filter_eq_nil_iff]
      intro a ha
      rw [List.mem_range] at ha
      rw [decide_eq_true_eq]
      intro hc
      have := inSubtree_le t.nodes (swf_hpar t hswf) t.nodes.length a hc
      omega
    have h2 : List.filter
        (fun j => decide (inSubtree t'.nodes t.nodes.length j))
        [t.nodes.length] = [t.nodes.length] := by
      rw [List.filter_cons, List.filter_nil]
      rw [if_pos (decide_eq_true (inSubtree_refl _ _))]
    rw [h1, h2]
    rfl
  · subst hkp; subst hnd'
    show p.width + 1 = _
    rw [hlen, hrange, List.filter_append, hfiltlt]
    have h2 : List.filter
        (fun j => decide (inSubtree t'.nodes p.index j))
        [t.nodes.length] = [t.nodes.length] := by
      rw [List.filter_cons, List.filter_nil]
      rw [if_pos (decide_eq_true ((hsub_new p.index hplt).mpr
        (inSubtree_refl _ _)))]
    rw [h2, List.length_append]
    rw [hwok p.index hplt p hpse]
    rfl
  · subst hnd'
    show nd0.width + _ = _
    rw [hlen, hrange, List.filter_append, hfiltlt]
    rw [List.length_append]
    rw [← hwok k hkl nd0 hnd0]
    have h2 : List.filter (fun j => decide (inSubtree t'.nodes k j))
        [t.nodes.length] =
        if k ∈ ancChain t.nodes p.index then [t.nodes.length] else [] := by
      rw [List.filter_cons, List.filter_nil]
      by_cases hmem : k ∈ ancChain t.nodes p.index
      · rw [if_pos hmem, if_pos (decide_eq_true ((hsub_new k hkl).mpr
          (Or.inr hmem)))]
      · rw [if_neg hmem, if_neg]
        rw [decide_eq_true_eq]
        intro hc
        rcases (hsub_new k hkl).mp hc with hc' | hc'
        · exact hkp hc'
        · exact hmem hc'
    rw [h2]
    by_cases hmem : k ∈ ancChain t.nodes p.index
    · rw [if_pos hmem, if_pos hmem]
      rfl
    · rw [if_neg hmem, if_neg hmem]
      rfl

theorem built_swf {Load Id : Type} [DecidableEq Id]
    (t : DirectedArenaTree Load Id) (hb : Built t) : SWF t ∧ widthOK t := by
  induction hb with
  | root t0 load id =>
    exact ⟨swf_setRoot t0 load id, widthOK_setRoot t0 load id⟩
  | step t0 t1 load id pid ht hadd ih =>
    exact add_preserves t0 t1 load id pid ih.1 ih.2 hadd

/-! ## The pre-order visit of a well-formed arena -/

theorem preorderAux_succ {Load Id : Type} (nodes : List (ArenaNode Load Id))
    (fuel i : Nat) :
    preorderAux nodes (fuel + 1) i =
      match nodes[i]? with
      | none => []
      | some nd => i :: nd.children.flatMap (preorderAux nodes fuel) := rfl

theorem preorderAux_oob {Load Id : Type} (nodes : List (ArenaNode Load Id))
    (i : Nat) (h : nodes.length ≤ i) :
    ∀ fuel, preorderAux nodes fuel i = [] := by
  intro fuel
  cases fuel with
  | zero => rfl
  | succ f => rw [preorderAux_succ, List.getElem?_eq_none h]

theorem preorderAux_stable {Load Id : Type} (t : DirectedArenaTree Load Id)
    (hswf : SWF t) :
    ∀ (d i fuel1 fuel2 : Nat), t.nodes.length - i ≤ d →
      t.nodes.length - i ≤ fuel1 → t.nodes.length - i ≤ fuel2 →
      preorderAux t.nodes fuel1 i = preorderAux t.nodes fuel2 i := by
  intro d
  induction d with
  | zero =>
    intro i fuel1 fuel2 hd h1 h2
    rw [preorderAux_oob t.nodes i (by omega), preorderAux_oob t.nodes i
      (by omega)]
  | succ d ih =>
    intro i fuel1 fuel2 hd h1 h2
    by_cases hi : i < t.nodes.length
    · obtain ⟨f1, hf1⟩ : ∃ f1, fuel1 = f1 + 1 := ⟨fuel1 - 1, by omega⟩
      obtain ⟨f2, hf2⟩ : ∃ f2, fuel2 = f2 + 1 := ⟨fuel2 - 1, by omega⟩
      subst hf1; subst hf2
      obtain ⟨nd, hnd⟩ : ∃ nd, t.nodes[i]? = some nd :=
        ⟨t.nodes.get ⟨i, hi⟩, List.getElem?_eq_getElem hi⟩
      rw [preorderAux_succ, preorderAux_succ, hnd]
      dsimp only
      congr 1
      apply List.flatMap_congr
      intro c hc
      have hcm := (swf_children_mem t hswf i nd hnd c).mp hc
      have hic : i < c :=
        parentOf_some_lt t.nodes (swf_hpar t hswf) c i hcm.2
      exact ih c f1 f2 (by omega) (by omega) (by omega)
    · rw [preorderAux_oob t.nodes i (by omega), preorderAux_oob t.nodes i
        (by omega)]

theorem preorderAux_mem {Load Id : Type} (t : DirectedArenaTree Load Id)
    (hswf : SWF t) :
    ∀ (d i fuel : Nat), t.nodes.length - i ≤ d →
      t.nodes.length - i ≤ fuel → i < t.nodes.length →
      ∀ x, (x ∈ preorderAux t.nodes fuel i ↔ inSubtree t.nodes i x) := by
  intro d
  induction d with
  | zero => intro i fuel hd hf hi x; omega
  | succ d ih =>
    intro i fuel hd hf hi x
    obtain ⟨f, hfe⟩ : ∃ f, fuel = f + 1 := ⟨fuel - 1, by omega⟩
    subst hfe
    obtain ⟨nd, hnd⟩ : ∃ nd, t.nodes[i]? = some nd :=
      ⟨t.nodes.get ⟨i, hi⟩, List.getElem?_eq_getElem hi⟩
    rw [preorderAux_succ, hnd]
    dsimp only
    rw [List.mem_cons, List.mem_flatMap]
    constructor
    · rintro (hx | ⟨c, hc, hxc⟩)
      · exact Or.inl hx.symm
      · have hcm := (swf_children_mem t hswf i nd hnd c).mp hc
        have hic : i < c :=
          parentOf_some_lt t.nodes (swf_hpar t hswf) c i hcm.2
        have hsubcx : inSubtree t.nodes c x :=
          (ih c f (by omega) (by omega) hcm.1 x).mp hxc
        have hich : inSubtree t.nodes i c := Or.inr (by
          rw [ancChain_parent t.nodes (swf_hpar t hswf) c i hcm.2]
          exact List.mem_cons_self _ _)
        exact inSubtree_trans t.nodes (swf_hpar t hswf) x i c hich hsubcx
    · intro hsub
      rcases hsub with he | hchain
      · exact Or.inl he.symm
      · obtain ⟨c, hcp, hcx⟩ :=
          inSubtree_child t.nodes (swf_hpar t hswf) x i hchain
        have hxlt : x < t.nodes.length :=
          inSubtree_lt_length t.nodes i x hi (Or.inr hchain)
        have hic : i < c :=
          parentOf_some_lt t.nodes (swf_hpar t hswf) c i hcp
        have hclt : c < t.nodes.length := by
          have := inSubtree_le t.nodes (swf_hpar t hswf) c x hcx
          omega
        right
        refine ⟨c, (swf_children_mem t hswf i nd hnd c).mpr ⟨hclt, hcp⟩, ?_⟩
        exact (ih c f (by omega) (by omega) hclt x).mpr hcx

theorem nodup_flatMap_disjoint {α β : Type} :
    ∀ (l : List α) (f : α → List β),
      (∀ a ∈ l, (f a).Nodup) →
      l.Pairwise (fun a b => ∀ x, x ∈ f a → x ∈ f b → False) →
      (l.flatMap f).Nodup := by
  intro l
  induction l with
  | nil => intro f _ _; simp
  | cons a l' ih =>
    intro f hn hp
    rw [List.flatMap_cons]
    apply List.Nodup.append (hn a (List.mem_cons_self _ _))
      (ih f (fun b hb => hn b (List.mem_cons_of_mem _ hb))
        (List.pairwise_cons.mp hp).2)
    intro x hxa hxl
    rw [List.mem_flatMap] at hxl
    obtain ⟨b, hb, hxb⟩ := hxl
    exact (List.pairwise_cons.mp hp).1 b hb x hxa hxb

theorem swf_children_pairwise {Load Id : Type}
    (t : DirectedArenaTree Load Id) (hswf : SWF t) (i : Nat)
    (nd : ArenaNode Load Id) (hnd : t.nodes[i]? = some nd) :
    nd.children.Pairwise (· < ·) := by
  have hilt : i < t.nodes.length := by
    by_contra hc
    rw [List.getElem?_eq_none (by omega)] at hnd
    exact Option.noConfusion hnd
  rw [(hswf.2 i hilt nd hnd).2.2.2]
  exact List.Pairwise.filter _ (List.pairwise_lt_range _)

theorem preorderAux_nodup {Load Id : Type} (t : DirectedArenaTree Load Id)
    (hswf : SWF t) :
    ∀ (d i fuel : Nat), t.nodes.length - i ≤ d →
      t.nodes.length - i ≤ fuel → i < t.nodes.length →
      (preorderAux t.nodes fuel i).Nodup := by
  intro d
  induction d with
  | zero => intro i fuel hd hf hi; omega
  | succ d ih =>
    intro i fuel hd hf hi
    obtain ⟨f, hfe⟩ : ∃ f, fuel = f + 1 := ⟨fuel - 1, by omega⟩
    subst hfe
    obtain ⟨nd, hnd⟩ : ∃ nd, t.nodes[i]? = some nd :=
      ⟨t.nodes.get ⟨i, hi⟩, List.getElem?_eq_getElem hi⟩
    rw [preorderAux_succ, hnd]
    dsimp only
    rw [List.nodup_cons]
    have hcfacts : ∀ c ∈ nd.children,
        c < t.nodes.length ∧ parentOf t.nodes c = some i ∧ i < c := by
      intro c hc
      have hcm := (swf_children_mem t hswf i nd hnd c).mp hc
      exact ⟨hcm.1, hcm.2,
        parentOf_some_lt t.nodes (swf_hpar t hswf) c i hcm.2⟩
    constructor
    · intro hmem
      rw [List.mem_flatMap] at hmem
      obtain ⟨c, hc, hic⟩ := hmem
      obtain ⟨hclt, hcp, hic'⟩ := hcfacts c hc
      have hsub : inSubtree t.nodes c i :=
        (preorderAux_mem t hswf (t.nodes.length - c) c f (le_refl _)
          (by omega) hclt i).mp hic
      have := inSubtree_le t.nodes (swf_hpar t hswf) c i hsub
      omega
    · apply nodup_flatMap_disjoint
      · intro c hc
        obtain ⟨hclt, _, hic'⟩ := hcfacts c hc
        exact ih c f (by omega) (by omega) hclt
      · apply List.Pairwise.imp_of_mem ?_
          (swf_children_pairwise t hswf i nd hnd)
        intro c1 c2 hc1 hc2 hlt x hx1 hx2
        obtain ⟨hclt1, hcp1, hic1⟩ := hcfacts c1 hc1
        obtain ⟨hclt2, hcp2, hic2⟩ := hcfacts c2 hc2
        have hs1 : inSubtree t.nodes c1 x :=
          (preorderAux_mem t hswf (t.nodes.length - c1) c1 f (le_refl _)
            (by omega) hclt1 x).mp hx1
        have hs2 : inSubtree t.nodes c2 x :=
          (preorderAux_mem t hswf (t.nodes.length - c2) c2 f (le_refl _)
            (by omega) hclt2 x).mp hx2
        have hchain1 : ancChain t.nodes c1 = i :: ancChain t.nodes i :=
          ancChain_parent t.nodes (swf_hpar t hswf) c1 i hcp1
        have hchain2 : ancChain t.nodes c2 = i :: ancChain t.nodes i :=
          ancChain_parent t.nodes (swf_hpar t hswf) c2 i hcp2
        rcases inSubtree_linear t.nodes (swf_hpar t hswf) x c1 c2 hs1 hs2
          with hcc | hcc
        · rcases hcc with he | hm
          · omega
          · rw [hchain2] at hm
            rcases List.mem_cons.mp hm with hm | hm
            · omega
            · have := ancChain_lt t.nodes (swf_hpar t hswf) i c1 hm
              omega
        · rcases hcc with he | hm
          · omega
          · rw [hchain1] at hm
            rcases List.mem_cons.mp hm with hm | hm
            · omega
            · have := ancChain_lt t.nodes (swf_hpar t hswf) i c2 hm
              omega

theorem preorderAux_perm {Load Id : Type} (t : DirectedArenaTree Load Id)
    (hswf : SWF t) (i fuel : Nat) (hf : t.nodes.length - i ≤ fuel)
    (hi : i < t.nodes.length) :
    List.Perm (preorderAux t.nodes fuel i)
      ((List.range t.nodes.length).filter
        (fun j => decide (inSubtree t.nodes i j))) := by
  apply List.perm_of_nodup_nodup_toFinset_eq
  · exact preorderAux_nodup t hswf (t.nodes.length - i) i fuel (le_refl _)
      hf hi
  · exact (List.nodup_range _).filter _
  · ext x
    simp only [List.mem_toFinset, List.mem_filter, List.mem_range,
      decide_eq_true_eq]
    rw [preorderAux_mem t hswf (t.nodes.length - i) i fuel (le_refl _) hf
      hi x]
    constructor
    · intro hx
      exact ⟨inSubtree_lt_length t.nodes i x hi hx, hx⟩
    · intro hx
      exact hx.2

theorem preorderAux_length {Load Id : Type} (t : DirectedArenaTree Load Id)
    (hswf : SWF t) (hwok : widthOK t) (i fuel : Nat)
    (nd : ArenaNode Load Id) (hf : t.nodes.length - i ≤ fuel)
    (hi : i < t.nodes.length) (hnd : t.nodes[i]? = some nd) :
    (preorderAux t.nodes fuel i).length = nd.width := by
  rw [(preorderAux_perm t hswf i fuel hf hi).length_eq]
  exact (hwok i hi nd hnd).symm

/-! ## The captured order is a permutation; index translation -/

theorem preorder_perm_range {Load Id : Type} (t : DirectedArenaTree Load Id)
    (hswf : SWF t) :
    List.Perm (preorder t) (List.range t.nodes.length) := by
  unfold preorder
  have h := preorderAux_perm t hswf 0 t.nodes.length (by omega) hswf.1
  rw [List.filter_eq_self.mpr ?_] at h
  · exact h
  · intro a ha
    rw [List.mem_range] at ha
    exact decide_eq_true (swf_root_sub t hswf a ha)

theorem preorder_length_eq {Load Id : Type} (t : DirectedArenaTree Load Id)
    (hswf : SWF t) : (preorder t).length = t.nodes.length :=
  (preorder_perm_range t hswf).length_eq.trans (List.length_range _)

theorem preorder_nodup {Load Id : Type} (t : DirectedArenaTree Load Id)
    (hswf : SWF t) : (preorder t).Nodup :=
  preorderAux_nodup t hswf t.nodes.length 0 t.nodes.length (by omega)
    (by omega) hswf.1

theorem preorder_mem_iff {Load Id : Type} (t : DirectedArenaTree Load Id)
    (hswf : SWF t) (x : Nat) :
    x ∈ preorder t ↔ x < t.nodes.length := by
  rw [(preorder_perm_range t hswf).mem_iff, List.mem_range]

theorem indexOf_preorder_lt {Load Id : Type} (t : DirectedArenaTree Load Id)
    (hswf : SWF t) (j : Nat) (hj : j < t.nodes.length) :
    (preorder t).indexOf j < t.nodes.length := by
  rw [← preorder_length_eq t hswf]
  exact List.indexOf_lt_length.mpr ((preorder_mem_iff t hswf j).mpr hj)

theorem preorder_getElem_indexOf {Load Id : Type}
    (t : DirectedArenaTree Load Id) (hswf : SWF t) (j : Nat)
    (hj : j < t.nodes.length) :
    (preorder t)[(preorder t).indexOf j]? = some j := by
  have hlt : (preorder t).indexOf j < (preorder t).length := by
    rw [preorder_length_eq t hswf]
    exact indexOf_preorder_lt t hswf j hj
  rw [List.getElem?_eq_getElem hlt]
  exact congrArg some (List.indexOf_get hlt)

theorem preorder_indexOf_getElem {Load Id : Type}
    (t : DirectedArenaTree Load Id) (hswf : SWF t) (k : Nat)
    (hk : k < (preorder t).length) :
    (preorder t).indexOf ((preorder t).get ⟨k, hk⟩) = k :=
  List.indexOf_getElem (preorder_nodup t hswf) k hk

theorem map_indexOf_preorder {Load Id : Type}
    (t : DirectedArenaTree Load Id) (hswf : SWF t) :
    (preorder t).map (fun j => (preorder t).indexOf j) =
      List.range t.nodes.length := by
  apply List.ext_getElem
  · rw [List.length_map, preorder_length_eq t hswf, List.length_range]
  · intro k h1 h2
    rw [List.getElem_map, List.getElem_range]
    exact preorder_indexOf_getElem t hswf k (by
      rw [List.length_map] at h1
      exact h1)

theorem preorder_head {Load Id : Type} (t : DirectedArenaTree Load Id)
    (hswf : SWF t) :
    ∃ rest, preorder t = 0 :: rest := by
  obtain ⟨f, hf⟩ : ∃ f, t.nodes.length = f + 1 :=
    ⟨t.nodes.length - 1, by have := hswf.1; omega⟩
  obtain ⟨nd, hnd⟩ : ∃ nd, t.nodes[0]? = some nd :=
    ⟨t.nodes.get ⟨0, hswf.1⟩, List.getElem?_eq_getElem hswf.1⟩
  unfold preorder
  rw [hf, preorderAux_succ, hnd]
  exact ⟨_, rfl⟩

theorem indexOf_preorder_zero {Load Id : Type}
    (t : DirectedArenaTree Load Id) (hswf : SWF t) :
    (preorder t).indexOf 0 = 0 := by
  obtain ⟨rest, hr⟩ := preorder_head t hswf
  rw [hr]
  exact List.indexOf_cons_self 0 rest

theorem root_width {Load Id : Type} (t : DirectedArenaTree Load Id)
    (hswf : SWF t) (hwok : widthOK t) (nd : ArenaNode Load Id)
    (hnd : t.nodes[0]? = some nd) : nd.width = t.nodes.length := by
  rw [hwok 0 hswf.1 nd hnd]
  rw [List.filter_eq_self.mpr (fun a ha => by
    rw [List.mem_range] at ha
    exact decide_eq_true (swf_root_sub t hswf a ha))]
  exact List.length_range _

theorem append_eq_range' (xs ys : List Nat) (a L : Nat)
    (h : xs ++ ys = List.range' a L) :
    xs = List.range' a xs.length ∧
      ys = List.range' (a + xs.length) ys.length := by
  have hlen : xs.length + ys.length = L := by
    rw [← List.length_append, h, List.length_range']
  rw [show L = ys.length + xs.length by omega, ← List.range'_append_1] at h
  exact List.append_inj h (by rw [List.length_range'])

/-- Top-down: translating the pre-order visit from node `i` through the
captured order gives exactly the contiguous range starting at `i`'s new
index, of length `i`'s subtree width. -/
theorem preorder_map_indexOf_range' {Load Id : Type}
    (t : DirectedArenaTree Load Id) (hswf : SWF t) (hwok : widthOK t) :
    ∀ (i : Nat) (nd : ArenaNode Load Id), i < t.nodes.length →
      t.nodes[i]? = some nd →
      (preorderAux t.nodes t.nodes.length i).map
        (fun j => (preorder t).indexOf j) =
      List.range' ((preorder t).indexOf i) nd.width := by
  intro i
  induction i using Nat.strong_induction_on with
  | _ i ih =>
    intro nd hi hnd
    rcases Nat.eq_zero_or_pos i with h0 | h0
    · subst h0
      show ((preorder t).map fun j => (preorder t).indexOf j) = _
      rw [map_indexOf_preorder t hswf, indexOf_preorder_zero t hswf,
        root_width t hswf hwok nd hnd, List.range_eq_range']
    · obtain ⟨p, hp1, hp2, _⟩ := (hswf.2 i hi nd hnd).2.2.1 h0
      have hpo : parentOf t.nodes i = some p := by
        unfold parentOf
        rw [hnd]
        exact hp1
      have hplt : p < t.nodes.length := by omega
      obtain ⟨pn, hpn⟩ : ∃ pn, t.nodes[p]? = some pn :=
        ⟨t.nodes.get ⟨p, hplt⟩, List.getElem?_eq_getElem hplt⟩
      have hIH := ih p hp2 pn hplt hpn
      obtain ⟨f, hfe⟩ : ∃ f, t.nodes.length = f + 1 :=
        ⟨t.nodes.length - 1, by omega⟩
      rw [hfe, preorderAux_succ, hpn] at hIH
      dsimp only at hIH
      rw [List.map_cons] at hIH
      have hw1 : 1 ≤ pn.width := by
        have hwp := hwok p hplt pn hpn
        have hpmem : p ∈ (List.range t.nodes.length).filter
            (fun j => decide (inSubtree t.nodes p j)) := by
          rw [List.mem_filter, List.mem_range]
          exact ⟨hplt, decide_eq_true (inSubtree_refl _ _)⟩
        have hpos := List.length_pos_of_mem hpmem
        omega
      obtain ⟨w', hw'⟩ : ∃ w', pn.width = w' + 1 := ⟨pn.width - 1, by omega⟩
      rw [hw', List.range'_succ] at hIH
      have hIH2 := (List.cons_eq_cons.mp hIH).2
      have hichild : i ∈ pn.children :=
        (swf_children_mem t hswf p pn hpn i).mpr ⟨hi, hpo⟩
      obtain ⟨cs1, cs2, hcs⟩ := List.append_of_mem hichild
      rw [hcs, List.flatMap_append, List.flatMap_cons] at hIH2
      rw [List.map_append, List.map_append] at hIH2
      obtain ⟨_, hmid⟩ := append_eq_range' _ _ _ _ hIH2
      obtain ⟨hseg, _⟩ := append_eq_range' _ _ _ _ hmid
      have hf1 : 1 ≤ f := by omega
      have hlen_i : (preorderAux t.nodes f i).length = nd.width :=
        preorderAux_length t hswf hwok i f nd (by omega) hi hnd
      have hlenmap : ((preorderAux t.nodes f i).map
          (fun j => (preorder t).indexOf j)).length = nd.width := by
        rw [List.length_map, hlen_i]
      rw [hlenmap] at hseg
      have hw1' : 1 ≤ nd.width := by
        have hwi := hwok i hi nd hnd
        have himem : i ∈ (List.range t.nodes.length).filter
            (fun j => decide (inSubtree t.nodes i j)) := by
          rw [List.mem_filter, List.mem_range]
          exact ⟨hi, decide_eq_true (inSubtree_refl _ _)⟩
        have hpos := List.length_pos_of_mem himem
        omega
      have hpre_head : (preorderAux t.nodes f i)[0]? = some i := by
        obtain ⟨g, hg⟩ : ∃ g, f = g + 1 := ⟨f - 1, by omega⟩
        rw [hg, preorderAux_succ, hnd]
        simp
      have hhead := congrArg (fun l => l[0]?) hseg
      simp only [List.getElem?_map, hpre_head, Option.map_some'] at hhead
      obtain ⟨w2, hw2⟩ : ∃ w2, nd.width = w2 + 1 := ⟨nd.width - 1, by omega⟩
      rw [hw2, List.range'_succ] at hhead
      simp only [List.getElem?_cons_zero] at hhead
      have hAeq := Option.some.inj hhead
      rw [← hAeq] at hseg
      rw [preorderAux_stable t hswf (t.nodes.length - i) i t.nodes.length f
        (le_refl _) (by omega) (by omega)]
      exact hseg

/-! ## The depth-first conversion realizes the translated pre-order -/

theorem updateChildIndices_getElem {Load Id : Type}
    (nodes : List (ArenaNode Load Id)) (ord : List Nat) (k : Nat)
    (nd : ArenaNode Load Id) (h : nodes[k]? = some nd) :
    (updateChildIndices nodes ord)[k]? =
      some { nd with children := nd.children.map (fun c => ord.indexOf c),
                     index := ord.indexOf nd.index } := by
  unfold updateChildIndices
  rw [List.getElem?_map, h]
  rfl

theorem drop_take_eq_filterMap {α : Type} :
    ∀ (w k : Nat) (l : List α), k + w ≤ l.length →
      (l.drop k).take w = (List.range' k w).filterMap (fun j => l[j]?) := by
  intro w
  induction w with
  | zero => intro k l _; rfl
  | succ w' ih =>
    intro k l h
    have hk : k < l.length := by omega
    rw [List.drop_eq_getElem_cons hk, List.take_succ_cons, List.range'_succ,
      List.filterMap_cons_some (List.getElem?_eq_getElem hk)]
    congr 1
    exact ih (k + 1) l (by omega)

theorem preorderAux_translate {Load Id : Type}
    (t : DirectedArenaTree Load Id) (hswf : SWF t)
    (dflt : ArenaNode Load Id) :
    ∀ (fuel i : Nat), i < t.nodes.length →
      preorderAux
        (naiveReorder dflt (updateChildIndices t.nodes (preorder t))
          (preorder t)) fuel ((preorder t).indexOf i) =
      (preorderAux t.nodes fuel i).map (fun j => (preorder t).indexOf j) := by
  intro fuel
  induction fuel with
  | zero => intro i _; rfl
  | succ f ihf =>
    intro i hi
    obtain ⟨nd, hnd⟩ : ∃ nd, t.nodes[i]? = some nd :=
      ⟨t.nodes.get ⟨i, hi⟩, List.getElem?_eq_getElem hi⟩
    have hord_pi : (preorder t)[(preorder t).indexOf i]? = some i :=
      preorder_getElem_indexOf t hswf i hi
    have hn1 : (updateChildIndices t.nodes (preorder t))[i]? =
        some { nd with
          children := nd.children.map (fun c => (preorder t).indexOf c),
          index := (preorder t).indexOf nd.index } :=
      updateChildIndices_getElem t.nodes (preorder t) i nd hnd
    have hn2 : (naiveReorder dflt (updateChildIndices t.nodes (preorder t))
        (preorder t))[(preorder t).indexOf i]? =
        some { nd with
          children := nd.children.map (fun c => (preorder t).indexOf c),
          index := (preorder t).indexOf nd.index } := by
      unfold naiveReorder
      rw [List.getElem?_map, hord_pi, Option.map_some']
      rw [List.getD_eq_getElem?_getD, hn1]
      rfl
    rw [preorderAux_succ, preorderAux_succ, hnd, hn2]
    dsimp only
    rw [List.map_cons]
    congr 1
    rw [List.flatMap_map, List.map_flatMap]
    apply List.flatMap_congr
    intro c hc
    have hcm := (swf_children_mem t hswf i nd hnd c).mp hc
    exact ihf c hcm.1

/-- C1: every tree built by `set_root` and successful `add` calls converts
to a depth-first tree in which, for every node stored at slot `k`, the
stored index is `k`, the pre-order visit starting at `k` is exactly the
contiguous index range `[k, k + width)`, and `iter_sub` yields exactly the
nodes of that pre-order visit, in visit order. -/
theorem C1_depth_first_subtree_contiguous {Load Id : Type} [DecidableEq Id]
    (t : DirectedArenaTree Load Id) (hb : Built t) :
    ∃ t' : DepthFirstArenaTree Load Id, toDepthFirst t = some t' ∧
      t'.tree.nodes.length = t.nodes.length ∧
      ∀ (k : Nat) (nd : ArenaNode Load Id), t'.tree.nodes[k]? = some nd →
        nd.index = k ∧
        preorderAux t'.tree.nodes t'.tree.nodes.length k =
          List.range' k nd.width ∧
        iterSub t' nd =
          (preorderAux t'.tree.nodes t'.tree.nodes.length k).filterMap
            (fun j => t'.tree.nodes[j]?) := by
  obtain ⟨hswf, hwok⟩ := built_swf t hb
  obtain ⟨r₀, hr₀⟩ : ∃ r₀, t.nodes[0]? = some r₀ :=
    ⟨t.nodes.get ⟨0, hswf.1⟩, List.getElem?_eq_getElem hswf.1⟩
  have hn1len : (updateChildIndices t.nodes (preorder t)).length =
      t.nodes.length := by
    unfold updateChildIndices
    rw [List.length_map]
  have hperm : List.Perm (preorder t)
      (List.range (updateChildIndices t.nodes (preorder t)).length) := by
    rw [hn1len]
    exact preorder_perm_range t hswf
  have hsort := sortByIndices_eq_naiveReorder r₀
    (updateChildIndices t.nodes (preorder t)) (preorder t) hperm
  have htd : toDepthFirst t = some ⟨{
      nodes := naiveReorder r₀ (updateChildIndices t.nodes (preorder t))
        (preorder t),
      lookup := (naiveReorder r₀ (updateChildIndices t.nodes (preorder t))
        (preorder t)).foldl (fun m nd => lookupInsert m nd.id nd.index)
        t.lookup }⟩ := by
    simp only [toDepthFirst]
    rw [hsort]
  have hlen2 : (naiveReorder r₀ (updateChildIndices t.nodes (preorder t))
      (preorder t)).length = t.nodes.length := by
    unfold naiveReorder
    rw [List.length_map, preorder_length_eq t hswf]
  have hN2 : ∀ k : Nat, k < t.nodes.length →
      ∃ (i : Nat) (nd : ArenaNode Load Id),
        (preorder t)[k]? = some i ∧ i < t.nodes.length ∧
        t.nodes[i]? = some nd ∧ (preorder t).indexOf i = k ∧
        (naiveReorder r₀ (updateChildIndices t.nodes (preorder t))
          (preorder t))[k]? =
          some { nd with
            children := nd.children.map (fun c => (preorder t).indexOf c),
            index := k } := by
    intro k hkn
    have hkord : k < (preorder t).length := by
      rw [preorder_length_eq t hswf]
      exact hkn
    obtain ⟨i, hordk⟩ : ∃ i, (preorder t)[k]? = some i :=
      ⟨(preorder t).get ⟨k, hkord⟩, List.getElem?_eq_getElem hkord⟩
    have hiord : i ∈ preorder t := by
      rw [List.getElem?_eq_getElem hkord] at hordk
      rw [← Option.some.inj hordk]
      exact List.getElem_mem hkord
    have hi : i < t.nodes.length := (preorder_mem_iff t hswf i).mp hiord
    obtain ⟨nd, hnd⟩ : ∃ nd, t.nodes[i]? = some nd :=
      ⟨t.nodes.get ⟨i, hi⟩, List.getElem?_eq_getElem hi⟩
    have hπi : (preorder t).indexOf i = k := by
      have hig := preorder_indexOf_getElem t hswf k hkord
      have hveq : (preorder t).get ⟨k, hkord⟩ = i := by
        rw [List.getElem?_eq_getElem hkord] at hordk
        exact Option.some.inj hordk
      rw [hveq] at hig
      exact hig
    refine ⟨i, nd, hordk, hi, hnd, hπi, ?_⟩
    unfold naiveReorder
    rw [List.getElem?_map, hordk, Option.map_some']
    rw [List.getD_eq_getElem?_getD,
      updateChildIndices_getElem t.nodes (preorder t) i nd hnd]
    have hidxi : nd.index = i := swf_hidx t hswf i nd hnd
    rw [hidxi, hπi]
    rfl
  refine ⟨_, htd, hlen2, ?_⟩
  intro k nd' hk'
  have hkn : k < t.nodes.length := by
    by_contra hc
    rw [List.getElem?_eq_none (by rw [hlen2]; omega)] at hk'
    exact Option.noConfusion hk'
  obtain ⟨i, nd, hordk, hi, hnd, hπi, hN2k⟩ := hN2 k hkn
  rw [hN2k] at hk'
  have hnd' : nd' = { nd with
      children := nd.children.map (fun c => (preorder t).indexOf c),
      index := k } := (Option.some.inj hk').symm
  subst hnd'
  have htrans : preorderAux
      (naiveReorder r₀ (updateChildIndices t.nodes (preorder t))
        (preorder t)) t.nodes.length k =
      List.range' k nd.width := by
    rw [← hπi]
    rw [preorderAux_translate t hswf r₀ t.nodes.length i hi]
    rw [preorder_map_indexOf_range' t hswf hwok i nd hi hnd]
  have hall : ∀ x ∈ List.range' k nd.width, x < t.nodes.length := by
    intro x hx
    rw [← hπi, ← preorder_map_indexOf_range' t hswf hwok i nd hi hnd] at hx
    obtain ⟨j, hj, hjx⟩ := List.mem_map.mp hx
    have hjsub : inSubtree t.nodes i j :=
      (preorderAux_mem t hswf (t.nodes.length - i) i t.nodes.length
        (le_refl _) (by omega) hi j).mp hj
    have hjlt : j < t.nodes.length := inSubtree_lt_length t.nodes i j hi hjsub
    rw [← hjx]
    exact indexOf_preorder_lt t hswf j hjlt
  have hbound : k + nd.width ≤ t.nodes.length := by
    rcases Nat.eq_zero_or_pos nd.width with hw0 | hw0
    · omega
    · have hx := hall (k + nd.width - 1)
        (List.mem_range'_1.mpr ⟨by omega, by omega⟩)
      omega
  refine ⟨rfl, ?_, ?_⟩
  · show preorderAux _ (naiveReorder r₀
      (updateChildIndices t.nodes (preorder t)) (preorder t)).length k = _
    rw [hlen2]
    exact htrans
  · show (((naiveReorder r₀ (updateChildIndices t.nodes (preorder t))
        (preorder t)).drop k).take nd.width) =
      (preorderAux (naiveReorder r₀ (updateChildIndices t.nodes (preorder t))
          (preorder t))
        (naiveReorder r₀ (updateChildIndices t.nodes (preorder t))
          (preorder t)).length k).filterMap
        (fun j => (naiveReorder r₀ (updateChildIndices t.nodes (preorder t))
          (preorder t))[j]?)
    rw [hlen2, htrans]
    exact drop_take_eq_filterMap nd.width k _ (by rw [hlen2]; omega)

theorem C1_depth_first_subtree_contiguous_witness :
    ∃ t' : DepthFirstArenaTree ℕ ℕ,
      toDepthFirst
        (⟨[⟨10, 0, 0, [1], 2, 0, none⟩, ⟨20, 1, 1, [], 1, 1, some 0⟩],
          [(1, 1), (0, 0)]⟩ : DirectedArenaTree ℕ ℕ) = some t' ∧
      t'.tree.nodes.length = 2 := by
  obtain ⟨t', h1, h2, _⟩ := C1_depth_first_subtree_contiguous
    (⟨[⟨10, 0, 0, [1], 2, 0, none⟩, ⟨20, 1, 1, [], 1, 1, some 0⟩],
      [(1, 1), (0, 0)]⟩ : DirectedArenaTree ℕ ℕ)
    (Built.step _ _ 20 1 0 (Built.root ⟨[], []⟩ 10 0) rfl)
  exact ⟨t', h1, h2⟩

end Mannequin
